import Mathlib

/-!
# Pokerface: a segment tree with lazy flips

A verification development for `C++_Pokerface.cpp`.  The program keeps `n`
cards, all face up at the start, in a perfect binary tree of height
`treeHeight = ceil (log2 (n + 1))`.  `waveHand l r` turns over the cards
`l..r`, `answerAud l r` counts the face-up cards in `l..r`.

## Embedding

* A `treeNode` value is an owned subtree; `treeNode.null` is the `NULL`
  pointer in a `left`/`right`/`root` field.
* A `treeNode*` held in a local variable or in the `path` table is a `Ptr`:
  `none` is `NULL`, `some ds` is the node reached from the root by the
  directions `ds` (`false` = `left`, `true` = `right`).  Every node is
  allocated once by `new` and owned by one parent, so two such pointers are
  equal exactly when the direction lists are equal.
* Dereferencing `NULL`, or indexing `path` or `twoPowers` outside
  `0..MAX_HEIGHT`, makes the operation return `none`.
* `int` values are `Int`; heights and loop counters that the code keeps
  non-negative are `Nat`.  Under the stored-count invariant every count lies
  in `0..2^20`, so 32-bit overflow does not occur.
* `(int)ceil(log2(treeN))` is taken as the exact ceiling of the base-two
  logarithm (`ceilLog2`).
-/

namespace Pokerface

/-! ## Constants -/

/-- Max allowed input n. -/
def MAX_N : Int := 1000000

/-- Max height of the segment tree (the largest subscript of `path` and `twoPowers`). -/
def MAX_HEIGHT : Nat := 20

/-- The table `twoPowers[MAX_HEIGHT + 1]`. -/
def twoPowers : List Int :=
  [1, 2, 4, 8, 16, 32, 64, 128, 256, 512, 1024, 2048, 4096, 8192,
   16384, 32768, 65536, 131072, 262144, 524288, 1048576]

/-- The read `twoPowers[i]`; `none` when `i` is outside the table. -/
def twoPowersAt (i : Int) : Option Int :=
  if 0 ≤ i then twoPowers[i.toNat]? else none

/-! ## Data model -/

/-- The class `treeNode`; `null` is the `NULL` pointer. -/
inductive treeNode where
  | null : treeNode
  | node (numFaceDown middle : Int) (flipped : Bool) (left right : treeNode) : treeNode

/-- A `treeNode*` into the tree owned by `root`. -/
abbrev Ptr := Option (List Bool)

/-- The globals `treeHeight`, `root` and `path`. -/
structure State where
  treeHeight : Nat
  root : treeNode
  path : Nat → Nat → Ptr

/-- The subtree reached by following directions; `null` when the walk leaves the tree. -/
def treeNode.sub : treeNode → List Bool → treeNode
  | t, [] => t
  | .null, _ :: _ => .null
  | .node _ _ _ l r, d :: ds => treeNode.sub (if d then r else l) ds

/-- The tree with the subtree at the given position replaced. -/
def treeNode.replace : treeNode → List Bool → treeNode → treeNode
  | _, [], x => x
  | .null, _ :: _, _ => .null
  | .node n m f l r, d :: ds, x =>
      if d then .node n m f l (treeNode.replace r ds x)
      else .node n m f (treeNode.replace l ds x) r

/-- The field `flipped` of a node (`false` for `NULL`). -/
def treeNode.flag : treeNode → Bool
  | .null => false
  | .node _ _ f _ _ => f

/-- The field `numFaceDown` of a node (`0` for `NULL`). -/
def treeNode.num : treeNode → Int
  | .null => 0
  | .node n _ _ _ _ => n

/-- The field `middle` of a node (`0` for `NULL`). -/
def treeNode.mid : treeNode → Int
  | .null => 0
  | .node _ m _ _ _ => m

/-- The field `right` (direction `true`) or `left` (direction `false`) of a node. -/
def treeNode.child (d : Bool) : treeNode → treeNode
  | .null => .null
  | .node _ _ _ l r => if d then r else l

/-- The node with the field `flipped` set. -/
def treeNode.setFlag (b : Bool) : treeNode → treeNode
  | .null => .null
  | .node n m _ l r => .node n m b l r

/-- The node with the field `numFaceDown` set. -/
def treeNode.setNum (v : Int) : treeNode → treeNode
  | .null => .null
  | .node _ m f l r => .node v m f l r

/-- The globals with another tree in `root`. -/
def State.withRoot (s : State) (t : treeNode) : State := { s with root := t }

/-- The node a pointer designates; `none` for `NULL`. -/
def deref (s : State) (p : Ptr) : Option treeNode :=
  match p with
  | none => none
  | some ds =>
    match s.root.sub ds with
    | .null => none
    | .node n m f l r => some (.node n m f l r)

/-- The read `p->flipped`. -/
def getFlipped (s : State) (p : Ptr) : Option Bool :=
  (deref s p).map treeNode.flag

/-- The read `p->numFaceDown`. -/
def getNum (s : State) (p : Ptr) : Option Int :=
  (deref s p).map treeNode.num

/-- The read `p->middle`. -/
def getMiddle (s : State) (p : Ptr) : Option Int :=
  (deref s p).map treeNode.mid

/-- The pointer held in a child field of the node at `ds`. -/
def childPtr (ds : List Bool) (d : Bool) (t : treeNode) : Ptr :=
  match t.child d with
  | .null => none
  | .node _ _ _ _ _ => some (ds ++ [d])

/-- The read `p->left`, as a pointer. -/
def getLeft (s : State) (p : Ptr) : Option Ptr :=
  match p with
  | none => none
  | some ds => (deref s p).map (childPtr ds false)

/-- The read `p->right`, as a pointer. -/
def getRight (s : State) (p : Ptr) : Option Ptr :=
  match p with
  | none => none
  | some ds => (deref s p).map (childPtr ds true)

/-- The write `p->flipped = b`. -/
def setFlipped (s : State) (p : Ptr) (b : Bool) : Option State :=
  match p with
  | none => none
  | some ds => (deref s p).map (fun t => s.withRoot (s.root.replace ds (t.setFlag b)))

/-- The write `p->numFaceDown = v`. -/
def setNum (s : State) (p : Ptr) (v : Int) : Option State :=
  match p with
  | none => none
  | some ds => (deref s p).map (fun t => s.withRoot (s.root.replace ds (t.setNum v)))

/-- The read `path[pathID][i]`. -/
def pathGet (s : State) (pathID i : Nat) : Option Ptr :=
  if pathID < 2 ∧ i ≤ MAX_HEIGHT then some (s.path pathID i) else none

/-- The write `path[pathID][i] = p`. -/
def pathSet (s : State) (pathID i : Nat) (p : Ptr) : Option State :=
  if pathID < 2 ∧ i ≤ MAX_HEIGHT then
    some { s with path := fun a b => if a = pathID ∧ b = i then p else s.path a b }
  else none

/-! ## Loops -/

/-- The loop `for (int i = a; i > 0; i--) body(i)`. -/
def forDown {σ : Type} (body : Nat → σ → Option σ) : Nat → σ → Option σ
  | 0, s => some s
  | i + 1, s => (body (i + 1) s).bind (forDown body i)

/-- The loop body run `count` times, `i` counting up from its start value. -/
def forUpN {σ : Type} (body : Nat → σ → Option σ) : Nat → Nat → σ → Option σ
  | 0, _, s => some s
  | k + 1, i, s => (body i s).bind (forUpN body k (i + 1))

/-- The loop `for (int i = a; i < b; i++) body(i)`. -/
def forUp {σ : Type} (body : Nat → σ → Option σ) (a b : Nat) (s : σ) : Option σ :=
  forUpN body (b - a) a s

/-! ## Tree construction -/

/-- The recursive `buildTree (height, p, parMiddle, buildingLeft)`; the result is `p`. -/
def buildTreeRec : Nat → Int → Bool → Option treeNode
  | 0, _, _ => some (.node 0 (-1) false .null .null)
  | height + 1, parMiddle, buildingLeft => do
      let tp ← twoPowersAt (((height + 1 : Nat) : Int) - 1)
      let middle := parMiddle + (if buildingLeft then (-1) * tp else tp)
      let l ← buildTreeRec height middle true
      let r ← buildTreeRec height middle false
      pure (.node 0 middle false l r)

/-- The search behind `ceilLog2`: the first `h`, counting up, with `m ≤ 2 ^ h`. -/
def ceilLog2Aux (m : Nat) : Nat → Nat → Nat
  | 0, h => h
  | fuel + 1, h => if m ≤ 2 ^ h then h else ceilLog2Aux m fuel (h + 1)

/-- The value `(int)ceil(log2(m))` for `m ≥ 1`. -/
def ceilLog2 (m : Nat) : Nat := ceilLog2Aux m m 0

/-- The function `buildTree (n)`: the text printed and the globals it sets. -/
def buildTree (n : Int) : Option (List String × State) :=
  let out : List String := if n > MAX_N then ["Error: n is too big."] else []
  let treeN : Int := n + 1
  if treeN ≤ 0 then none
  else do
    let treeHeight := ceilLog2 treeN.toNat
    let middle ← twoPowersAt ((treeHeight : Int) - 1)
    let l ← buildTreeRec (treeHeight - 1) middle true
    let r ← buildTreeRec (treeHeight - 1) middle false
    pure (out, { treeHeight := treeHeight, root := .node 0 middle false l r,
                 path := fun _ _ => none })

/-! ## Paths -/

/-- The pointer `root`. -/
def rootPtr (s : State) : Ptr :=
  match s.root with
  | .null => none
  | _ => some []

/-- One round of the loop of `findPath`; the loop state is the local `p` and the globals. -/
def findPathStep (index : Int) (pathID : Nat) (i : Nat) (ps : Ptr × State) :
    Option (Ptr × State) := do
  let s ← pathSet ps.2 pathID (ps.2.treeHeight - i) ps.1
  let m ← getMiddle s ps.1
  let p ← if index < m then getLeft s ps.1 else getRight s ps.1
  pure (p, s)

/-- The function `findPath (index, pathID)`. -/
def findPath (index : Int) (pathID : Nat) (s : State) : Option State := do
  let ps ← forUp (findPathStep index pathID) 0 s.treeHeight (rootPtr s, s)
  pathSet ps.2 pathID 0 ps.1

/-- The loop of `findFork`, with `k = i + 1`. -/
def findForkLoop (s : State) : Nat → Option Int
  | 0 => some (-1)
  | k + 1 => do
      let a ← pathGet s 0 k
      let b ← pathGet s 1 k
      if a = b then findForkLoop s k else pure (k : Int)

/-- The function `findFork ()`. -/
def findFork (s : State) : Option Int := findForkLoop s (s.treeHeight + 1)

/-! ## Node operations -/

/-- The function `flip (p)`. -/
def flip (p : Ptr) (s : State) : Option State := do
  let f ← getFlipped s p
  setFlipped s p (!f)

/-- The function `calNumFaceDown (p, height)`. -/
def calNumFaceDown (p : Ptr) (height : Nat) (s : State) : Option State := do
  let l ← getLeft s p
  let fl ← getFlipped s l
  let numFaceDownL ←
    if fl then do
      let tp ← twoPowersAt ((height : Int) - 1)
      let nl ← getNum s l
      pure (tp - nl)
    else getNum s l
  let r ← getRight s p
  let fr ← getFlipped s r
  let numFaceDownR ←
    if fr then do
      let tp ← twoPowersAt ((height : Int) - 1)
      let nr ← getNum s r
      pure (tp - nr)
    else getNum s r
  setNum s p (numFaceDownL + numFaceDownR)

/-! ## waveHand -/

/-- The body of the two push-down loops of `waveHand`, for `path[pathID][i]`. -/
def waveHandPush (pathID : Nat) (i : Nat) (s : State) : Option State := do
  let p ← pathGet s pathID i
  let f ← getFlipped s p
  if f then do
    let l ← getLeft s p
    let s ← flip l s
    let r ← getRight s p
    let s ← flip r s
    setFlipped s p false
  else pure s

/-- The first statement of the loop of `waveHand` that flips the subtrees inside the
interval: `if (path[0][i] == path[0][i + 1]->left) flip (path[0][i + 1]->right)`. -/
def waveHandFlip0 (i : Nat) (s : State) : Option State := do
  let a ← pathGet s 0 i
  let a1 ← pathGet s 0 (i + 1)
  let al ← getLeft s a1
  if a = al then do
    let ar ← getRight s a1
    flip ar s
  else pure s

/-- The second statement of that loop:
`if (path[1][i] == path[1][i + 1]->right) flip (path[1][i + 1]->left)`. -/
def waveHandFlip1 (i : Nat) (s : State) : Option State := do
  let b ← pathGet s 1 i
  let b1 ← pathGet s 1 (i + 1)
  let br ← getRight s b1
  if b = br then do
    let bl ← getLeft s b1
    flip bl s
  else pure s

/-- The body of the loop of `waveHand` that flips the subtrees inside the interval. -/
def waveHandFlip (i : Nat) (s : State) : Option State :=
  (waveHandFlip0 i s).bind (waveHandFlip1 i)

/-- The body `calNumFaceDown (path[pathID][i], i)`. -/
def recalc (pathID : Nat) (i : Nat) (s : State) : Option State := do
  let p ← pathGet s pathID i
  calNumFaceDown p i s

/-- The body of the loop of `waveHand` that updates both paths below the fork. -/
def recalcBoth (i : Nat) (s : State) : Option State :=
  (recalc 0 i s).bind (recalc 1 i)

/-- The function `waveHand (l, r)`. -/
def waveHand (l r : Int) (s : State) : Option State := do
  let s ← findPath l 0 s
  let s ← findPath r 1 s
  let s ← forDown (waveHandPush 0) s.treeHeight s
  let fork ← findFork s
  let s ← forDown (waveHandPush 1) fork.toNat s
  if fork = -1 then do
    let p ← pathGet s 0 0
    let s ← flip p s
    forUp (recalc 0) 1 (s.treeHeight + 1) s
  else do
    let p ← pathGet s 0 0
    let s ← flip p s
    let q ← pathGet s 1 0
    let s ← flip q s
    let s ← forUp waveHandFlip 0 fork.toNat s
    let s ← forUp recalcBoth 1 (fork.toNat + 1) s
    forUp (recalc 0) (fork.toNat + 1) (s.treeHeight + 1) s

/-! ## answerAud -/

/-- The body of the first push-down loop of `answerAud`, for `path[0][i]`. -/
def answerAudPush0 (i : Nat) (s : State) : Option State := do
  let p ← pathGet s 0 i
  let f ← getFlipped s p
  if f then do
    let r ← getRight s p
    let s ← flip r s
    let l ← getLeft s p
    let s ← flip l s
    let tp ← twoPowersAt i
    let n ← getNum s p
    let s ← setNum s p (tp - n)
    setFlipped s p false
  else pure s

/-- The body of the second push-down loop of `answerAud`, for `path[1][i]`. -/
def answerAudPush1 (i : Nat) (s : State) : Option State := do
  let p ← pathGet s 1 i
  let f ← getFlipped s p
  if f then do
    let l ← getLeft s p
    let s ← flip l s
    let r ← getRight s p
    let s ← flip r s
    let tp ← twoPowersAt i
    let n ← getNum s p
    let s ← setNum s p (tp - n)
    setFlipped s p false
  else pure s

/-- The contribution `if (!p->flipped) ans++` of a boundary card. -/
def countLeaf (s : State) (p : Ptr) (ans : Int) : Option Int := do
  let f ← getFlipped s p
  pure (if !f then ans + 1 else ans)

/-- The body of the loop of `answerAud` over the left boundary. -/
def answerAudLeft (s : State) (i : Nat) (ans : Int) : Option Int := do
  let a ← pathGet s 0 i
  let a1 ← pathGet s 0 (i + 1)
  let al ← getLeft s a1
  if a = al then do
    let ar ← getRight s a1
    let f ← getFlipped s ar
    let temp ←
      if f then getNum s ar
      else do
        let tp ← twoPowersAt i
        let n ← getNum s ar
        pure (tp - n)
    pure (ans + temp)
  else pure ans

/-- The body of the loop of `answerAud` over the right boundary. -/
def answerAudRight (s : State) (i : Nat) (ans : Int) : Option Int := do
  let b ← pathGet s 1 i
  let b1 ← pathGet s 1 (i + 1)
  let br ← getRight s b1
  if b = br then do
    let bl ← getLeft s b1
    let f ← getFlipped s bl
    let temp ←
      if f then getNum s bl
      else do
        let tp ← twoPowersAt i
        let n ← getNum s bl
        pure (tp - n)
    pure (ans + temp)
  else pure ans

/-- The function `answerAud (l, r)`: the value returned and the globals afterwards. -/
def answerAud (l r : Int) (s : State) : Option (Int × State) := do
  let s ← findPath l 0 s
  let s ← findPath r 1 s
  let fork ← findFork s
  let s ← forDown answerAudPush0 s.treeHeight s
  let s ← forDown answerAudPush1 fork.toNat s
  let p ← pathGet s 0 0
  if fork = -1 then do
    let f ← getFlipped s p
    pure (if f then 0 else 1, s)
  else if fork = 0 then do
    let ans ← countLeaf s p 0
    let q ← pathGet s 1 0
    let ans ← countLeaf s q ans
    pure (ans, s)
  else do
    let ans ← countLeaf s p 0
    let q ← pathGet s 1 0
    let ans ← countLeaf s q ans
    let ans ← forUp (answerAudLeft s) 0 fork.toNat ans
    let ans ← forUp (answerAudRight s) 0 fork.toNat ans
    pure (ans, s)

/-! ## Running a sequence of operations, and the reference array -/

/-- One call of the input stream of `main`: `H l r` or `Q l r`. -/
inductive Op where
  | waveHand (l r : Int) : Op
  | answerAud (l r : Int) : Op

/-- The lower bound of a call. -/
def Op.l : Op → Int
  | .waveHand l _ => l
  | .answerAud l _ => l

/-- The upper bound of a call. -/
def Op.r : Op → Int
  | .waveHand _ r => r
  | .answerAud _ r => r

/-- A call is valid for `n` cards when `1 ≤ l ≤ r ≤ n`. -/
def Op.valid (n : Int) (o : Op) : Prop := 1 ≤ o.l ∧ o.l ≤ o.r ∧ o.r ≤ n

instance (n : Int) (o : Op) : Decidable (o.valid n) := by
  unfold Op.valid; infer_instance

/-- All calls of a sequence are valid for `n` cards. -/
def validOps (n : Int) (ops : List Op) : Prop := ∀ o ∈ ops, o.valid n

instance (n : Int) (ops : List Op) : Decidable (validOps n ops) := by
  unfold validOps; infer_instance

/-- The globals after one call (the value of a query is dropped). -/
def applyOp (s : State) : Op → Option State
  | .waveHand l r => waveHand l r s
  | .answerAud l r => (answerAud l r s).map Prod.snd

/-- The globals after a sequence of calls. -/
def runOps : State → List Op → Option State
  | s, [] => some s
  | s, o :: ops => (applyOp s o).bind (fun s1 => runOps s1 ops)

/-- The globals after `buildTree (n)` followed by a sequence of calls. -/
def runFrom (n : Int) (ops : List Op) : Option State :=
  (buildTree n).bind (fun b => runOps b.2 ops)

/-- The values returned by a sequence of queries issued one after the other,
and the globals afterwards. -/
def answerAll : State → List (Int × Int) → Option (List Int × State)
  | s, [] => some ([], s)
  | s, q :: qs =>
    (answerAud q.1 q.2 s).bind (fun vs =>
      (answerAll vs.2 qs).map (fun ws => (vs.1 :: ws.1, ws.2)))

/-- The reference array after one call: `true` is face down. -/
def refStep (c : Int → Bool) : Op → Int → Bool
  | .waveHand l r => fun i => if l ≤ i ∧ i ≤ r then !(c i) else c i
  | .answerAud _ _ => c

/-- The reference array after a sequence of calls, by direct simulation. -/
def refRun : (Int → Bool) → List Op → Int → Bool
  | c, [] => c
  | c, o :: ops => refRun (refStep c o) ops

/-- The reference array of a sequence of calls; all cards start face up. -/
def refArray (ops : List Op) : Int → Bool := refRun (fun _ => false) ops

/-- The number of face-up cards among `l..r` of an array (`true` is face down). -/
def faceUpCount (c : Int → Bool) (l r : Int) : Int :=
  (((Finset.Icc l r).filter (fun i => c i = false)).card : Int)

/-- The number of face-down cards among `l..r` of an array. -/
def faceDownCount (c : Int → Bool) (l r : Int) : Int :=
  (((Finset.Icc l r).filter (fun i => c i = true)).card : Int)

/-- The number of face-down entries of an array among the indices `a .. b - 1`. -/
def downIn (c : Int → Bool) (a b : Int) : Int :=
  ∑ i in Finset.Ico a b, if c i then 1 else 0

/-- The number of face-up entries of an array among the indices `a .. b - 1`. -/
def upIn (c : Int → Bool) (a b : Int) : Int :=
  ∑ i in Finset.Ico a b, if c i then 0 else 1

/-! ## Structure of the tree -/

/-- The node with the child in a direction replaced. -/
def treeNode.setChild (d : Bool) (t c : treeNode) : treeNode :=
  match t with
  | .null => .null
  | .node n m f l r => if d then .node n m f l c else .node n m f c r

/-- The node with `flipped` negated: the effect of `flip`. -/
def flipNode : treeNode → treeNode
  | .null => .null
  | .node n m f l r => .node n m (!f) l r

/-- A perfect tree of height `h`: leaves have no children, every other node has two. -/
def Perfect : Nat → treeNode → Prop
  | _, .null => False
  | 0, .node _ _ _ l r => l = .null ∧ r = .null
  | h + 1, .node _ _ _ l r => Perfect h l ∧ Perfect h r

/-- The `middle` fields of a tree of height `h` over the indices `lo .. lo + 2^h - 1`:
every internal node splits its range in the middle. -/
def Mid : Nat → Int → treeNode → Prop
  | h + 1, lo, .node _ m _ l r => m = lo + 2 ^ h ∧ Mid h lo l ∧ Mid h (lo + 2 ^ h) r
  | _, _, _ => True

/-- Two trees with the same nodes and the same `middle` fields. -/
def SameShape : treeNode → treeNode → Prop
  | .null, .null => True
  | .node _ m _ l r, .node _ m1 _ l1 r1 => m = m1 ∧ SameShape l l1 ∧ SameShape r r1
  | _, _ => False

/-- The count a parent reads from a child of height `hc`:
`c.flipped ? 2^hc - c.numFaceDown : c.numFaceDown`. -/
def adj (hc : Nat) (c : treeNode) : Int :=
  if c.flag then 2 ^ hc - c.num else c.num

/-- The stored-count invariant of a tree of height `h`. -/
def Inv : Nat → treeNode → Prop
  | _, .null => True
  | 0, .node n _ _ _ _ => n = 0
  | h + 1, .node n _ _ l r => n = adj h l + adj h r ∧ Inv h l ∧ Inv h r

/-- The directions `findPath` takes for an index: `h` steps, left when `index < middle`. -/
def dirs : Nat → treeNode → Int → List Bool
  | h + 1, .node _ m _ l r, i => if i < m then false :: dirs h l i else true :: dirs h r i
  | _, _, _ => []

/-- The card state of an index: `true` (face down) when an odd number of nodes on
the path `findPath` takes for the index, leaf included, have `flipped` set. -/
def cardDown : Nat → treeNode → Int → Bool
  | _, .null, _ => false
  | 0, .node _ _ f _ _, _ => f
  | h + 1, .node _ m f l r, i => xor f (if i < m then cardDown h l i else cardDown h r i)

/-- The card state of an index in the tree of the globals. -/
def cardState (s : State) (i : Int) : Bool := cardDown s.treeHeight s.root i

/-- The `flipped` fields of the nodes met when walking down from a node by the given
directions, the first and the last node included. -/
def pathFlags : treeNode → List Bool → List Bool
  | t, [] => [t.flag]
  | t, d :: ds => t.flag :: pathFlags (t.child d) ds

/-- The number of nodes among `path[pathID][0 .. treeHeight]` that have `flipped` set. -/
def flippedOnPath (s : State) (pathID : Nat) : Nat :=
  ((Finset.range (s.treeHeight + 1)).filter
    (fun j => getFlipped s (s.path pathID j) = some true)).card

/-! ## The loops as recursions over the tree

The functions of this section describe what the loops of `waveHand` and
`answerAud` do to the tree, as recursions along the two paths.  The theorems
`waveHand_eq` and `answerAud_eq` below prove that the loops compute them. -/

/-- The push-down of `waveHand` at one node. -/
def pushW : treeNode → treeNode
  | .null => .null
  | .node n m f l r => if f then .node n m false (flipNode l) (flipNode r) else .node n m f l r

/-- The push-down of `answerAud` at one node of height `h`. -/
def pushA (h : Nat) : treeNode → treeNode
  | .null => .null
  | .node n m f l r =>
    if f then .node (2 ^ h - n) m false (flipNode l) (flipNode r) else .node n m f l r

/-- The effect of `calNumFaceDown (p, h)` on the node `p`. -/
def calcNode (h : Nat) : treeNode → treeNode
  | .null => .null
  | .node _ m f l r => .node (adj (h - 1) l + adj (h - 1) r) m f l r

/-- The flip of `waveHand` next to the path to `l`: when the path goes left, the
right child is flipped. -/
def sib0 (d : Bool) : treeNode → treeNode
  | .null => .null
  | .node n m f l r => if d then .node n m f l r else .node n m f l (flipNode r)

/-- The flip of `waveHand` next to the path to `r`: when the path goes right, the
left child is flipped. -/
def sib1 (d : Bool) : treeNode → treeNode
  | .null => .null
  | .node n m f l r => if d then .node n m f (flipNode l) r else .node n m f l r

/-- A step applied to the nodes of a path from the top down (the leaf excluded). -/
def descend (step : Nat → treeNode → treeNode) : Nat → List Bool → treeNode → treeNode
  | h + 1, d :: ds, t =>
    (step (h + 1) t).setChild d (descend step h ds ((step (h + 1) t).child d))
  | _, _, t => t

/-- A step applied to the nodes of a path from the bottom up; the step is told the
direction the path takes at the node. -/
def ascend (step : Nat → Bool → treeNode → treeNode) : Nat → List Bool → treeNode → treeNode
  | h + 1, d :: ds, t => step (h + 1) d (t.setChild d (ascend step h ds (t.child d)))
  | _, _, t => t

/-- What `waveHand` does below the fork on the path to `l`. -/
def waveBranch0 : Nat → List Bool → treeNode → treeNode
  | h + 1, d :: ds, t =>
    calcNode (h + 1) ((sib0 d (pushW t)).setChild d (waveBranch0 h ds ((pushW t).child d)))
  | _, _, t => flipNode t

/-- What `waveHand` does below the fork on the path to `r`. -/
def waveBranch1 : Nat → List Bool → treeNode → treeNode
  | h + 1, d :: ds, t =>
    calcNode (h + 1) ((sib1 d (pushW t)).setChild d (waveBranch1 h ds ((pushW t).child d)))
  | _, _, t => flipNode t

/-- What `waveHand` does to a tree of height `h`, given the directions to `l` and to `r`. -/
def waveSpec : Nat → List Bool → List Bool → treeNode → treeNode
  | h + 1, d0 :: a, d1 :: b, t =>
    if d0 = d1 then
      calcNode (h + 1) ((pushW t).setChild d0 (waveSpec h a b ((pushW t).child d0)))
    else
      calcNode (h + 1)
        (((pushW t).setChild d0 (waveBranch0 h a ((pushW t).child d0))).setChild d1
          (waveBranch1 h b ((pushW t).child d1)))
  | _, _, _, t => flipNode t

/-- What the push-down of `answerAud` does to a tree of height `h`. -/
def askSpec : Nat → List Bool → List Bool → treeNode → treeNode
  | h + 1, d0 :: a, d1 :: b, t =>
    if d0 = d1 then
      (pushA (h + 1) t).setChild d0 (askSpec h a b ((pushA (h + 1) t).child d0))
    else
      ((pushA (h + 1) t).setChild d0 (descend pushA h a ((pushA (h + 1) t).child d0))).setChild d1
        (descend pushA h b ((pushA (h + 1) t).child d1))
  | _, _, _, t => t

/-- The face-up count `answerAud` reads from a subtree of height `h`:
`p->flipped ? p->numFaceDown : twoPowers[h] - p->numFaceDown`. -/
def upOf (h : Nat) (t : treeNode) : Int :=
  if t.flag then t.num else 2 ^ h - t.num

/-- The contribution of a boundary card: `1` when its leaf is not flipped. -/
def leafUp (t : treeNode) : Int := if t.flag then 0 else 1

/-- The sum of the loop of `answerAud` over the left boundary. -/
def sumLeft : Nat → List Bool → treeNode → Int
  | h + 1, d :: ds, t =>
    sumLeft h ds (t.child d) + (if d then 0 else upOf h (t.child true))
  | _, _, _ => 0

/-- The sum of the loop of `answerAud` over the right boundary. -/
def sumRight : Nat → List Bool → treeNode → Int
  | h + 1, d :: ds, t =>
    sumRight h ds (t.child d) + (if d then upOf h (t.child false) else 0)
  | _, _, _ => 0

/-- The value `answerAud` returns, read from the tree after its push-down. -/
def askValue : Nat → List Bool → List Bool → treeNode → Int
  | h + 1, d0 :: a, d1 :: b, t =>
    if d0 = d1 then askValue h a b (t.child d0)
    else
      leafUp ((t.child d0).sub a) + leafUp ((t.child d1).sub b)
        + sumLeft h a (t.child d0) + sumRight h b (t.child d1)
  | _, _, _, t => leafUp t

/-- The height at which two paths of the same length separate, `-1` when they are equal. -/
def forkOf : List Bool → List Bool → Int
  | d0 :: a, d1 :: b => if d0 = d1 then forkOf a b else (a.length : Int)
  | _, _ => -1

/-- The `path` table after `findPath (l, 0)` and `findPath (r, 1)`. -/
def pathsOf (s : State) (ds0 ds1 : List Bool) : Nat → Nat → Ptr :=
  fun a b =>
    if a = 1 ∧ b ≤ s.treeHeight then some (ds1.take (s.treeHeight - b))
    else if a = 0 ∧ b ≤ s.treeHeight then some (ds0.take (s.treeHeight - b))
    else s.path a b

/-- A function applied to the subtree at a position. -/
def applyAt (q : List Bool) (g : treeNode → treeNode) (T : treeNode) : treeNode :=
  T.replace q (g (T.sub q))

/-- The loops of `waveHand`, one after the other, when the two paths are
`c ++ d0 :: a` and `c ++ d1 :: b`: the push-down on the first path, the push-down
on the second path below the fork, the two flips of the boundary leaves, the flips
next to the paths, and the three loops that recompute `numFaceDown`. -/
def wavePhases (h f : Nat) (c : List Bool) (d0 d1 : Bool) (a b : List Bool)
    (t : treeNode) : treeNode :=
  ascend (fun i _ => calcNode i) h (c ++ [d0])
    (applyAt (c ++ [d1]) (ascend (fun i _ => calcNode i) f b)
      (applyAt (c ++ [d0]) (ascend (fun i _ => calcNode i) f a)
        (applyAt (c ++ [d1]) (ascend (fun _ d => sib1 d) f b)
          (applyAt (c ++ [d0]) (ascend (fun _ d => sib0 d) f a)
            (applyAt (c ++ d1 :: b) flipNode
              (applyAt (c ++ d0 :: a) flipNode
                (applyAt (c ++ [d1]) (descend (fun _ => pushW) f b)
                  (descend (fun _ => pushW) h (c ++ d0 :: a) t))))))))

/-- The two push-down loops of `answerAud`, one after the other, when the two paths
are `c ++ d0 :: a` and `c ++ d1 :: b`. -/
def askPhases (h f : Nat) (c : List Bool) (d0 d1 : Bool) (a b : List Bool)
    (t : treeNode) : treeNode :=
  applyAt (c ++ [d1]) (descend pushA f b) (descend pushA h (c ++ d0 :: a) t)

/-- The `path` table holds the two paths `ds0` (to `l`) and `ds1` (to `r`):
`path[k][b]` points to the node `treeHeight - b` steps down the path. -/
def PathsOK (s : State) (ds0 ds1 : List Bool) : Prop :=
  ds0.length = s.treeHeight ∧ ds1.length = s.treeHeight ∧ s.treeHeight ≤ MAX_HEIGHT ∧
  (∀ b, b ≤ s.treeHeight → s.path 0 b = some (ds0.take (s.treeHeight - b))) ∧
  (∀ b, b ≤ s.treeHeight → s.path 1 b = some (ds1.take (s.treeHeight - b)))

/-- The state of the globals between two calls is well formed: the height fits the
tables, the tree is perfect, its `middle` fields split the index range
`0 .. 2^treeHeight - 1`, and the stored-count invariant holds. -/
def Good (s : State) : Prop :=
  s.treeHeight ≤ MAX_HEIGHT ∧ Perfect s.treeHeight s.root ∧ Mid s.treeHeight 0 s.root ∧
  Inv s.treeHeight s.root

/-- Both bounds of a call are indices of the tree, `0 ≤ l, r < 2^h` (no order between
them is asked). -/
def Op.inTree (h : Nat) (o : Op) : Prop :=
  0 ≤ o.l ∧ o.l < 2 ^ h ∧ 0 ≤ o.r ∧ o.r < 2 ^ h

instance (h : Nat) (o : Op) : Decidable (o.inTree h) := by
  unfold Op.inTree; infer_instance

/-- A loop body acts on the tree as `g` does on the subtree at position `q`. -/
def ActsAt (body : State → Option State) (s : State) (q : List Bool) (h : Nat)
    (g : treeNode → treeNode) : Prop :=
  ∀ T : treeNode, Perfect h (T.sub q) →
    body (s.withRoot T) = some (s.withRoot (T.replace q (g (T.sub q))))

/-! ## The relations between counts, as the claims word them -/

/-- The equation between true face-down counts at every internal node of a tree of
height `h`, the flag of the node itself taken into account like the flags of its
children: `adj h p = adj (h - 1) p.left + adj (h - 1) p.right`. -/
def trueCountSum : Nat → treeNode → Bool
  | h + 1, .node n m f l r =>
    decide (adj (h + 1) (.node n m f l r) = adj h l + adj h r)
      && trueCountSum h l && trueCountSum h r
  | _, _ => true

/-- The relation between true face-down counts that holds at every internal node `p` of
height `h`: the true count of `p` is the sum of the true counts of its children when
`p.flipped` is not set, and `2^h` minus that sum when it is set. -/
def FlagAwareSum : Nat → treeNode → Prop
  | h + 1, .node n m f l r =>
    adj (h + 1) (.node n m f l r)
        = (if f then 2 ^ (h + 1) - (adj h l + adj h r) else adj h l + adj h r) ∧
      FlagAwareSum h l ∧ FlagAwareSum h r
  | _, _ => True

/-! ## The sum of the general case of answerAud, read from the globals -/

/-- The node a pointer designates, as a tree (`null` for `NULL`). -/
def nodeAt (s : State) (p : Ptr) : treeNode :=
  match p with
  | none => .null
  | some ds => s.root.sub ds

/-- The pointer held in the field `left` (`false`) or `right` (`true`) of the node a
pointer designates. -/
def childOf (s : State) (p : Ptr) (d : Bool) : Ptr :=
  match p with
  | none => none
  | some ds => childPtr ds d (s.root.sub ds)

/-- The sum over the heights `i < fork` of the amounts of the subtrees selected on the
path to `l`: when `path[0][i]` is the left child of `path[0][i + 1]`, the amount of the
right child of `path[0][i + 1]`, a subtree of size `2^i`. -/
def siblingsLeft (amount : Nat → treeNode → Int) (s : State) : Nat → Int
  | 0 => 0
  | i + 1 =>
    siblingsLeft amount s i +
      (if s.path 0 i = childOf s (s.path 0 (i + 1)) false then
        amount i (nodeAt s (childOf s (s.path 0 (i + 1)) true))
      else 0)

/-- The sum over the heights `i < fork` of the amounts of the subtrees selected on the
path to `r`: when `path[1][i]` is the right child of `path[1][i + 1]`, the amount of the
left child of `path[1][i + 1]`. -/
def siblingsRight (amount : Nat → treeNode → Int) (s : State) : Nat → Int
  | 0 => 0
  | i + 1 =>
    siblingsRight amount s i +
      (if s.path 1 i = childOf s (s.path 1 (i + 1)) true then
        amount i (nodeAt s (childOf s (s.path 1 (i + 1)) false))
      else 0)

/-- The result of the general case of `answerAud`, for a given amount per selected
subtree: the contributions of the two boundary leaves plus the amounts of the subtrees
selected below the fork. -/
def generalCase (amount : Nat → treeNode → Int) (s : State) (fork : Nat) : Int :=
  leafUp (nodeAt s (s.path 0 0)) + leafUp (nodeAt s (s.path 1 0))
    + siblingsLeft amount s fork + siblingsRight amount s fork

/-- The amount of a selected subtree of size `2^i` as claim C13 words it:
`2^i - numFaceDown` when `flipped` is set, `numFaceDown` otherwise. -/
def claimedAmount (i : Nat) (t : treeNode) : Int :=
  if t.flag then 2 ^ i - t.num else t.num

/-- A small perfect tree of height 2 with pending flags, over the indices `0..3`: the
root and the leaf of index `3` have `flipped` set. -/
def sampleState : State :=
  { treeHeight := 2
    root := .node 1 2 true
      (.node 0 1 false (.node 0 (-1) false .null .null) (.node 0 (-1) false .null .null))
      (.node 1 3 false (.node 0 (-1) false .null .null) (.node 0 (-1) true .null .null))
    path := fun _ _ => none }

/-! ## The push-down phases -/

/-- The statements of `waveHand (l, r)` up to the end of its push-down phase: the two
calls of `findPath`, the push-down along the path to `l`, `findFork`, and the push-down
along the path to `r` below the fork. -/
def waveHandPushDown (l r : Int) (s : State) : Option State := do
  let s ← findPath l 0 s
  let s ← findPath r 1 s
  let s ← forDown (waveHandPush 0) s.treeHeight s
  let fork ← findFork s
  forDown (waveHandPush 1) fork.toNat s

/-- The statements of `answerAud (l, r)` up to the end of its push-down phase. -/
def answerAudPushDown (l r : Int) (s : State) : Option State := do
  let s ← findPath l 0 s
  let s ← findPath r 1 s
  let fork ← findFork s
  let s ← forDown answerAudPush0 s.treeHeight s
  forDown answerAudPush1 fork.toNat s

/-- Every node of height `≥ 1` held in the two rows of `path` has `flipped = false`. -/
def PathsClear (s : State) : Prop :=
  ∀ k, k < 2 → ∀ i, 1 ≤ i → i ≤ s.treeHeight → getFlipped s (s.path k i) = some false

/-- Every node of height `≥ 1` on the path `ds` through a tree of height `h` has
`flipped = false`. -/
def Clear : Nat → List Bool → treeNode → Prop
  | h + 1, d :: ds, t => t.flag = false ∧ Clear h ds (t.child d)
  | _, _, _ => True

/-- What two push-down loops do to a tree of height `h`, for a push-down `step` at one
node: the step is applied along the path to `l` and, below the fork, along the path to
`r`. -/
def pushSpec (step : Nat → treeNode → treeNode) :
    Nat → List Bool → List Bool → treeNode → treeNode
  | h + 1, d0 :: a, d1 :: b, t =>
    if d0 = d1 then
      (step (h + 1) t).setChild d0 (pushSpec step h a b ((step (h + 1) t).child d0))
    else
      ((step (h + 1) t).setChild d0 (descend step h a ((step (h + 1) t).child d0))).setChild d1
        (descend step h b ((step (h + 1) t).child d1))
  | _, _, _, t => t

/-! ## The leaves from left to right -/

/-- The positions of the `2^h` leaves of a perfect tree of height `h`, from left to right. -/
def leavesInOrder : Nat → List (List Bool)
  | 0 => [[]]
  | h + 1 =>
    (leavesInOrder h).map (fun q => false :: q) ++ (leavesInOrder h).map (fun q => true :: q)

/-! ## The shape of the tree, counted -/

/-- The number of leaves (nodes without children) of a tree. -/
def numLeaves : treeNode → Nat
  | .null => 0
  | .node _ _ _ .null .null => 1
  | .node _ _ _ l r => numLeaves l + numLeaves r

/-- Every node of the tree has no child or exactly two children. -/
def TwoChildren : treeNode → Prop
  | .null => True
  | .node _ _ _ l r =>
    ((l = .null ∧ r = .null) ∨ (l ≠ .null ∧ r ≠ .null)) ∧ TwoChildren l ∧ TwoChildren r

/-! # Theorems -/

/-! ## The table of powers -/

theorem twoPowersAt_nat (i : Nat) (hi : i ≤ MAX_HEIGHT) : twoPowersAt (i : Int) = some (2 ^ i) := by
  unfold MAX_HEIGHT at hi
  interval_cases i <;> rfl

theorem twoPowersAt_pred (i : Nat) (hi : i ≤ MAX_HEIGHT + 1) (h1 : 1 ≤ i) :
    twoPowersAt ((i : Int) - 1) = some (2 ^ (i - 1)) := by
  obtain ⟨j, rfl⟩ : ∃ j, i = j + 1 := ⟨i - 1, by omega⟩
  have : ((j + 1 : Nat) : Int) - 1 = (j : Int) := by push_cast; ring
  rw [this]
  exact twoPowersAt_nat j (by omega)

/-! ## Positions in a tree -/

@[simp] theorem sub_nil (t : treeNode) : t.sub [] = t := by
  cases t <;> rfl
@[simp] theorem sub_null (q : List Bool) : treeNode.null.sub q = .null := by
  cases q <;> rfl
@[simp] theorem sub_node_cons (n m : Int) (f : Bool) (l r : treeNode) (d : Bool) (q : List Bool) :
    (treeNode.node n m f l r).sub (d :: q) = (if d then r else l).sub q := rfl
@[simp] theorem replace_nil (t x : treeNode) : t.replace [] x = x := by
  cases t <;> rfl
@[simp] theorem replace_null_cons (d : Bool) (q : List Bool) (x : treeNode) :
    treeNode.null.replace (d :: q) x = .null := rfl
@[simp] theorem replace_node_cons (n m : Int) (f : Bool) (l r x : treeNode) (d : Bool)
    (q : List Bool) :
    (treeNode.node n m f l r).replace (d :: q) x =
      if d then .node n m f l (r.replace q x) else .node n m f (l.replace q x) r := rfl
theorem sub_append (t : treeNode) (q e : List Bool) : t.sub (q ++ e) = (t.sub q).sub e := by
  induction q generalizing t with
  | nil => simp
  | cons d q ih =>
    cases t with
    | null => simp
    | node n m f l r => simp [ih]
theorem replace_append (t : treeNode) (q e : List Bool) (x : treeNode) :
    t.replace (q ++ e) x = t.replace q ((t.sub q).replace e x) := by
  induction q generalizing t with
  | nil => simp
  | cons d q ih =>
    cases t with
    | null => simp
    | node n m f l r => cases d <;> simp [ih]
theorem replace_replace (t : treeNode) (q : List Bool) (x y : treeNode) :
    (t.replace q x).replace q y = t.replace q y := by
  induction q generalizing t with
  | nil => simp
  | cons d q ih =>
    cases t with
    | null => simp
    | node n m f l r => cases d <;> simp [ih]
theorem replace_sub_self (t : treeNode) (q : List Bool) : t.replace q (t.sub q) = t := by
  induction q generalizing t with
  | nil => simp
  | cons d q ih =>
    cases t with
    | null => simp
    | node n m f l r => cases d <;> simp [ih]
theorem sub_replace_self (t : treeNode) (q : List Bool) (x : treeNode) (h : t.sub q ≠ .null) :
    (t.replace q x).sub q = x := by
  induction q generalizing t with
  | nil => simp
  | cons d q ih =>
    cases t with
    | null => simp at h
    | node n m f l r =>
      cases d
      · simp at h ⊢; exact ih l h
      · simp at h ⊢; exact ih r h
theorem perfect_ne_null {h : Nat} {t : treeNode} (hp : Perfect h t) : t ≠ .null := by
  intro e; subst e; cases h <;> simp [Perfect] at hp

@[simp] theorem withRoot_root (s : State) (t : treeNode) : (s.withRoot t).root = t := rfl
@[simp] theorem withRoot_path (s : State) (t : treeNode) : (s.withRoot t).path = s.path := rfl
@[simp] theorem withRoot_treeHeight (s : State) (t : treeNode) :
    (s.withRoot t).treeHeight = s.treeHeight := rfl
@[simp] theorem withRoot_withRoot (s : State) (t u : treeNode) :
    (s.withRoot t).withRoot u = s.withRoot u := rfl
theorem withRoot_self (s : State) : s.withRoot s.root = s := rfl

/-- a perfect tree of positive height, spelled out -/
theorem perfect_succ_cases {h : Nat} {t : treeNode} (hp : Perfect (h + 1) t) :
    ∃ n m f nl ml fl ll lr nr mr fr rl rr,
      t = .node n m f (.node nl ml fl ll lr) (.node nr mr fr rl rr) := by
  cases t with
  | null => simp [Perfect] at hp
  | node n m f l r =>
    obtain ⟨hl, hr⟩ := hp
    cases l with
    | null => exact absurd rfl (perfect_ne_null hl)
    | node nl ml fl ll lr =>
      cases r with
      | null => exact absurd rfl (perfect_ne_null hr)
      | node nr mr fr rl rr => exact ⟨n, m, f, nl, ml, fl, ll, lr, nr, mr, fr, rl, rr, rfl⟩

theorem deref_some (s : State) (T : treeNode) (q : List Bool) (h : T.sub q ≠ .null) :
    deref (s.withRoot T) (some q) = some (T.sub q) := by
  unfold deref
  simp only [withRoot_root]
  cases hX : T.sub q with
  | null => exact absurd hX h
  | node n m f l r => rfl

theorem getFlipped_some (s : State) (T : treeNode) (q : List Bool) (h : T.sub q ≠ .null) :
    getFlipped (s.withRoot T) (some q) = some (T.sub q).flag := by
  simp [getFlipped, deref_some s T q h]

theorem getNum_some (s : State) (T : treeNode) (q : List Bool) (h : T.sub q ≠ .null) :
    getNum (s.withRoot T) (some q) = some (T.sub q).num := by
  simp [getNum, deref_some s T q h]

theorem getMiddle_some (s : State) (T : treeNode) (q : List Bool) (h : T.sub q ≠ .null) :
    getMiddle (s.withRoot T) (some q) = some (T.sub q).mid := by
  simp [getMiddle, deref_some s T q h]

theorem getLeft_some (s : State) (T : treeNode) (q : List Bool) (h : T.sub q ≠ .null) :
    getLeft (s.withRoot T) (some q) = some (childPtr q false (T.sub q)) := by
  simp [getLeft, deref_some s T q h]

theorem getRight_some (s : State) (T : treeNode) (q : List Bool) (h : T.sub q ≠ .null) :
    getRight (s.withRoot T) (some q) = some (childPtr q true (T.sub q)) := by
  simp [getRight, deref_some s T q h]

theorem setFlipped_some (s : State) (T : treeNode) (q : List Bool) (b : Bool)
    (h : T.sub q ≠ .null) :
    setFlipped (s.withRoot T) (some q) b
      = some (s.withRoot (T.replace q ((T.sub q).setFlag b))) := by
  simp [setFlipped, deref_some s T q h]

theorem setNum_some (s : State) (T : treeNode) (q : List Bool) (v : Int)
    (h : T.sub q ≠ .null) :
    setNum (s.withRoot T) (some q) v
      = some (s.withRoot (T.replace q ((T.sub q).setNum v))) := by
  simp [setNum, deref_some s T q h]

theorem flip_some (s : State) (T : treeNode) (q : List Bool) (h : T.sub q ≠ .null) :
    flip (some q) (s.withRoot T) = some (s.withRoot (T.replace q (flipNode (T.sub q)))) := by
  simp only [flip, getFlipped_some s T q h, setFlipped_some s T q _ h, Option.bind_eq_bind,
    Option.some_bind]
  congr 3
  cases T.sub q <;> rfl

theorem pathGet_some (s : State) (T : treeNode) (pathID i : Nat) (hid : pathID < 2)
    (hi : i ≤ MAX_HEIGHT) : pathGet (s.withRoot T) pathID i = some (s.path pathID i) := by
  simp [pathGet, hid, hi]

theorem waveHandPush_acts (s : State) (pathID i : Nat) (q : List Bool) (hid : pathID < 2)
    (hi : i ≤ MAX_HEIGHT) (h1 : 1 ≤ i) (hp : s.path pathID i = some q) :
    ActsAt (waveHandPush pathID i) s q i (fun t => pushW t) := by
  intro T hT
  obtain ⟨j, rfl⟩ : ∃ j, i = j + 1 := ⟨i - 1, by omega⟩
  obtain ⟨n, m, f, nl, ml, fl, ll, lr, nr, mr, fr, rl, rr, hX⟩ := perfect_succ_cases hT
  have hT0 : T = T.replace q (T.sub q) := (replace_sub_self T q).symm
  have hq : T.sub q ≠ .null := by simp [hX]
  rw [hX] at hT0 ⊢
  rw [hT0]
  cases f <;>
  simp [waveHandPush, pathGet_some, hid, hi, hp, getFlipped_some, getLeft_some, getRight_some,
    flip_some, setFlipped_some, sub_append, replace_append, sub_replace_self, replace_replace,
    pushW, flipNode, hq, childPtr, treeNode.child, treeNode.flag, treeNode.setFlag]

theorem answerAudPush0_acts (s : State) (i : Nat) (q : List Bool)
    (hi : i ≤ MAX_HEIGHT) (h1 : 1 ≤ i) (hp : s.path 0 i = some q) :
    ActsAt (answerAudPush0 i) s q i (pushA i) := by
  intro T hT
  obtain ⟨j, rfl⟩ : ∃ j, i = j + 1 := ⟨i - 1, by omega⟩
  obtain ⟨n, m, f, nl, ml, fl, ll, lr, nr, mr, fr, rl, rr, hX⟩ := perfect_succ_cases hT
  have hT0 : T = T.replace q (T.sub q) := (replace_sub_self T q).symm
  have hq : T.sub q ≠ .null := by simp [hX]
  have htp : twoPowersAt ((j : Int) + 1) = some (2 ^ (j + 1)) := by
    have := twoPowersAt_nat (j + 1) hi
    simpa using this
  rw [hX] at hT0 ⊢
  rw [hT0]
  cases f <;>
  simp [answerAudPush0, pathGet_some, hi, hp, getFlipped_some, getLeft_some, getRight_some,
    flip_some, setFlipped_some, setNum_some, getNum_some, sub_append, replace_append,
    sub_replace_self, replace_replace, htp,
    pushA, flipNode, hq, childPtr, treeNode.child, treeNode.flag, treeNode.setFlag,
    treeNode.setNum, treeNode.num]

theorem answerAudPush1_acts (s : State) (i : Nat) (q : List Bool)
    (hi : i ≤ MAX_HEIGHT) (h1 : 1 ≤ i) (hp : s.path 1 i = some q) :
    ActsAt (answerAudPush1 i) s q i (pushA i) := by
  intro T hT
  obtain ⟨j, rfl⟩ : ∃ j, i = j + 1 := ⟨i - 1, by omega⟩
  obtain ⟨n, m, f, nl, ml, fl, ll, lr, nr, mr, fr, rl, rr, hX⟩ := perfect_succ_cases hT
  have hT0 : T = T.replace q (T.sub q) := (replace_sub_self T q).symm
  have hq : T.sub q ≠ .null := by simp [hX]
  have htp : twoPowersAt ((j : Int) + 1) = some (2 ^ (j + 1)) := by
    have := twoPowersAt_nat (j + 1) hi
    simpa using this
  rw [hX] at hT0 ⊢
  rw [hT0]
  cases f <;>
  simp [answerAudPush1, pathGet_some, hi, hp, getFlipped_some, getLeft_some, getRight_some,
    flip_some, setFlipped_some, setNum_some, getNum_some, sub_append, replace_append,
    sub_replace_self, replace_replace, htp,
    pushA, flipNode, hq, childPtr, treeNode.child, treeNode.flag, treeNode.setFlag,
    treeNode.setNum, treeNode.num]

theorem recalc_acts (s : State) (pathID i : Nat) (q : List Bool) (hid : pathID < 2)
    (hi : i ≤ MAX_HEIGHT) (h1 : 1 ≤ i) (hp : s.path pathID i = some q) :
    ActsAt (recalc pathID i) s q i (calcNode i) := by
  intro T hT
  obtain ⟨j, rfl⟩ : ∃ j, i = j + 1 := ⟨i - 1, by omega⟩
  obtain ⟨n, m, f, nl, ml, fl, ll, lr, nr, mr, fr, rl, rr, hX⟩ := perfect_succ_cases hT
  have hq : T.sub q ≠ .null := by simp [hX]
  have htp := twoPowersAt_nat j (by omega)
  rw [hX]
  cases fl <;> cases fr <;>
  simp [recalc, calNumFaceDown, pathGet_some, hid, hi, hp, getFlipped_some, getLeft_some,
    getRight_some, setNum_some, getNum_some, sub_append, hX, htp,
    calcNode, adj, hq, childPtr, treeNode.child, treeNode.flag,
    treeNode.setNum, treeNode.num]

theorem waveHandFlip0_acts (s : State) (i : Nat) (q : List Bool) (d : Bool)
    (hi : i + 1 ≤ MAX_HEIGHT) (hp : s.path 0 i = some (q ++ [d]))
    (hp1 : s.path 0 (i + 1) = some q) :
    ActsAt (waveHandFlip0 i) s q (i + 1) (sib0 d) := by
  intro T hT
  obtain ⟨n, m, f, nl, ml, fl, ll, lr, nr, mr, fr, rl, rr, hX⟩ := perfect_succ_cases hT
  have hq : T.sub q ≠ .null := by simp [hX]
  have hi0 : i ≤ MAX_HEIGHT := by omega
  rw [hX]
  cases d <;>
  simp [waveHandFlip0, pathGet_some, hi, hi0, hp, hp1, getLeft_some,
    getRight_some, flip_some, sub_append, replace_append, hX,
    sib0, hq, childPtr, treeNode.child, flipNode]
  rw [← hX, replace_sub_self]

theorem waveHandFlip1_acts (s : State) (i : Nat) (q : List Bool) (d : Bool)
    (hi : i + 1 ≤ MAX_HEIGHT) (hp : s.path 1 i = some (q ++ [d]))
    (hp1 : s.path 1 (i + 1) = some q) :
    ActsAt (waveHandFlip1 i) s q (i + 1) (sib1 d) := by
  intro T hT
  obtain ⟨n, m, f, nl, ml, fl, ll, lr, nr, mr, fr, rl, rr, hX⟩ := perfect_succ_cases hT
  have hq : T.sub q ≠ .null := by simp [hX]
  have hi0 : i ≤ MAX_HEIGHT := by omega
  rw [hX]
  cases d <;>
  simp [waveHandFlip1, pathGet_some, hi, hi0, hp, hp1, getLeft_some,
    getRight_some, flip_some, sub_append, replace_append, hX,
    sib1, hq, childPtr, treeNode.child, flipNode]
  rw [← hX, replace_sub_self]

/-! ## Children -/

theorem sub_single (t : treeNode) (d : Bool) : t.sub [d] = t.child d := by
  cases t <;> simp [treeNode.child]

theorem replace_single (t y : treeNode) (d : Bool) : t.replace [d] y = t.setChild d y := by
  cases t <;> simp [treeNode.setChild]

@[simp] theorem child_setChild (t y : treeNode) (d : Bool) (h : t ≠ .null) :
    (t.setChild d y).child d = y := by
  cases t with
  | null => exact absurd rfl h
  | node n m f l r => cases d <;> simp [treeNode.setChild, treeNode.child]

theorem setChild_setChild (t y z : treeNode) (d : Bool) :
    (t.setChild d y).setChild d z = t.setChild d z := by
  cases t with
  | null => rfl
  | node n m f l r => cases d <;> simp [treeNode.setChild]

theorem setChild_child (t : treeNode) (d : Bool) : t.setChild d (t.child d) = t := by
  cases t with
  | null => rfl
  | node n m f l r => cases d <;> simp [treeNode.setChild, treeNode.child]

theorem perfect_child {h : Nat} {t : treeNode} (hp : Perfect (h + 1) t) (d : Bool) :
    Perfect h (t.child d) := by
  cases t with
  | null => simp [Perfect] at hp
  | node n m f l r => cases d <;> simp [treeNode.child, hp.1, hp.2]

theorem perfect_setChild {h : Nat} {t y : treeNode} (hp : Perfect (h + 1) t) (d : Bool)
    (hy : Perfect h y) : Perfect (h + 1) (t.setChild d y) := by
  cases t with
  | null => simp [Perfect] at hp
  | node n m f l r => cases d <;> simp [treeNode.setChild, Perfect, hp.1, hp.2, hy]

theorem perfect_flipNode {h : Nat} {t : treeNode} (hp : Perfect h t) : Perfect h (flipNode t) := by
  cases t with
  | null => simp [Perfect] at hp
  | node n m f l r => cases h <;> simpa [flipNode, Perfect] using hp

theorem perfect_pushW {h : Nat} {t : treeNode} (hp : Perfect h t) : Perfect h (pushW t) := by
  cases t with
  | null => simp [Perfect] at hp
  | node n m f l r =>
    cases h with
    | zero => cases f <;> simp_all [pushW, Perfect, flipNode]
    | succ h =>
      cases f
      · simpa [pushW] using hp
      · simp only [pushW, if_true, Perfect]
        exact ⟨perfect_flipNode hp.1, perfect_flipNode hp.2⟩

theorem perfect_pushA {h : Nat} (i : Nat) {t : treeNode} (hp : Perfect (h + 1) t) :
    Perfect (h + 1) (pushA i t) := by
  cases t with
  | null => simp [Perfect] at hp
  | node n m f l r =>
    cases f
    · simpa [pushA] using hp
    · simp only [pushA, if_true, Perfect]
      exact ⟨perfect_flipNode hp.1, perfect_flipNode hp.2⟩

theorem perfect_calcNode {h : Nat} (i : Nat) {t : treeNode} (hp : Perfect h t) :
    Perfect h (calcNode i t) := by
  cases t with
  | null => simp [Perfect] at hp
  | node n m f l r => cases h <;> simpa [calcNode, Perfect] using hp

theorem perfect_sib0 {h : Nat} (d : Bool) {t : treeNode} (hp : Perfect (h + 1) t) :
    Perfect (h + 1) (sib0 d t) := by
  cases t with
  | null => simp [Perfect] at hp
  | node n m f l r =>
    cases d
    · simp only [sib0, Perfect]
      exact ⟨hp.1, perfect_flipNode hp.2⟩
    · simpa [sib0] using hp

theorem perfect_sib1 {h : Nat} (d : Bool) {t : treeNode} (hp : Perfect (h + 1) t) :
    Perfect (h + 1) (sib1 d t) := by
  cases t with
  | null => simp [Perfect] at hp
  | node n m f l r =>
    cases d
    · simpa [sib1] using hp
    · simp only [sib1, Perfect]
      exact ⟨perfect_flipNode hp.1, hp.2⟩

theorem perfect_descend (step : Nat → treeNode → treeNode)
    (hstep : ∀ i t, Perfect (i + 1) t → Perfect (i + 1) (step (i + 1) t)) :
    ∀ (h : Nat) (ds : List Bool) (t : treeNode), Perfect h t → Perfect h (descend step h ds t) := by
  intro h
  induction h with
  | zero => intro ds t hp; simpa [descend] using hp
  | succ h ih =>
    intro ds t hp
    cases ds with
    | nil => simpa [descend] using hp
    | cons d ds =>
      simp only [descend]
      exact perfect_setChild (hstep h t hp) d (ih ds _ (perfect_child (hstep h t hp) d))

theorem perfect_ascend (step : Nat → Bool → treeNode → treeNode)
    (hstep : ∀ i d t, Perfect (i + 1) t → Perfect (i + 1) (step (i + 1) d t)) :
    ∀ (h : Nat) (ds : List Bool) (t : treeNode), Perfect h t → Perfect h (ascend step h ds t) := by
  intro h
  induction h with
  | zero => intro ds t hp; simpa [ascend] using hp
  | succ h ih =>
    intro ds t hp
    cases ds with
    | nil => simpa [ascend] using hp
    | cons d ds =>
      simp only [ascend]
      exact hstep h d _ (perfect_setChild hp d (ih ds _ (perfect_child hp d)))

/-! ## Loops along one path -/

theorem forUpN_succ_last {σ : Type} (body : Nat → σ → Option σ) (n start : Nat) (s : σ) :
    forUpN body (n + 1) start s = (forUpN body n start s).bind (body (start + n)) := by
  induction n generalizing start s with
  | zero => simp [forUpN]
  | succ n ih =>
    have e1 : forUpN body (n + 1 + 1) start s
        = (body start s).bind (forUpN body (n + 1) (start + 1)) := rfl
    have e2 : forUpN body (n + 1) start s
        = (body start s).bind (forUpN body n (start + 1)) := rfl
    rw [e1, e2]
    cases body start s with
    | none => rfl
    | some s1 =>
      simp only [Option.some_bind]
      rw [ih]
      have : start + 1 + n = start + (n + 1) := by omega
      rw [this]

theorem forDown_acts (body : Nat → State → Option State) (step : Nat → treeNode → treeNode)
    (s : State) (hstep : ∀ i t, Perfect (i + 1) t → Perfect (i + 1) (step (i + 1) t)) :
    ∀ (seg pre : List Bool) (T : treeNode),
      (∀ u d v, seg = u ++ d :: v →
        ActsAt (body (v.length + 1)) s (pre ++ u) (v.length + 1) (step (v.length + 1))) →
      Perfect seg.length (T.sub pre) →
      forDown body seg.length (s.withRoot T)
        = some (s.withRoot (T.replace pre (descend step seg.length seg (T.sub pre)))) := by
  intro seg
  induction seg with
  | nil =>
    intro pre T _ _
    simp [forDown, descend, replace_sub_self]
  | cons d seg ih =>
    intro pre T hacts hp
    have h0 := hacts [] d seg rfl T (by simpa using hp)
    simp only [List.append_nil] at h0
    simp only [List.length_cons, forDown, h0, Option.some_bind]
    have hX1 : Perfect (seg.length + 1) (step (seg.length + 1) (T.sub pre)) :=
      hstep _ _ (by simpa using hp)
    have hne : T.sub pre ≠ .null := perfect_ne_null hp
    rw [ih (pre ++ [d]) _ ?_ ?_]
    · simp only [sub_append, sub_replace_self _ _ _ hne, replace_append, replace_replace,
        sub_single, replace_single, descend]
    · intro u e v huv
      have := hacts (d :: u) e v (by simp [huv])
      simpa using this
    · simp only [sub_append, sub_replace_self _ _ _ hne, sub_single]
      exact perfect_child hX1 d

theorem forUpN_acts (body : Nat → State → Option State)
    (step : Nat → Bool → treeNode → treeNode) (s : State) (lo start : Nat)
    (hstep : ∀ i d t, Perfect (i + 1) t → Perfect (i + 1) (step (i + 1) d t)) :
    ∀ (seg pre : List Bool) (T : treeNode),
      (∀ u d v, seg = u ++ d :: v →
        ActsAt (body (start + v.length)) s (pre ++ u) (lo + v.length + 1)
          (step (lo + v.length + 1) d)) →
      Perfect (lo + seg.length) (T.sub pre) →
      forUpN body seg.length start (s.withRoot T)
        = some (s.withRoot (T.replace pre (ascend step (lo + seg.length) seg (T.sub pre)))) := by
  intro seg
  induction seg with
  | nil =>
    intro pre T _ _
    cases lo <;> simp [forUpN, ascend, replace_sub_self]
  | cons d seg ih =>
    intro pre T hacts hp
    have hne : T.sub pre ≠ .null := perfect_ne_null hp
    have hp1 : Perfect (lo + seg.length + 1) (T.sub pre) := by simpa [Nat.add_assoc] using hp
    rw [List.length_cons, forUpN_succ_last, ih (pre ++ [d]) T ?_ ?_]
    · simp only [Option.some_bind]
      have h0 := hacts [] d seg rfl
      simp only [List.append_nil] at h0
      rw [h0]
      · simp only [sub_append, replace_append, sub_replace_self _ _ _ hne, replace_replace,
          sub_single, replace_single]
        rfl
      · simp only [sub_append, replace_append, sub_replace_self _ _ _ hne,
          sub_single, replace_single]
        exact perfect_setChild hp1 d
          (perfect_ascend step hstep _ _ _ (perfect_child hp1 d))
    · intro u e v huv
      have := hacts (d :: u) e v (by simp [huv])
      simpa using this
    · simp only [sub_append, sub_single]
      exact perfect_child hp1 d

/-! ## Loops along two paths -/

theorem sub_replace_disj (c : List Bool) (d0 d1 : Bool) (hd : d0 ≠ d1) (u v : List Bool)
    (T Y : treeNode) :
    (T.replace (c ++ d1 :: u) Y).sub (c ++ d0 :: v) = T.sub (c ++ d0 :: v) := by
  induction c generalizing T with
  | nil =>
    cases T with
    | null => simp
    | node n m f l r => cases d0 <;> cases d1 <;> simp at hd ⊢
  | cons e c ih =>
    cases T with
    | null => simp
    | node n m f l r => cases e <;> simp [ih]

theorem replace_comm_disj (c : List Bool) (d0 d1 : Bool) (hd : d0 ≠ d1) (u v : List Bool)
    (T Y Z : treeNode) :
    (T.replace (c ++ d0 :: u) Y).replace (c ++ d1 :: v) Z
      = (T.replace (c ++ d1 :: v) Z).replace (c ++ d0 :: u) Y := by
  induction c generalizing T with
  | nil =>
    cases T with
    | null => simp
    | node n m f l r => cases d0 <;> cases d1 <;> simp at hd ⊢
  | cons e c ih =>
    cases T with
    | null => simp
    | node n m f l r => cases e <;> simp [ih]

theorem replace_below (T : treeNode) (q e : List Bool) (Y Z : treeNode) :
    (T.replace (q ++ e) Y).replace q Z = T.replace q Z := by
  rw [replace_append, replace_replace]

theorem sub_replace_below (T : treeNode) (q e : List Bool) (Y : treeNode)
    (h : T.sub q ≠ .null) : (T.replace (q ++ e) Y).sub q = (T.sub q).replace e Y := by
  rw [replace_append, sub_replace_self _ _ _ h]

theorem ascend_nil (step : Nat → Bool → treeNode → treeNode) (h : Nat) (t : treeNode) :
    ascend step h [] t = t := by
  cases h <;> rfl

theorem descend_nil (step : Nat → treeNode → treeNode) (h : Nat) (t : treeNode) :
    descend step h [] t = t := by
  cases h <;> rfl

theorem forUpN_acts2 (bodyA bodyB : Nat → State → Option State)
    (stepA stepB : Nat → Bool → treeNode → treeNode) (s : State) (lo start : Nat)
    (hstepA : ∀ i d t, Perfect (i + 1) t → Perfect (i + 1) (stepA (i + 1) d t))
    (hstepB : ∀ i d t, Perfect (i + 1) t → Perfect (i + 1) (stepB (i + 1) d t))
    (c : List Bool) (d0 d1 : Bool) (hd : d0 ≠ d1) :
    ∀ (n : Nat) (segA segB uA uB : List Bool) (T : treeNode),
      segA.length = n → segB.length = n →
      (∀ u d v, segA = u ++ d :: v →
        ActsAt (bodyA (start + v.length)) s (c ++ d0 :: (uA ++ u)) (lo + v.length + 1)
          (stepA (lo + v.length + 1) d)) →
      (∀ u d v, segB = u ++ d :: v →
        ActsAt (bodyB (start + v.length)) s (c ++ d1 :: (uB ++ u)) (lo + v.length + 1)
          (stepB (lo + v.length + 1) d)) →
      Perfect (lo + n) (T.sub (c ++ d0 :: uA)) →
      Perfect (lo + n) (T.sub (c ++ d1 :: uB)) →
      forUpN (fun i σ => (bodyA i σ).bind (bodyB i)) n start (s.withRoot T)
        = some (s.withRoot
            ((T.replace (c ++ d0 :: uA) (ascend stepA (lo + n) segA
                (T.sub (c ++ d0 :: uA)))).replace (c ++ d1 :: uB)
              (ascend stepB (lo + n) segB (T.sub (c ++ d1 :: uB))))) := by
  intro n
  induction n with
  | zero =>
    intro segA segB uA uB T hlA hlB _ _ _ _
    have hA0 : segA = [] := List.length_eq_zero.mp hlA
    have hB0 : segB = [] := List.length_eq_zero.mp hlB
    subst hA0 hB0
    simp [forUpN, ascend_nil, replace_sub_self]
  | succ n ih =>
    intro segA segB uA uB T hlA hlB hA hB hpA hpB
    cases segA with
    | nil => simp at hlA
    | cons dA segA =>
    cases segB with
    | nil => simp at hlB
    | cons dB segB =>
      have hlA1 : segA.length = n := by simpa using hlA
      have hlB1 : segB.length = n := by simpa using hlB
      have hneA : T.sub (c ++ d0 :: uA) ≠ .null := perfect_ne_null hpA
      have hneB : T.sub (c ++ d1 :: uB) ≠ .null := perfect_ne_null hpB
      have eA : c ++ d0 :: (uA ++ [dA]) = (c ++ d0 :: uA) ++ [dA] := by simp
      have eB : c ++ d1 :: (uB ++ [dB]) = (c ++ d1 :: uB) ++ [dB] := by simp
      rw [forUpN_succ_last,
        ih segA segB (uA ++ [dA]) (uB ++ [dB]) T hlA1 hlB1 ?_ ?_ ?_ ?_]
      · simp only [Option.some_bind]
        have h0A := hA [] dA segA rfl
        have h0B := hB [] dB segB rfl
        simp only [List.append_nil, hlA1, hlB1] at h0A h0B
        -- the subtree on the first path, seen from the state after the inner rounds
        have hsubA : ((T.replace (c ++ d0 :: (uA ++ [dA]))
              (ascend stepA (lo + n) segA (T.sub (c ++ d0 :: (uA ++ [dA]))))).replace
              (c ++ d1 :: (uB ++ [dB]))
              (ascend stepB (lo + n) segB (T.sub (c ++ d1 :: (uB ++ [dB]))))).sub
              (c ++ d0 :: uA)
            = (T.sub (c ++ d0 :: uA)).setChild dA
                (ascend stepA (lo + n) segA ((T.sub (c ++ d0 :: uA)).child dA)) := by
          rw [sub_replace_disj c d0 d1 hd, eA, sub_replace_below _ _ _ _ hneA,
            sub_append T (c ++ d0 :: uA) [dA], sub_single, replace_single]
        rw [h0A _ (by
          rw [hsubA]
          exact perfect_setChild hpA dA
            (perfect_ascend stepA hstepA _ _ _ (perfect_child hpA dA)))]
        simp only [Option.some_bind]
        rw [hsubA]
        have hT2 : ((T.replace (c ++ d0 :: (uA ++ [dA]))
              (ascend stepA (lo + n) segA (T.sub (c ++ d0 :: (uA ++ [dA]))))).replace
              (c ++ d1 :: (uB ++ [dB]))
              (ascend stepB (lo + n) segB (T.sub (c ++ d1 :: (uB ++ [dB]))))).replace
              (c ++ d0 :: uA)
              (stepA (lo + n + 1) dA ((T.sub (c ++ d0 :: uA)).setChild dA
                (ascend stepA (lo + n) segA ((T.sub (c ++ d0 :: uA)).child dA))))
            = (T.replace (c ++ d0 :: uA)
                (ascend stepA (lo + (n + 1)) (dA :: segA)
                  (T.sub (c ++ d0 :: uA)))).replace
              (c ++ d1 :: (uB ++ [dB]))
              (ascend stepB (lo + n) segB (T.sub (c ++ d1 :: (uB ++ [dB])))) := by
          rw [← replace_comm_disj c d0 d1 hd, eA, replace_below]
          rfl
        rw [hT2]
        have hsubB : ((T.replace (c ++ d0 :: uA)
                (ascend stepA (lo + (n + 1)) (dA :: segA)
                  (T.sub (c ++ d0 :: uA)))).replace
              (c ++ d1 :: (uB ++ [dB]))
              (ascend stepB (lo + n) segB (T.sub (c ++ d1 :: (uB ++ [dB]))))).sub
              (c ++ d1 :: uB)
            = (T.sub (c ++ d1 :: uB)).setChild dB
                (ascend stepB (lo + n) segB ((T.sub (c ++ d1 :: uB)).child dB)) := by
          have hne2 : (T.replace (c ++ d0 :: uA)
                (ascend stepA (lo + (n + 1)) (dA :: segA)
                  (T.sub (c ++ d0 :: uA)))).sub (c ++ d1 :: uB) ≠ .null := by
            rw [sub_replace_disj c d1 d0 (Ne.symm hd)]
            exact hneB
          rw [eB, sub_replace_below _ _ _ _ hne2, sub_replace_disj c d1 d0 (Ne.symm hd),
            sub_append T (c ++ d1 :: uB) [dB], sub_single, replace_single]
        rw [h0B _ (by
          rw [hsubB]
          exact perfect_setChild hpB dB
            (perfect_ascend stepB hstepB _ _ _ (perfect_child hpB dB)))]
        rw [hsubB, eB, replace_below]
        rfl
      · intro u e v huv
        have := hA (dA :: u) e v (by simp [huv])
        simpa using this
      · intro u e v huv
        have := hB (dB :: u) e v (by simp [huv])
        simpa using this
      · rw [eA, sub_append T (c ++ d0 :: uA) [dA], sub_single]
        exact perfect_child hpA dA
      · rw [eB, sub_append T (c ++ d1 :: uB) [dB], sub_single]
        exact perfect_child hpB dB

/-! ## findPath -/

theorem dirs_length : ∀ (h : Nat) (t : treeNode) (i : Int), Perfect h t → (dirs h t i).length = h := by
  intro h
  induction h with
  | zero => intro t i _; cases t <;> rfl
  | succ h ih =>
    intro t i hp
    cases t with
    | null => simp [Perfect] at hp
    | node n m f l r =>
      by_cases hlt : i < m
      · simp [dirs, hlt, ih l i hp.1]
      · simp [dirs, hlt, ih r i hp.2]

theorem findPath_loop (index : Int) (pathID : Nat) (hid : pathID < 2) (H : Nat)
    (hH : H ≤ MAX_HEIGHT) (T : treeNode) :
    ∀ (k : Nat) (pre : List Bool) (P : Nat → Nat → Ptr), k + pre.length = H →
      Perfect k (T.sub pre) →
      forUpN (findPathStep index pathID) k pre.length (some pre, ⟨H, T, P⟩)
        = some (some (pre ++ dirs k (T.sub pre) index),
            ⟨H, T, fun a b =>
              if a = pathID ∧ 1 ≤ b ∧ b ≤ k then
                some (pre ++ (dirs k (T.sub pre) index).take (k - b))
              else P a b⟩) := by
  intro k
  induction k with
  | zero =>
    intro pre P _ hp
    have : dirs 0 (T.sub pre) index = [] := by cases T.sub pre <;> rfl
    simp only [forUpN, this, List.append_nil]
    congr 3
    funext a b
    rw [if_neg (by omega)]
  | succ k ih =>
    intro pre P hlen hp
    obtain ⟨n, m, f, nl, ml, fl, ll, lr, nr, mr, fr, rl, rr, hX⟩ := perfect_succ_cases hp
    have hne : T.sub pre ≠ .null := by simp [hX]
    have hk : H - pre.length = k + 1 := by omega
    have hk20 : k + 1 ≤ MAX_HEIGHT := by omega
    have hmid := getMiddle_some ⟨H, T, fun a b => if a = pathID ∧ b = k + 1 then some pre else P a b⟩
      T pre hne
    have hleft := getLeft_some ⟨H, T, fun a b => if a = pathID ∧ b = k + 1 then some pre else P a b⟩
      T pre hne
    have hright := getRight_some ⟨H, T, fun a b => if a = pathID ∧ b = k + 1 then some pre else P a b⟩
      T pre hne
    simp only [State.withRoot] at hmid hleft hright
    have hstep : findPathStep index pathID pre.length (some pre, ⟨H, T, P⟩)
        = some (some (pre ++ [decide (¬ index < m)]),
            ⟨H, T, fun a b => if a = pathID ∧ b = k + 1 then some pre else P a b⟩) := by
      simp only [findPathStep, pathSet, hid, hk, hk20, and_self, if_true, Option.bind_eq_bind,
        Option.some_bind, hmid, hX, treeNode.mid]
      by_cases hlt : index < m
      · simp [hlt, hleft, hX, childPtr, treeNode.child]
      · simp [hlt, hright, hX, childPtr, treeNode.child]
    have e1 : forUpN (findPathStep index pathID) (k + 1) pre.length (some pre, ⟨H, T, P⟩)
        = (findPathStep index pathID pre.length (some pre, ⟨H, T, P⟩)).bind
            (forUpN (findPathStep index pathID) k (pre.length + 1)) := rfl
    rw [e1, hstep, Option.some_bind]
    have hlen1 : (pre ++ [decide (¬ index < m)]).length = pre.length + 1 := by simp
    rw [← hlen1, ih _ _ (by rw [hlen1]; omega) (by
      rw [sub_append, sub_single]; exact perfect_child hp _)]
    have hd : dirs (k + 1) (T.sub pre) index
        = decide (¬ index < m) :: dirs k ((T.sub pre).child (decide (¬ index < m))) index := by
      rw [hX]
      by_cases hlt : index < m <;> simp [dirs, hlt, treeNode.child]
    rw [hd, sub_append, sub_single]
    congr 2
    · simp
    · congr 1
      funext a b
      by_cases h1 : a = pathID ∧ 1 ≤ b ∧ b ≤ k
      · have h3 : k + 1 - b = (k - b) + 1 := by omega
        rw [if_pos h1, if_pos ⟨h1.1, h1.2.1, by omega⟩, h3]
        simp
      · by_cases h2 : a = pathID ∧ b = k + 1
        · have h4 : k + 1 - b = 0 := by omega
          rw [if_neg h1, if_pos h2, if_pos ⟨h2.1, by omega, by omega⟩, h4]
          simp
        · rw [if_neg h1, if_neg h2, if_neg (by omega)]

theorem findPath_eq (s : State) (index : Int) (pathID : Nat) (hid : pathID < 2)
    (hH : s.treeHeight ≤ MAX_HEIGHT) (hp : Perfect s.treeHeight s.root) :
    findPath index pathID s
      = some ⟨s.treeHeight, s.root, fun a b =>
          if a = pathID ∧ b ≤ s.treeHeight then
            some ((dirs s.treeHeight s.root index).take (s.treeHeight - b))
          else s.path a b⟩ := by
  obtain ⟨H, T, P⟩ := s
  simp only at hH hp ⊢
  have hroot : rootPtr ⟨H, T, P⟩ = some [] := by
    cases T with
    | null => exact absurd rfl (perfect_ne_null hp)
    | node n m f l r => rfl
  have hloop := findPath_loop index pathID hid H hH T H [] P (by simp) (by simpa using hp)
  simp only [List.length_nil, List.nil_append, sub_nil] at hloop
  simp only [findPath, forUp, Nat.sub_zero, hroot, hloop, Option.bind_eq_bind, Option.some_bind,
    pathSet, hid, Nat.zero_le, and_self, if_true]
  congr 2
  funext a b
  by_cases h0 : a = pathID ∧ b = 0
  · have hl := dirs_length H T index hp
    rw [if_pos h0, if_pos ⟨h0.1, by omega⟩, h0.2, Nat.sub_zero,
      List.take_of_length_le (by omega)]
  · by_cases h1 : a = pathID ∧ 1 ≤ b ∧ b ≤ H
    · rw [if_neg h0, if_pos h1, if_pos ⟨h1.1, h1.2.2⟩]
    · rw [if_neg h0, if_neg h1, if_neg (by omega)]

/-! ## findFork -/

theorem forkOf_lt : ∀ (ds0 ds1 : List Bool), forkOf ds0 ds1 < (ds0.length : Int) := by
  intro ds0
  induction ds0 with
  | nil => intro ds1; simp [forkOf]
  | cons d0 a ih =>
    intro ds1
    cases ds1 with
    | nil => simp [forkOf]; omega
    | cons d1 b =>
      by_cases hd : d0 = d1
      · have := ih b
        simp only [forkOf, hd, if_true, List.length_cons]
        push_cast
        omega
      · simp only [forkOf, hd, if_false, List.length_cons]
        push_cast
        omega

theorem forkOf_ge : ∀ (ds0 ds1 : List Bool), -1 ≤ forkOf ds0 ds1 := by
  intro ds0
  induction ds0 with
  | nil => intro ds1; simp [forkOf]
  | cons d0 a ih =>
    intro ds1
    cases ds1 with
    | nil => simp [forkOf]
    | cons d1 b =>
      by_cases hd : d0 = d1
      · simpa [forkOf, hd] using ih b
      · simp only [forkOf, hd, if_false]
        omega

theorem take_eq_iff_forkOf : ∀ (ds0 ds1 : List Bool), ds0.length = ds1.length →
    ∀ k : Nat, k ≤ ds0.length →
      (ds0.take (ds0.length - k) = ds1.take (ds0.length - k) ↔ forkOf ds0 ds1 < (k : Int)) := by
  intro ds0
  induction ds0 with
  | nil =>
    intro ds1 _ k hk
    have : k = 0 := by simpa using hk
    subst this
    simp [forkOf]
  | cons d0 a ih =>
    intro ds1 hlen k hk
    cases ds1 with
    | nil => simp at hlen
    | cons d1 b =>
      have hlen1 : a.length = b.length := by simpa using hlen
      by_cases hkk : k = a.length + 1
      · subst hkk
        have := forkOf_lt (d0 :: a) (d1 :: b)
        simp only [List.length_cons, Nat.sub_self, List.take_zero, true_iff]
        simpa using this
      · have hk1 : k ≤ a.length := by
          simp only [List.length_cons] at hk
          omega
        have e : (d0 :: a).length - k = (a.length - k) + 1 := by
          simp only [List.length_cons]
          omega
        rw [e, List.take_succ_cons, List.take_succ_cons]
        by_cases hd : d0 = d1
        · subst hd
          simp only [forkOf, if_true, List.cons.injEq, true_and]
          exact ih b hlen1 k hk1
        · simp only [forkOf, hd, if_false, List.cons.injEq, false_and, false_iff, not_lt]
          exact_mod_cast hk1

theorem findForkLoop_eq (s : State) (ds0 ds1 : List Bool) (hl0 : ds0.length = s.treeHeight)
    (hl1 : ds1.length = s.treeHeight) (hH : s.treeHeight ≤ MAX_HEIGHT)
    (hp0 : ∀ b, b ≤ s.treeHeight → s.path 0 b = some (ds0.take (s.treeHeight - b)))
    (hp1 : ∀ b, b ≤ s.treeHeight → s.path 1 b = some (ds1.take (s.treeHeight - b))) :
    ∀ k : Nat, k ≤ s.treeHeight + 1 →
      findForkLoop s k = some (min (k : Int) (forkOf ds0 ds1 + 1) - 1) := by
  intro k
  induction k with
  | zero =>
    intro _
    have := forkOf_ge ds0 ds1
    simp only [findForkLoop, Nat.cast_zero]
    congr 1
    omega
  | succ k ih =>
    intro hk
    have hkH : k ≤ s.treeHeight := by omega
    have hk20 : k ≤ MAX_HEIGHT := by omega
    have hiff := take_eq_iff_forkOf ds0 ds1 (by omega) k (by omega)
    rw [hl0] at hiff
    simp only [findForkLoop, pathGet, hk20, hp0 k hkH, hp1 k hkH, Option.bind_eq_bind,
      Option.some_bind, Option.some.injEq, Nat.lt_add_one, Nat.zero_lt_two, Nat.one_lt_two,
      and_self, if_true]
    by_cases hlt : forkOf ds0 ds1 < (k : Int)
    · rw [if_pos (hiff.mpr hlt), ih (by omega)]
      congr 1
      push_cast
      omega
    · rw [if_neg (fun h => hlt (hiff.mp h))]
      simp only [Option.pure_def, Option.some.injEq]
      push_cast
      omega

theorem findFork_eq (s : State) (ds0 ds1 : List Bool) (hl0 : ds0.length = s.treeHeight)
    (hl1 : ds1.length = s.treeHeight) (hH : s.treeHeight ≤ MAX_HEIGHT)
    (hp0 : ∀ b, b ≤ s.treeHeight → s.path 0 b = some (ds0.take (s.treeHeight - b)))
    (hp1 : ∀ b, b ≤ s.treeHeight → s.path 1 b = some (ds1.take (s.treeHeight - b))) :
    findFork s = some (forkOf ds0 ds1) := by
  have h := findForkLoop_eq s ds0 ds1 hl0 hl1 hH hp0 hp1 (s.treeHeight + 1) le_rfl
  have := forkOf_lt ds0 ds1
  rw [findFork, h]
  congr 1
  push_cast
  omega

/-- Two paths of the same length are equal or separate after a common part. -/
theorem fork_cases : ∀ (ds0 ds1 : List Bool), ds0.length = ds1.length →
    (ds0 = ds1 ∧ forkOf ds0 ds1 = -1) ∨
    ∃ c d0 d1 a b, ds0 = c ++ d0 :: a ∧ ds1 = c ++ d1 :: b ∧ d0 ≠ d1 ∧ a.length = b.length ∧
      forkOf ds0 ds1 = (a.length : Int) := by
  intro ds0
  induction ds0 with
  | nil =>
    intro ds1 hlen
    cases ds1 with
    | nil => exact Or.inl ⟨rfl, rfl⟩
    | cons _ _ => simp at hlen
  | cons d0 a ih =>
    intro ds1 hlen
    cases ds1 with
    | nil => simp at hlen
    | cons d1 b =>
      have hlen1 : a.length = b.length := by simpa using hlen
      by_cases hd : d0 = d1
      · subst hd
        rcases ih b hlen1 with ⟨he, hf⟩ | ⟨c, e0, e1, a1, b1, ha, hb, hne, hl, hf⟩
        · exact Or.inl ⟨by rw [he], by simpa [forkOf] using hf⟩
        · refine Or.inr ⟨d0 :: c, e0, e1, a1, b1, by simp [ha], by simp [hb], hne, hl, ?_⟩
          simpa [forkOf] using hf
      · exact Or.inr ⟨[], d0, d1, a, b, rfl, rfl, hd, hlen1, by simp [forkOf, hd]⟩

/-! ## The loops of answerAud that sum -/

theorem countLeaf_some (s : State) (T : treeNode) (q : List Bool) (ans : Int)
    (h : T.sub q ≠ .null) :
    countLeaf (s.withRoot T) (some q) ans = some (ans + leafUp (T.sub q)) := by
  simp only [countLeaf, getFlipped_some s T q h, Option.bind_eq_bind, Option.some_bind,
    Option.pure_def, leafUp]
  cases (T.sub q).flag <;> simp

theorem answerAudLeft_some (s : State) (T : treeNode) (i : Nat) (q : List Bool) (d : Bool)
    (ans : Int) (hi : i + 1 ≤ MAX_HEIGHT) (hp : s.path 0 i = some (q ++ [d]))
    (hp1 : s.path 0 (i + 1) = some q) (hT : Perfect (i + 1) (T.sub q)) :
    answerAudLeft (s.withRoot T) i ans
      = some (ans + (if d then 0 else upOf i ((T.sub q).child true))) := by
  obtain ⟨n, m, f, nl, ml, fl, ll, lr, nr, mr, fr, rl, rr, hX⟩ := perfect_succ_cases hT
  have hq : T.sub q ≠ .null := by simp [hX]
  have hi0 : i ≤ MAX_HEIGHT := by omega
  have htp := twoPowersAt_nat i hi0
  cases d <;> cases fr <;>
  simp [answerAudLeft, pathGet_some, hi, hi0, hp, hp1, getLeft_some, getRight_some,
    getFlipped_some, getNum_some, sub_append, hX, htp, upOf, hq, childPtr, treeNode.child,
    treeNode.flag, treeNode.num]

theorem answerAudRight_some (s : State) (T : treeNode) (i : Nat) (q : List Bool) (d : Bool)
    (ans : Int) (hi : i + 1 ≤ MAX_HEIGHT) (hp : s.path 1 i = some (q ++ [d]))
    (hp1 : s.path 1 (i + 1) = some q) (hT : Perfect (i + 1) (T.sub q)) :
    answerAudRight (s.withRoot T) i ans
      = some (ans + (if d then upOf i ((T.sub q).child false) else 0)) := by
  obtain ⟨n, m, f, nl, ml, fl, ll, lr, nr, mr, fr, rl, rr, hX⟩ := perfect_succ_cases hT
  have hq : T.sub q ≠ .null := by simp [hX]
  have hi0 : i ≤ MAX_HEIGHT := by omega
  have htp := twoPowersAt_nat i hi0
  cases d <;> cases fl <;>
  simp [answerAudRight, pathGet_some, hi, hi0, hp, hp1, getLeft_some, getRight_some,
    getFlipped_some, getNum_some, sub_append, hX, htp, upOf, hq, childPtr, treeNode.child,
    treeNode.flag, treeNode.num]

theorem forUpN_sumLeft (s : State) (T : treeNode) :
    ∀ (seg pre : List Bool) (ans : Int), seg.length ≤ MAX_HEIGHT →
      (∀ u d v, seg = u ++ d :: v →
        s.path 0 v.length = some (pre ++ u ++ [d]) ∧ s.path 0 (v.length + 1) = some (pre ++ u)) →
      Perfect seg.length (T.sub pre) →
      forUpN (answerAudLeft (s.withRoot T)) seg.length 0 ans
        = some (ans + sumLeft seg.length seg (T.sub pre)) := by
  intro seg
  induction seg with
  | nil => intro pre ans _ _ _; simp [forUpN, sumLeft]
  | cons d seg ih =>
    intro pre ans hlen hpath hp
    have hp1 : Perfect (seg.length + 1) (T.sub pre) := by simpa using hp
    rw [List.length_cons, forUpN_succ_last, ih (pre ++ [d]) ans (by simp at hlen; omega) ?_ ?_]
    · have h0 := hpath [] d seg rfl
      simp only [List.append_nil] at h0
      simp only [Option.some_bind, Nat.zero_add]
      rw [answerAudLeft_some s T seg.length pre d _ (by simpa using hlen) h0.1 h0.2 hp1]
      simp only [sumLeft, sub_append, sub_single]
      congr 1
      ring
    · intro u e v huv
      have := hpath (d :: u) e v (by simp [huv])
      simpa using this
    · rw [sub_append, sub_single]
      exact perfect_child hp1 d

theorem forUpN_sumRight (s : State) (T : treeNode) :
    ∀ (seg pre : List Bool) (ans : Int), seg.length ≤ MAX_HEIGHT →
      (∀ u d v, seg = u ++ d :: v →
        s.path 1 v.length = some (pre ++ u ++ [d]) ∧ s.path 1 (v.length + 1) = some (pre ++ u)) →
      Perfect seg.length (T.sub pre) →
      forUpN (answerAudRight (s.withRoot T)) seg.length 0 ans
        = some (ans + sumRight seg.length seg (T.sub pre)) := by
  intro seg
  induction seg with
  | nil => intro pre ans _ _ _; simp [forUpN, sumRight]
  | cons d seg ih =>
    intro pre ans hlen hpath hp
    have hp1 : Perfect (seg.length + 1) (T.sub pre) := by simpa using hp
    rw [List.length_cons, forUpN_succ_last, ih (pre ++ [d]) ans (by simp at hlen; omega) ?_ ?_]
    · have h0 := hpath [] d seg rfl
      simp only [List.append_nil] at h0
      simp only [Option.some_bind, Nat.zero_add]
      rw [answerAudRight_some s T seg.length pre d _ (by simpa using hlen) h0.1 h0.2 hp1]
      simp only [sumRight, sub_append, sub_single]
      congr 1
      ring
    · intro u e v huv
      have := hpath (d :: u) e v (by simp [huv])
      simpa using this
    · rw [sub_append, sub_single]
      exact perfect_child hp1 d

/-! ## The phases of waveHand, fused -/

theorem setChild_replace_cons (t y x : treeNode) (d : Bool) (q : List Bool) :
    (t.setChild d y).replace (d :: q) x = t.setChild d (y.replace q x) := by
  cases t with
  | null => rfl
  | node n m f l r => cases d <;> simp [treeNode.setChild]

theorem setChild_sub_cons (t y : treeNode) (d : Bool) (q : List Bool) (h : t ≠ .null) :
    (t.setChild d y).sub (d :: q) = y.sub q := by
  cases t with
  | null => exact absurd rfl h
  | node n m f l r => cases d <;> simp [treeNode.setChild]

theorem sub_cons (t : treeNode) (d : Bool) (q : List Bool) :
    t.sub (d :: q) = (t.child d).sub q := by
  cases t with
  | null => simp [treeNode.child]
  | node n m f l r => simp [treeNode.child]

theorem replace_cons (t x : treeNode) (d : Bool) (q : List Bool) :
    t.replace (d :: q) x = t.setChild d ((t.child d).replace q x) := by
  cases t with
  | null => rfl
  | node n m f l r => cases d <;> simp [treeNode.setChild, treeNode.child]

theorem sib0_setChild (t y : treeNode) (d : Bool) :
    sib0 d (t.setChild d y) = (sib0 d t).setChild d y := by
  cases t with
  | null => rfl
  | node n m f l r => cases d <;> simp [treeNode.setChild, sib0]

theorem sib1_setChild (t y : treeNode) (d : Bool) :
    sib1 d (t.setChild d y) = (sib1 d t).setChild d y := by
  cases t with
  | null => rfl
  | node n m f l r => cases d <;> simp [treeNode.setChild, sib1]

theorem pushW_ne_null {t : treeNode} (h : t ≠ .null) : pushW t ≠ .null := by
  cases t with
  | null => exact absurd rfl h
  | node n m f l r => cases f <;> simp [pushW]

theorem pushA_ne_null (i : Nat) {t : treeNode} (h : t ≠ .null) : pushA i t ≠ .null := by
  cases t with
  | null => exact absurd rfl h
  | node n m f l r => cases f <;> simp [pushA]

theorem sib0_ne_null (d : Bool) {t : treeNode} (h : t ≠ .null) : sib0 d t ≠ .null := by
  cases t with
  | null => exact absurd rfl h
  | node n m f l r => cases d <;> simp [sib0]

theorem sib1_ne_null (d : Bool) {t : treeNode} (h : t ≠ .null) : sib1 d t ≠ .null := by
  cases t with
  | null => exact absurd rfl h
  | node n m f l r => cases d <;> simp [sib1]

theorem setChild_ne_null (d : Bool) {t : treeNode} (y : treeNode) (h : t ≠ .null) :
    t.setChild d y ≠ .null := by
  cases t with
  | null => exact absurd rfl h
  | node n m f l r => cases d <;> simp [treeNode.setChild]

theorem waveBranch0_fuse : ∀ (h : Nat) (a : List Bool) (t : treeNode), Perfect h t →
    a.length = h →
    ascend (fun i _ => calcNode i) h a
      (ascend (fun _ d => sib0 d) h a
        ((descend (fun _ => pushW) h a t).replace a
          (flipNode ((descend (fun _ => pushW) h a t).sub a))))
      = waveBranch0 h a t := by
  intro h
  induction h with
  | zero =>
    intro a t _ ha
    have : a = [] := List.length_eq_zero.mp ha
    subst this
    simp [ascend, descend, waveBranch0]
  | succ h ih =>
    intro a t hp ha
    cases a with
    | nil => simp at ha
    | cons d a =>
      have ha1 : a.length = h := by simpa using ha
      have hne : pushW t ≠ .null := pushW_ne_null (perfect_ne_null hp)
      have hpc : Perfect h ((pushW t).child d) := perfect_child (perfect_pushW hp) d
      simp only [descend, ascend, waveBranch0, setChild_replace_cons,
        setChild_sub_cons _ _ _ _ hne, child_setChild _ _ _ hne, setChild_setChild,
        sib0_setChild, child_setChild _ _ _ (sib0_ne_null d hne), ih a _ hpc ha1]

theorem waveBranch1_fuse : ∀ (h : Nat) (a : List Bool) (t : treeNode), Perfect h t →
    a.length = h →
    ascend (fun i _ => calcNode i) h a
      (ascend (fun _ d => sib1 d) h a
        ((descend (fun _ => pushW) h a t).replace a
          (flipNode ((descend (fun _ => pushW) h a t).sub a))))
      = waveBranch1 h a t := by
  intro h
  induction h with
  | zero =>
    intro a t _ ha
    have : a = [] := List.length_eq_zero.mp ha
    subst this
    simp [ascend, descend, waveBranch1]
  | succ h ih =>
    intro a t hp ha
    cases a with
    | nil => simp at ha
    | cons d a =>
      have ha1 : a.length = h := by simpa using ha
      have hne : pushW t ≠ .null := pushW_ne_null (perfect_ne_null hp)
      have hpc : Perfect h ((pushW t).child d) := perfect_child (perfect_pushW hp) d
      simp only [descend, ascend, waveBranch1, setChild_replace_cons,
        setChild_sub_cons _ _ _ _ hne, child_setChild _ _ _ hne, setChild_setChild,
        sib1_setChild, child_setChild _ _ _ (sib1_ne_null d hne), ih a _ hpc ha1]

/-- The phases of `waveHand` when both paths are the same. -/
theorem waveSpec_fuse_same : ∀ (h : Nat) (a : List Bool) (t : treeNode), Perfect h t →
    a.length = h →
    ascend (fun i _ => calcNode i) h a
      ((descend (fun _ => pushW) h a t).replace a
        (flipNode ((descend (fun _ => pushW) h a t).sub a)))
      = waveSpec h a a t := by
  intro h
  induction h with
  | zero =>
    intro a t _ ha
    have : a = [] := List.length_eq_zero.mp ha
    subst this
    simp [ascend, descend, waveSpec]
  | succ h ih =>
    intro a t hp ha
    cases a with
    | nil => simp at ha
    | cons d a =>
      have ha1 : a.length = h := by simpa using ha
      have hne : pushW t ≠ .null := pushW_ne_null (perfect_ne_null hp)
      have hpc : Perfect h ((pushW t).child d) := perfect_child (perfect_pushW hp) d
      simp only [descend, ascend, waveSpec, setChild_replace_cons,
        setChild_sub_cons _ _ _ _ hne, child_setChild _ _ _ hne, setChild_setChild,
        ih a _ hpc ha1, if_true]

theorem child_setChild_ne (t y : treeNode) (d e : Bool) (hde : d ≠ e) :
    (t.setChild d y).child e = t.child e := by
  cases t with
  | null => rfl
  | node n m f l r => cases d <;> cases e <;> simp [treeNode.setChild, treeNode.child] at hde ⊢

theorem applyAt_nil (g : treeNode → treeNode) (t : treeNode) : applyAt [] g t = g t := by
  simp [applyAt]

theorem applyAt_cons (g : treeNode → treeNode) (t : treeNode) (d : Bool) (q : List Bool) :
    applyAt (d :: q) g t = t.setChild d (applyAt q g (t.child d)) := by
  simp only [applyAt, replace_cons, sub_cons]

theorem applyAt_cons_setChild (g : treeNode → treeNode) (t y : treeNode) (d : Bool)
    (q : List Bool) (h : t ≠ .null) :
    applyAt (d :: q) g (t.setChild d y) = t.setChild d (applyAt q g y) := by
  rw [applyAt_cons, child_setChild _ _ _ h, setChild_setChild]

theorem wavePhases_cons (h f : Nat) (e : Bool) (c : List Bool) (d0 d1 : Bool) (a b : List Bool)
    (t : treeNode) (ht : t ≠ .null) :
    wavePhases (h + 1) f (e :: c) d0 d1 a b t
      = calcNode (h + 1) ((pushW t).setChild e (wavePhases h f c d0 d1 a b ((pushW t).child e))) := by
  have hne : pushW t ≠ .null := pushW_ne_null ht
  simp only [wavePhases, List.cons_append, descend, applyAt_cons_setChild _ _ _ _ _ hne, ascend,
    child_setChild _ _ _ hne, setChild_setChild, List.append_eq]

theorem wavePhases_nil (f : Nat) (d0 d1 : Bool) (hd : d0 ≠ d1) (a b : List Bool)
    (t : treeNode) (hp : Perfect (f + 1) t) (ha : a.length = f) (hb : b.length = f) :
    wavePhases (f + 1) f [] d0 d1 a b t
      = calcNode (f + 1) (((pushW t).setChild d0 (waveBranch0 f a ((pushW t).child d0))).setChild d1
          (waveBranch1 f b ((pushW t).child d1))) := by
  have hpw := perfect_pushW hp
  have hA := waveBranch0_fuse f a _ (perfect_child hpw d0) ha
  have hB := waveBranch1_fuse f b _ (perfect_child hpw d1) hb
  rw [← hA, ← hB]
  simp only [wavePhases, List.nil_append, descend]
  generalize pushW t = t1 at *
  cases t1 with
  | null => simp [Perfect] at hpw
  | node n m fl L R =>
    cases d0 <;> cases d1 <;> simp at hd <;>
    simp [wavePhases, descend, applyAt_cons, applyAt_nil, treeNode.setChild, treeNode.child,
      ascend, ascend_nil, applyAt]

/-- The loops of `waveHand` compute `waveSpec` when the paths separate. -/
theorem waveSpec_fuse_fork : ∀ (c : List Bool) (d0 d1 : Bool) (a b : List Bool) (f h : Nat)
    (t : treeNode), d0 ≠ d1 → a.length = f → b.length = f → h = c.length + (f + 1) →
    Perfect h t →
    wavePhases h f c d0 d1 a b t = waveSpec h (c ++ d0 :: a) (c ++ d1 :: b) t := by
  intro c
  induction c with
  | nil =>
    intro d0 d1 a b f h t hd ha hb hh hp
    simp only [List.length_nil, Nat.zero_add] at hh
    subst hh
    rw [wavePhases_nil f d0 d1 hd a b t hp ha hb]
    simp [waveSpec, hd]
  | cons e c ih =>
    intro d0 d1 a b f h t hd ha hb hh hp
    obtain ⟨h1, rfl⟩ : ∃ h1, h = h1 + 1 := ⟨c.length + (f + 1), by simp at hh; omega⟩
    have hh1 : h1 = c.length + (f + 1) := by simp at hh; omega
    rw [wavePhases_cons h1 f e c d0 d1 a b t (perfect_ne_null hp),
      ih d0 d1 a b f h1 _ hd ha hb hh1 (perfect_child (perfect_pushW hp) e)]
    simp [waveSpec]

/-! ## The phases of answerAud, fused -/

theorem askSpec_fuse_same : ∀ (h : Nat) (a : List Bool) (t : treeNode),
    descend pushA h a t = askSpec h a a t := by
  intro h
  induction h with
  | zero => intro a t; cases a <;> simp [descend, askSpec]
  | succ h ih =>
    intro a t
    cases a with
    | nil => simp [descend, askSpec]
    | cons d a => simp [descend, askSpec, ih]

theorem askPhases_cons (h f : Nat) (e : Bool) (c : List Bool) (d0 d1 : Bool) (a b : List Bool)
    (t : treeNode) (ht : t ≠ .null) :
    askPhases (h + 1) f (e :: c) d0 d1 a b t
      = (pushA (h + 1) t).setChild e (askPhases h f c d0 d1 a b ((pushA (h + 1) t).child e)) := by
  have hne : pushA (h + 1) t ≠ .null := pushA_ne_null _ ht
  simp only [askPhases, List.cons_append, descend, applyAt_cons_setChild _ _ _ _ _ hne,
    List.append_eq]

theorem askPhases_nil (f : Nat) (d0 d1 : Bool) (hd : d0 ≠ d1) (a b : List Bool)
    (t : treeNode) (ht : t ≠ .null) :
    askPhases (f + 1) f [] d0 d1 a b t
      = ((pushA (f + 1) t).setChild d0 (descend pushA f a ((pushA (f + 1) t).child d0))).setChild d1
          (descend pushA f b ((pushA (f + 1) t).child d1)) := by
  have hne : pushA (f + 1) t ≠ .null := pushA_ne_null _ ht
  simp only [askPhases, List.nil_append, descend, applyAt_cons, applyAt_nil,
    child_setChild_ne _ _ _ _ hd]

/-- The push-down loops of `answerAud` compute `askSpec` when the paths separate. -/
theorem askSpec_fuse_fork : ∀ (c : List Bool) (d0 d1 : Bool) (a b : List Bool) (f h : Nat)
    (t : treeNode), d0 ≠ d1 → h = c.length + (f + 1) → Perfect h t →
    askPhases h f c d0 d1 a b t = askSpec h (c ++ d0 :: a) (c ++ d1 :: b) t := by
  intro c
  induction c with
  | nil =>
    intro d0 d1 a b f h t hd hh hp
    simp only [List.length_nil, Nat.zero_add] at hh
    subst hh
    rw [askPhases_nil f d0 d1 hd a b t (perfect_ne_null hp)]
    simp [askSpec, hd]
  | cons e c ih =>
    intro d0 d1 a b f h t hd hh hp
    obtain ⟨h1, rfl⟩ : ∃ h1, h = h1 + 1 := ⟨c.length + (f + 1), by simp at hh; omega⟩
    have hh1 : h1 = c.length + (f + 1) := by simp at hh; omega
    rw [askPhases_cons h1 f e c d0 d1 a b t (perfect_ne_null hp),
      ih d0 d1 a b f h1 _ hd hh1 (perfect_child (perfect_pushA _ hp) e)]
    simp [askSpec]

theorem askValue_same : ∀ (h : Nat) (a : List Bool) (t : treeNode), a.length = h →
    askValue h a a t = leafUp (t.sub a) := by
  intro h
  induction h with
  | zero =>
    intro a t ha
    have : a = [] := List.length_eq_zero.mp ha
    subst this
    simp [askValue]
  | succ h ih =>
    intro a t ha
    cases a with
    | nil => simp at ha
    | cons d a => simp [askValue, sub_cons, ih a _ (by simpa using ha)]

theorem askValue_fork : ∀ (c : List Bool) (d0 d1 : Bool) (a b : List Bool) (f h : Nat)
    (t : treeNode), d0 ≠ d1 → h = c.length + (f + 1) →
    askValue h (c ++ d0 :: a) (c ++ d1 :: b) t
      = leafUp (t.sub (c ++ d0 :: a)) + leafUp (t.sub (c ++ d1 :: b))
        + sumLeft f a (t.sub (c ++ [d0])) + sumRight f b (t.sub (c ++ [d1])) := by
  intro c
  induction c with
  | nil =>
    intro d0 d1 a b f h t hd hh
    simp only [List.length_nil, Nat.zero_add] at hh
    subst hh
    simp [askValue, hd, sub_cons]
  | cons e c ih =>
    intro d0 d1 a b f h t hd hh
    obtain ⟨h1, rfl⟩ : ∃ h1, h = h1 + 1 := ⟨c.length + (f + 1), by simp at hh; omega⟩
    have hh1 : h1 = c.length + (f + 1) := by simp at hh; omega
    simp only [List.cons_append, askValue, if_true, sub_cons t e,
      ih d0 d1 a b f h1 _ hd hh1, List.append_eq]

/-! ## Perfect trees and positions -/

theorem perfect_sub : ∀ (q : List Bool) (h : Nat) (T : treeNode), Perfect h T → q.length ≤ h →
    Perfect (h - q.length) (T.sub q) := by
  intro q
  induction q with
  | nil => intro h T hp _; simpa using hp
  | cons d q ih =>
    intro h T hp hq
    obtain ⟨h1, rfl⟩ : ∃ h1, h = h1 + 1 := ⟨h - 1, by simp at hq; omega⟩
    have := ih h1 (T.child d) (perfect_child hp d) (by simp at hq; omega)
    rw [sub_cons]
    simpa using this

theorem perfect_replace : ∀ (q : List Bool) (h : Nat) (T Y : treeNode), Perfect h T →
    q.length ≤ h → Perfect (h - q.length) Y → Perfect h (T.replace q Y) := by
  intro q
  induction q with
  | nil => intro h T Y _ _ hY; simpa using hY
  | cons d q ih =>
    intro h T Y hp hq hY
    obtain ⟨h1, rfl⟩ : ∃ h1, h = h1 + 1 := ⟨h - 1, by simp at hq; omega⟩
    rw [replace_cons]
    refine perfect_setChild hp d (ih h1 _ Y (perfect_child hp d) (by simp at hq; omega) ?_)
    simpa using hY

theorem perfect_applyAt (q : List Bool) (h : Nat) (g : treeNode → treeNode) (T : treeNode)
    (hp : Perfect h T) (hq : q.length ≤ h)
    (hg : ∀ X, Perfect (h - q.length) X → Perfect (h - q.length) (g X)) :
    Perfect h (applyAt q g T) :=
  perfect_replace q h T _ hp hq (hg _ (perfect_sub q h T hp hq))

/-! ## The path table -/

theorem path0_split {s : State} {ds0 ds1 : List Bool} (h : PathsOK s ds0 ds1) (u : List Bool)
    (d : Bool) (v : List Bool) (e : ds0 = u ++ d :: v) :
    s.path 0 (v.length + 1) = some u ∧ s.path 0 v.length = some (u ++ [d]) := by
  obtain ⟨hl0, _, _, hp0, _⟩ := h
  have hH : s.treeHeight = u.length + 1 + v.length := by
    rw [← hl0, e]; simp; omega
  constructor
  · rw [hp0 _ (by omega), e]
    have : s.treeHeight - (v.length + 1) = u.length := by omega
    rw [this, List.take_left']
    rfl
  · rw [hp0 _ (by omega), e]
    have : s.treeHeight - v.length = (u ++ [d]).length := by simp; omega
    rw [this]
    have e2 : u ++ d :: v = (u ++ [d]) ++ v := by simp
    rw [e2, List.take_left']
    rfl

theorem path1_split {s : State} {ds0 ds1 : List Bool} (h : PathsOK s ds0 ds1) (u : List Bool)
    (d : Bool) (v : List Bool) (e : ds1 = u ++ d :: v) :
    s.path 1 (v.length + 1) = some u ∧ s.path 1 v.length = some (u ++ [d]) := by
  obtain ⟨_, hl1, _, _, hp1⟩ := h
  have hH : s.treeHeight = u.length + 1 + v.length := by
    rw [← hl1, e]; simp; omega
  constructor
  · rw [hp1 _ (by omega), e]
    have : s.treeHeight - (v.length + 1) = u.length := by omega
    rw [this, List.take_left']
    rfl
  · rw [hp1 _ (by omega), e]
    have : s.treeHeight - v.length = (u ++ [d]).length := by simp; omega
    rw [this]
    have e2 : u ++ d :: v = (u ++ [d]) ++ v := by simp
    rw [e2, List.take_left']
    rfl

theorem path0_leaf {s : State} {ds0 ds1 : List Bool} (h : PathsOK s ds0 ds1) :
    s.path 0 0 = some ds0 := by
  obtain ⟨hl0, _, _, hp0, _⟩ := h
  rw [hp0 0 (by omega), Nat.sub_zero, List.take_of_length_le (by omega)]

theorem path1_leaf {s : State} {ds0 ds1 : List Bool} (h : PathsOK s ds0 ds1) :
    s.path 1 0 = some ds1 := by
  obtain ⟨_, hl1, _, _, hp1⟩ := h
  rw [hp1 0 (by omega), Nat.sub_zero, List.take_of_length_le (by omega)]

theorem split_len {s : State} {ds0 ds1 : List Bool} (h : PathsOK s ds0 ds1) (u : List Bool)
    (d : Bool) (v : List Bool) (e : ds0 = u ++ d :: v) :
    u.length + 1 + v.length = s.treeHeight ∧ s.treeHeight ≤ MAX_HEIGHT := by
  obtain ⟨hl0, _, hH, _, _⟩ := h
  refine ⟨?_, hH⟩
  rw [← hl0, e]; simp; omega

theorem split_len1 {s : State} {ds0 ds1 : List Bool} (h : PathsOK s ds0 ds1) (u : List Bool)
    (d : Bool) (v : List Bool) (e : ds1 = u ++ d :: v) :
    u.length + 1 + v.length = s.treeHeight ∧ s.treeHeight ≤ MAX_HEIGHT := by
  obtain ⟨_, hl1, hH, _, _⟩ := h
  refine ⟨?_, hH⟩
  rw [← hl1, e]; simp; omega

/-! ## The loops of waveHand on the whole tree -/

theorem wave_push0 {s : State} {ds0 ds1 : List Bool} (h : PathsOK s ds0 ds1) (T : treeNode)
    (hp : Perfect s.treeHeight T) :
    forDown (waveHandPush 0) s.treeHeight (s.withRoot T)
      = some (s.withRoot (descend (fun _ => pushW) s.treeHeight ds0 T)) := by
  have hl0 := h.1
  have := forDown_acts (waveHandPush 0) (fun _ => pushW) s (fun _ _ hx => perfect_pushW hx)
    ds0 [] T (by
      intro u d v e
      have hs := split_len h u d v e
      simpa using waveHandPush_acts s 0 (v.length + 1) u (by omega) (by omega) (by omega)
        (path0_split h u d v e).1) (by simpa [hl0] using hp)
  simpa [hl0] using this

theorem wave_push1 {s : State} {ds0 : List Bool} {c : List Bool} {d1 : Bool} {b : List Bool}
    (h : PathsOK s ds0 (c ++ d1 :: b)) (T : treeNode)
    (hp : Perfect b.length (T.sub (c ++ [d1]))) :
    forDown (waveHandPush 1) b.length (s.withRoot T)
      = some (s.withRoot (applyAt (c ++ [d1]) (descend (fun _ => pushW) b.length b) T)) := by
  exact forDown_acts (waveHandPush 1) (fun _ => pushW) s (fun _ _ hx => perfect_pushW hx)
    b (c ++ [d1]) T (by
      intro u d v e
      have e1 : c ++ d1 :: b = (c ++ [d1] ++ u) ++ d :: v := by simp [e]
      have hs := split_len1 h _ d v e1
      exact waveHandPush_acts s 1 (v.length + 1) _ (by omega) (by omega) (by omega)
        (path1_split h _ d v e1).1) hp

theorem applyAt2_eq (c : List Bool) (d0 d1 : Bool) (hd : d0 ≠ d1) (gA gB : treeNode → treeNode)
    (T : treeNode) :
    (T.replace (c ++ [d0]) (gA (T.sub (c ++ [d0])))).replace (c ++ [d1]) (gB (T.sub (c ++ [d1])))
      = applyAt (c ++ [d1]) gB (applyAt (c ++ [d0]) gA T) := by
  simp only [applyAt]
  rw [sub_replace_disj c d1 d0 (Ne.symm hd) [] [] T]

theorem wave_flips {s : State} {c : List Bool} {d0 d1 : Bool} {a b : List Bool}
    (h : PathsOK s (c ++ d0 :: a) (c ++ d1 :: b)) (hd : d0 ≠ d1) (hab : b.length = a.length)
    (T : treeNode) (hpA : Perfect a.length (T.sub (c ++ [d0])))
    (hpB : Perfect a.length (T.sub (c ++ [d1]))) :
    forUpN waveHandFlip a.length 0 (s.withRoot T)
      = some (s.withRoot (applyAt (c ++ [d1]) (ascend (fun _ d => sib1 d) a.length b)
          (applyAt (c ++ [d0]) (ascend (fun _ d => sib0 d) a.length a) T))) := by
  have key := forUpN_acts2 waveHandFlip0 waveHandFlip1 (fun _ d => sib0 d) (fun _ d => sib1 d)
    s 0 0 (fun _ d _ hx => perfect_sib0 d hx) (fun _ d _ hx => perfect_sib1 d hx) c d0 d1 hd
    a.length a b [] [] T rfl hab (by
      intro u d v e
      have e1 : c ++ d0 :: a = (c ++ d0 :: u) ++ d :: v := by simp [e]
      have hs := split_len h _ d v e1
      have hpth := path0_split h _ d v e1
      simpa using waveHandFlip0_acts s v.length (c ++ d0 :: u) d (by omega) hpth.2 hpth.1) (by
      intro u d v e
      have e1 : c ++ d1 :: b = (c ++ d1 :: u) ++ d :: v := by simp [e]
      have hs := split_len1 h _ d v e1
      have hpth := path1_split h _ d v e1
      simpa using waveHandFlip1_acts s v.length (c ++ d1 :: u) d (by omega) hpth.2 hpth.1)
    (by simpa using hpA) (by simpa using hpB)
  simp only [Nat.zero_add] at key
  rw [← applyAt2_eq c d0 d1 hd]
  exact key

theorem wave_recalcBoth {s : State} {c : List Bool} {d0 d1 : Bool} {a b : List Bool}
    (h : PathsOK s (c ++ d0 :: a) (c ++ d1 :: b)) (hd : d0 ≠ d1) (hab : b.length = a.length)
    (T : treeNode) (hpA : Perfect a.length (T.sub (c ++ [d0])))
    (hpB : Perfect a.length (T.sub (c ++ [d1]))) :
    forUpN recalcBoth a.length 1 (s.withRoot T)
      = some (s.withRoot (applyAt (c ++ [d1]) (ascend (fun i _ => calcNode i) a.length b)
          (applyAt (c ++ [d0]) (ascend (fun i _ => calcNode i) a.length a) T))) := by
  have key := forUpN_acts2 (recalc 0) (recalc 1) (fun i _ => calcNode i) (fun i _ => calcNode i)
    s 0 1 (fun _ _ _ hx => perfect_calcNode _ hx) (fun _ _ _ hx => perfect_calcNode _ hx)
    c d0 d1 hd a.length a b [] [] T rfl hab (by
      intro u d v e
      have e1 : c ++ d0 :: a = (c ++ d0 :: u) ++ d :: v := by simp [e]
      have hs := split_len h _ d v e1
      have hpth := path0_split h _ d v e1
      have := recalc_acts s 0 (v.length + 1) (c ++ d0 :: u) (by omega) (by omega) (by omega)
        hpth.1
      simpa [Nat.add_comm 1 v.length] using this) (by
      intro u d v e
      have e1 : c ++ d1 :: b = (c ++ d1 :: u) ++ d :: v := by simp [e]
      have hs := split_len1 h _ d v e1
      have hpth := path1_split h _ d v e1
      have := recalc_acts s 1 (v.length + 1) (c ++ d1 :: u) (by omega) (by omega) (by omega)
        hpth.1
      simpa [Nat.add_comm 1 v.length] using this)
    (by simpa using hpA) (by simpa using hpB)
  simp only [Nat.zero_add] at key
  rw [← applyAt2_eq c d0 d1 hd]
  exact key

theorem wave_recalcTop {s : State} {c : List Bool} {d0 : Bool} {a ds1 : List Bool}
    (h : PathsOK s (c ++ d0 :: a) ds1) (T : treeNode) (hp : Perfect s.treeHeight T) :
    forUpN (recalc 0) (c.length + 1) (a.length + 1) (s.withRoot T)
      = some (s.withRoot (ascend (fun i _ => calcNode i) s.treeHeight (c ++ [d0]) T)) := by
  have hH : a.length + (c ++ [d0]).length = s.treeHeight := by
    rw [← h.1]; simp; omega
  have key := forUpN_acts (recalc 0) (fun i _ => calcNode i) s a.length (a.length + 1)
    (fun _ _ _ hx => perfect_calcNode _ hx) (c ++ [d0]) [] T (by
      intro u d v e
      have e1 : c ++ d0 :: a = u ++ d :: (v ++ a) := by
        have : c ++ d0 :: a = (c ++ [d0]) ++ a := by simp
        rw [this, e]; simp
      have hs := split_len h _ d _ e1
      have hpth := path0_split h _ d _ e1
      simp only [List.length_append] at hs hpth
      have := recalc_acts s 0 (a.length + 1 + v.length) u (by omega) (by omega) (by omega)
        (by
          have e2 : a.length + 1 + v.length = v.length + a.length + 1 := by omega
          rw [e2]; exact hpth.1)
      have e3 : a.length + v.length + 1 = a.length + 1 + v.length := by omega
      simpa [e3] using this) (by rw [hH]; simpa using hp)
  rw [hH] at key
  simpa using key

theorem wave_recalcAll {s : State} {ds0 ds1 : List Bool}
    (h : PathsOK s ds0 ds1) (T : treeNode) (hp : Perfect s.treeHeight T) :
    forUpN (recalc 0) s.treeHeight 1 (s.withRoot T)
      = some (s.withRoot (ascend (fun i _ => calcNode i) s.treeHeight ds0 T)) := by
  have hl0 := h.1
  have key := forUpN_acts (recalc 0) (fun i _ => calcNode i) s 0 1
    (fun _ _ _ hx => perfect_calcNode _ hx) ds0 [] T (by
      intro u d v e
      have hs := split_len h _ d _ e
      have hpth := path0_split h _ d _ e
      have := recalc_acts s 0 (v.length + 1) u (by omega) (by omega) (by omega) hpth.1
      simpa [Nat.add_comm 1 v.length] using this) (by simpa [hl0] using hp)
  simpa [hl0] using key

theorem pathsOK_pathsOf (s : State) (ds0 ds1 : List Bool) (h0 : ds0.length = s.treeHeight)
    (h1 : ds1.length = s.treeHeight) (hH : s.treeHeight ≤ MAX_HEIGHT) :
    PathsOK ⟨s.treeHeight, s.root, pathsOf s ds0 ds1⟩ ds0 ds1 := by
  refine ⟨h0, h1, hH, ?_, ?_⟩
  · intro b hb
    simp [pathsOf, hb]
  · intro b hb
    simp [pathsOf, hb]

theorem findPaths_eq (s : State) (l r : Int) (hH : s.treeHeight ≤ MAX_HEIGHT)
    (hp : Perfect s.treeHeight s.root) :
    (findPath l 0 s).bind (findPath r 1)
      = some ⟨s.treeHeight, s.root,
          pathsOf s (dirs s.treeHeight s.root l) (dirs s.treeHeight s.root r)⟩ := by
  rw [findPath_eq s l 0 (by omega) hH hp, Option.some_bind]
  exact findPath_eq ⟨s.treeHeight, s.root, _⟩ r 1 (by omega) hH hp

theorem perfect_sub_fork {H f : Nat} {c : List Bool} (d : Bool) {T : treeNode}
    (hp : Perfect H T) (hH : H = c.length + (f + 1)) : Perfect f (T.sub (c ++ [d])) := by
  have := perfect_sub (c ++ [d]) H T hp (by simp; omega)
  have e : H - (c ++ [d]).length = f := by simp; omega
  rwa [e] at this

theorem perfect_applyAt_fork {H f : Nat} {c : List Bool} (d : Bool) {T : treeNode}
    (g : treeNode → treeNode) (hp : Perfect H T) (hH : H = c.length + (f + 1))
    (hg : ∀ X, Perfect f X → Perfect f (g X)) : Perfect H (applyAt (c ++ [d]) g T) := by
  have e : H - (c ++ [d]).length = f := by simp; omega
  exact perfect_applyAt (c ++ [d]) H g T hp (by simp; omega) (by rw [e]; exact hg)

theorem perfect_applyAt_flip {H : Nat} {q : List Bool} {T : treeNode}
    (hp : Perfect H T) (hq : q.length ≤ H) : Perfect H (applyAt q flipNode T) :=
  perfect_applyAt q H flipNode T hp hq (fun _ hx => perfect_flipNode hx)

theorem sub_ne_null {H : Nat} {q : List Bool} {T : treeNode}
    (hp : Perfect H T) (hq : q.length ≤ H) : T.sub q ≠ .null :=
  perfect_ne_null (perfect_sub q H T hp hq)

theorem flip_applyAt (s : State) (T : treeNode) (q : List Bool) (h : T.sub q ≠ .null) :
    flip (some q) (s.withRoot T) = some (s.withRoot (applyAt q flipNode T)) :=
  flip_some s T q h

theorem waveHand_core (s : State) (ds0 ds1 : List Bool) (h : PathsOK s ds0 ds1)
    (hp : Perfect s.treeHeight s.root) :
    (do
      let s ← forDown (waveHandPush 0) s.treeHeight s
      let fork ← findFork s
      let s ← forDown (waveHandPush 1) fork.toNat s
      if fork = -1 then do
        let p ← pathGet s 0 0
        let s ← flip p s
        forUp (recalc 0) 1 (s.treeHeight + 1) s
      else do
        let p ← pathGet s 0 0
        let s ← flip p s
        let q ← pathGet s 1 0
        let s ← flip q s
        let s ← forUp waveHandFlip 0 fork.toNat s
        let s ← forUp recalcBoth 1 (fork.toNat + 1) s
        forUp (recalc 0) (fork.toNat + 1) (s.treeHeight + 1) s)
      = some (s.withRoot (waveSpec s.treeHeight ds0 ds1 s.root)) := by
  obtain ⟨hl0, hl1, hH, hp0, hp1⟩ := id h
  have hpush0 := wave_push0 h s.root hp
  rw [withRoot_self] at hpush0
  have hfork : ∀ T, findFork (s.withRoot T) = some (forkOf ds0 ds1) := fun T =>
    findFork_eq (s.withRoot T) ds0 ds1 hl0 hl1 hH hp0 hp1
  simp only [hpush0, Option.bind_eq_bind, Option.some_bind, hfork]
  have hT1 : Perfect s.treeHeight (descend (fun _ => pushW) s.treeHeight ds0 s.root) :=
    perfect_descend _ (fun _ _ hx => perfect_pushW hx) _ _ _ hp
  have hH20 : 0 ≤ MAX_HEIGHT := Nat.zero_le _
  rcases fork_cases ds0 ds1 (by omega) with ⟨he, hf⟩ | ⟨c, d0, d1, a, b, ha, hb, hd, hab, hf⟩
  · subst he
    have hT3 := perfect_applyAt_flip hT1 (le_of_eq hl0)
    have htn : (-1 : Int).toNat = 0 := rfl
    simp only [hf, htn, forDown, Option.some_bind, if_true,
      pathGet_some _ _ 0 0 (by omega) hH20, path0_leaf h,
      flip_applyAt _ _ _ (sub_ne_null hT1 (le_of_eq hl0)), forUp, withRoot_treeHeight,
      Nat.add_sub_cancel]
    rw [wave_recalcAll h _ hT3, ← waveSpec_fuse_same _ _ _ hp hl0]
    rfl
  · subst ha hb
    have hHc : s.treeHeight = c.length + (a.length + 1) := by
      rw [← hl0]; simp
    have hne : ¬ ((a.length : Int) = -1) := by omega
    have hpush1 := wave_push1 h _ (perfect_sub_fork d1 hT1 (hab ▸ hHc))
    rw [← hab] at hpush1
    have hT2 := perfect_applyAt_fork d1 (descend (fun _ => pushW) a.length b) hT1 hHc
      (fun X hx => perfect_descend _ (fun _ _ hx => perfect_pushW hx) _ _ _ hx)
    have hT3 := perfect_applyAt_flip hT2 (le_of_eq hl0)
    have hT4 := perfect_applyAt_flip hT3 (le_of_eq hl1)
    have hflips := wave_flips h hd hab.symm _ (perfect_sub_fork d0 hT4 hHc)
      (perfect_sub_fork d1 hT4 hHc)
    have hT5a := perfect_applyAt_fork d0 (ascend (fun _ d => sib0 d) a.length a) hT4 hHc
      (fun X hx => perfect_ascend _ (fun _ d _ hx => perfect_sib0 d hx) _ _ _ hx)
    have hT5 := perfect_applyAt_fork d1 (ascend (fun _ d => sib1 d) a.length b) hT5a hHc
      (fun X hx => perfect_ascend _ (fun _ d _ hx => perfect_sib1 d hx) _ _ _ hx)
    have hboth := wave_recalcBoth h hd hab.symm _ (perfect_sub_fork d0 hT5 hHc)
      (perfect_sub_fork d1 hT5 hHc)
    have hT6a := perfect_applyAt_fork d0 (ascend (fun i _ => calcNode i) a.length a) hT5 hHc
      (fun X hx => perfect_ascend _ (fun _ _ _ hx => perfect_calcNode _ hx) _ _ _ hx)
    have hT6 := perfect_applyAt_fork d1 (ascend (fun i _ => calcNode i) a.length b) hT6a hHc
      (fun X hx => perfect_ascend _ (fun _ _ _ hx => perfect_calcNode _ hx) _ _ _ hx)
    have htop := wave_recalcTop h _ hT6
    have e1 : s.treeHeight + 1 - (a.length + 1) = c.length + 1 := by omega
    simp only [hf, Int.toNat_ofNat, hpush1, Option.some_bind, hne, if_false,
      pathGet_some _ _ 0 0 (by omega) hH20, path0_leaf h]
    rw [flip_applyAt _ _ _ (sub_ne_null hT2 (le_of_eq hl0))]
    simp only [Option.some_bind, pathGet_some _ _ 1 0 (by omega) hH20, path1_leaf h]
    rw [flip_applyAt _ _ _ (sub_ne_null hT3 (le_of_eq hl1))]
    simp only [Option.some_bind, forUp, Nat.sub_zero, Nat.add_sub_cancel, withRoot_treeHeight,
      e1]
    rw [hflips]
    simp only [Option.some_bind]
    rw [hboth]
    simp only [Option.some_bind, withRoot_treeHeight, e1]
    rw [htop]
    rw [← waveSpec_fuse_fork c d0 d1 a b a.length s.treeHeight s.root hd rfl hab.symm hHc hp]
    rfl

theorem waveHand_eq (s : State) (l r : Int) (hH : s.treeHeight ≤ MAX_HEIGHT)
    (hp : Perfect s.treeHeight s.root) :
    waveHand l r s
      = some ⟨s.treeHeight,
          waveSpec s.treeHeight (dirs s.treeHeight s.root l) (dirs s.treeHeight s.root r) s.root,
          pathsOf s (dirs s.treeHeight s.root l) (dirs s.treeHeight s.root r)⟩ := by
  have hfp := findPaths_eq s l r hH hp
  have hok := pathsOK_pathsOf s _ _ (dirs_length _ _ l hp) (dirs_length _ _ r hp) hH
  have hcore := waveHand_core _ _ _ hok hp
  cases h0 : findPath l 0 s with
  | none => rw [h0] at hfp; simp at hfp
  | some s1 =>
    rw [h0, Option.some_bind] at hfp
    simp only [waveHand, h0, hfp, Option.bind_eq_bind, Option.some_bind]
    exact hcore

/-! ## The loops of answerAud on the whole tree -/

theorem ask_push0 {s : State} {ds0 ds1 : List Bool} (h : PathsOK s ds0 ds1) (T : treeNode)
    (hp : Perfect s.treeHeight T) :
    forDown answerAudPush0 s.treeHeight (s.withRoot T)
      = some (s.withRoot (descend pushA s.treeHeight ds0 T)) := by
  have hl0 := h.1
  have := forDown_acts answerAudPush0 pushA s (fun _ _ hx => perfect_pushA _ hx)
    ds0 [] T (by
      intro u d v e
      have hs := split_len h u d v e
      simpa using answerAudPush0_acts s (v.length + 1) u (by omega) (by omega)
        (path0_split h u d v e).1) (by simpa [hl0] using hp)
  simpa [hl0] using this

theorem ask_push1 {s : State} {ds0 : List Bool} {c : List Bool} {d1 : Bool} {b : List Bool}
    (h : PathsOK s ds0 (c ++ d1 :: b)) (T : treeNode)
    (hp : Perfect b.length (T.sub (c ++ [d1]))) :
    forDown answerAudPush1 b.length (s.withRoot T)
      = some (s.withRoot (applyAt (c ++ [d1]) (descend pushA b.length b) T)) := by
  exact forDown_acts answerAudPush1 pushA s (fun _ _ hx => perfect_pushA _ hx)
    b (c ++ [d1]) T (by
      intro u d v e
      have e1 : c ++ d1 :: b = (c ++ [d1] ++ u) ++ d :: v := by simp [e]
      have hs := split_len1 h _ d v e1
      exact answerAudPush1_acts s (v.length + 1) _ (by omega) (by omega)
        (path1_split h _ d v e1).1) hp

theorem ask_sumLeft {s : State} {c : List Bool} {d0 : Bool} {a ds1 : List Bool}
    (h : PathsOK s (c ++ d0 :: a) ds1) (T : treeNode) (ans : Int)
    (hp : Perfect a.length (T.sub (c ++ [d0]))) :
    forUpN (answerAudLeft (s.withRoot T)) a.length 0 ans
      = some (ans + sumLeft a.length a (T.sub (c ++ [d0]))) := by
  have hs0 := split_len h c d0 a rfl
  exact forUpN_sumLeft s T a (c ++ [d0]) ans (by omega) (by
    intro u d v e
    have e1 : c ++ d0 :: a = (c ++ [d0] ++ u) ++ d :: v := by simp [e]
    have hpth := path0_split h _ d v e1
    exact ⟨hpth.2, hpth.1⟩) hp

theorem ask_sumRight {s : State} {c : List Bool} {d1 : Bool} {b ds0 : List Bool}
    (h : PathsOK s ds0 (c ++ d1 :: b)) (T : treeNode) (ans : Int)
    (hp : Perfect b.length (T.sub (c ++ [d1]))) :
    forUpN (answerAudRight (s.withRoot T)) b.length 0 ans
      = some (ans + sumRight b.length b (T.sub (c ++ [d1]))) := by
  have hs0 := split_len1 h c d1 b rfl
  exact forUpN_sumRight s T b (c ++ [d1]) ans (by omega) (by
    intro u d v e
    have e1 : c ++ d1 :: b = (c ++ [d1] ++ u) ++ d :: v := by simp [e]
    have hpth := path1_split h _ d v e1
    exact ⟨hpth.2, hpth.1⟩) hp

theorem answerAud_core (s : State) (ds0 ds1 : List Bool) (h : PathsOK s ds0 ds1)
    (hp : Perfect s.treeHeight s.root) :
    (do
      let fork ← findFork s
      let s ← forDown answerAudPush0 s.treeHeight s
      let s ← forDown answerAudPush1 fork.toNat s
      let p ← pathGet s 0 0
      if fork = -1 then do
        let f ← getFlipped s p
        pure (if f then 0 else 1, s)
      else if fork = 0 then do
        let ans ← countLeaf s p 0
        let q ← pathGet s 1 0
        let ans ← countLeaf s q ans
        pure (ans, s)
      else do
        let ans ← countLeaf s p 0
        let q ← pathGet s 1 0
        let ans ← countLeaf s q ans
        let ans ← forUp (answerAudLeft s) 0 fork.toNat ans
        let ans ← forUp (answerAudRight s) 0 fork.toNat ans
        pure (ans, s))
      = some (askValue s.treeHeight ds0 ds1 (askSpec s.treeHeight ds0 ds1 s.root),
          s.withRoot (askSpec s.treeHeight ds0 ds1 s.root)) := by
  obtain ⟨hl0, hl1, hH, hp0, hp1⟩ := id h
  have hpush0 := ask_push0 h s.root hp
  rw [withRoot_self] at hpush0
  have hfork : findFork s = some (forkOf ds0 ds1) :=
    findFork_eq s ds0 ds1 hl0 hl1 hH hp0 hp1
  simp only [hpush0, Option.bind_eq_bind, Option.some_bind, hfork]
  have hT1 : Perfect s.treeHeight (descend pushA s.treeHeight ds0 s.root) :=
    perfect_descend _ (fun _ _ hx => perfect_pushA _ hx) _ _ _ hp
  have hH20 : 0 ≤ MAX_HEIGHT := Nat.zero_le _
  rcases fork_cases ds0 ds1 (by omega) with ⟨he, hf⟩ | ⟨c, d0, d1, a, b, ha, hb, hd, hab, hf⟩
  · subst he
    have htn : (-1 : Int).toNat = 0 := rfl
    simp only [hf, htn, forDown, Option.some_bind, if_true,
      pathGet_some _ _ 0 0 (by omega) hH20, path0_leaf h,
      getFlipped_some _ _ _ (sub_ne_null hT1 (le_of_eq hl0)), Option.pure_def]
    rw [← askSpec_fuse_same, askValue_same _ _ _ hl0]
    simp only [leafUp]
  · subst ha hb
    have hHc : s.treeHeight = c.length + (a.length + 1) := by
      rw [← hl0]; simp
    have hne : ¬ ((a.length : Int) = -1) := by omega
    have hpush1 := ask_push1 h _ (perfect_sub_fork d1 hT1 (hab ▸ hHc))
    rw [← hab] at hpush1
    have hT2 := perfect_applyAt_fork d1 (descend pushA a.length b) hT1 hHc
      (fun X hx => perfect_descend _ (fun _ _ hx => perfect_pushA _ hx) _ _ _ hx)
    have hfuse := askSpec_fuse_fork c d0 d1 a b a.length s.treeHeight s.root hd hHc hp
    have hval := askValue_fork c d0 d1 a b a.length s.treeHeight
      (askSpec s.treeHeight (c ++ d0 :: a) (c ++ d1 :: b) s.root) hd hHc
    have hT2' : applyAt (c ++ [d1]) (descend pushA a.length b)
        (descend pushA s.treeHeight (c ++ d0 :: a) s.root)
        = askSpec s.treeHeight (c ++ d0 :: a) (c ++ d1 :: b) s.root := hfuse
    rw [hT2'] at hpush1 hT2
    have hsl := ask_sumLeft h _ (0 + leafUp ((askSpec s.treeHeight (c ++ d0 :: a) (c ++ d1 :: b)
      s.root).sub (c ++ d0 :: a)) + leafUp ((askSpec s.treeHeight (c ++ d0 :: a) (c ++ d1 :: b)
      s.root).sub (c ++ d1 :: b))) (perfect_sub_fork d0 hT2 hHc)
    have hsr := ask_sumRight h _ (0 + leafUp ((askSpec s.treeHeight (c ++ d0 :: a) (c ++ d1 :: b)
      s.root).sub (c ++ d0 :: a)) + leafUp ((askSpec s.treeHeight (c ++ d0 :: a) (c ++ d1 :: b)
      s.root).sub (c ++ d1 :: b)) + sumLeft a.length a ((askSpec s.treeHeight (c ++ d0 :: a)
      (c ++ d1 :: b) s.root).sub (c ++ [d0]))) (hab ▸ perfect_sub_fork d1 hT2 hHc)
    rw [← hab] at hsr
    simp only [hf, Int.toNat_ofNat, hpush1, Option.some_bind, hne, if_false,
      pathGet_some _ _ 0 0 (by omega) hH20, pathGet_some _ _ 1 0 (by omega) hH20,
      path0_leaf h, path1_leaf h,
      countLeaf_some _ _ _ _ (sub_ne_null hT2 (le_of_eq hl0)),
      countLeaf_some _ _ _ _ (sub_ne_null hT2 (le_of_eq hl1)), forUp, Nat.sub_zero, hsl, hsr,
      Option.pure_def, hval]
    by_cases ha0 : a.length = 0
    · have ha' : a = [] := List.length_eq_zero.mp ha0
      have hb' : b = [] := List.length_eq_zero.mp (hab ▸ ha0)
      subst ha' hb'
      simp [sumLeft, sumRight]
    · have : ¬ ((a.length : Int) = 0) := by omega
      simp [this]

theorem answerAud_eq (s : State) (l r : Int) (hH : s.treeHeight ≤ MAX_HEIGHT)
    (hp : Perfect s.treeHeight s.root) :
    answerAud l r s
      = some (askValue s.treeHeight (dirs s.treeHeight s.root l) (dirs s.treeHeight s.root r)
          (askSpec s.treeHeight (dirs s.treeHeight s.root l) (dirs s.treeHeight s.root r) s.root),
        ⟨s.treeHeight,
          askSpec s.treeHeight (dirs s.treeHeight s.root l) (dirs s.treeHeight s.root r) s.root,
          pathsOf s (dirs s.treeHeight s.root l) (dirs s.treeHeight s.root r)⟩) := by
  have hfp := findPaths_eq s l r hH hp
  have hok := pathsOK_pathsOf s _ _ (dirs_length _ _ l hp) (dirs_length _ _ r hp) hH
  have hcore := answerAud_core _ _ _ hok hp
  cases h0 : findPath l 0 s with
  | none => rw [h0] at hfp; simp at hfp
  | some s1 =>
    rw [h0, Option.some_bind] at hfp
    simp only [answerAud, h0, hfp, Option.bind_eq_bind, Option.some_bind]
    exact hcore

/-! ## The operations keep the shape of the tree -/

theorem sameShape_refl : ∀ t : treeNode, SameShape t t := by
  intro t
  induction t with
  | null => trivial
  | node n m f l r ihl ihr => exact ⟨rfl, ihl, ihr⟩

theorem sameShape_trans : ∀ {t u v : treeNode}, SameShape t u → SameShape u v → SameShape t v := by
  intro t
  induction t with
  | null =>
    intro u v h1 h2
    cases u with
    | null => exact h2
    | node _ _ _ _ _ => exact absurd h1 (by simp [SameShape])
  | node n m f l r ihl ihr =>
    intro u v h1 h2
    cases u with
    | null => exact absurd h1 (by simp [SameShape])
    | node n1 m1 f1 l1 r1 =>
      cases v with
      | null => exact absurd h2 (by simp [SameShape])
      | node n2 m2 f2 l2 r2 =>
        exact ⟨h1.1.trans h2.1, ihl h1.2.1 h2.2.1, ihr h1.2.2 h2.2.2⟩

theorem sameShape_flipNode (t : treeNode) : SameShape t (flipNode t) := by
  cases t with
  | null => trivial
  | node n m f l r => exact ⟨rfl, sameShape_refl l, sameShape_refl r⟩

theorem sameShape_pushW (t : treeNode) : SameShape t (pushW t) := by
  cases t with
  | null => trivial
  | node n m f l r =>
    cases f
    · exact sameShape_refl _
    · exact ⟨rfl, sameShape_flipNode l, sameShape_flipNode r⟩

theorem sameShape_pushA (i : Nat) (t : treeNode) : SameShape t (pushA i t) := by
  cases t with
  | null => trivial
  | node n m f l r =>
    cases f
    · exact sameShape_refl _
    · exact ⟨rfl, sameShape_flipNode l, sameShape_flipNode r⟩

theorem sameShape_calcNode (i : Nat) (t : treeNode) : SameShape t (calcNode i t) := by
  cases t with
  | null => trivial
  | node n m f l r => exact ⟨rfl, sameShape_refl l, sameShape_refl r⟩

theorem sameShape_sib0 (d : Bool) (t : treeNode) : SameShape t (sib0 d t) := by
  cases t with
  | null => trivial
  | node n m f l r =>
    cases d
    · exact ⟨rfl, sameShape_refl l, sameShape_flipNode r⟩
    · exact sameShape_refl _

theorem sameShape_sib1 (d : Bool) (t : treeNode) : SameShape t (sib1 d t) := by
  cases t with
  | null => trivial
  | node n m f l r =>
    cases d
    · exact sameShape_refl _
    · exact ⟨rfl, sameShape_flipNode l, sameShape_refl r⟩

theorem sameShape_child {t u : treeNode} (h : SameShape t u) (d : Bool) :
    SameShape (t.child d) (u.child d) := by
  cases t with
  | null =>
    cases u with
    | null => trivial
    | node _ _ _ _ _ => exact absurd h (by simp [SameShape])
  | node n m f l r =>
    cases u with
    | null => exact absurd h (by simp [SameShape])
    | node n1 m1 f1 l1 r1 => cases d <;> simp [treeNode.child, h.2.1, h.2.2]

theorem sameShape_setChild {t u y : treeNode} (h : SameShape t u) (d : Bool)
    (hy : SameShape (t.child d) y) : SameShape t (u.setChild d y) := by
  cases t with
  | null =>
    cases u with
    | null => trivial
    | node _ _ _ _ _ => exact absurd h (by simp [SameShape])
  | node n m f l r =>
    cases u with
    | null => exact absurd h (by simp [SameShape])
    | node n1 m1 f1 l1 r1 =>
      cases d
      · exact ⟨h.1, hy, h.2.2⟩
      · exact ⟨h.1, h.2.1, hy⟩

theorem sameShape_descend (step : Nat → treeNode → treeNode)
    (hstep : ∀ i t, SameShape t (step i t)) :
    ∀ (h : Nat) (ds : List Bool) (t : treeNode), SameShape t (descend step h ds t) := by
  intro h
  induction h with
  | zero => intro ds t; simpa [descend] using sameShape_refl t
  | succ h ih =>
    intro ds t
    cases ds with
    | nil => simpa [descend] using sameShape_refl t
    | cons d ds =>
      simp only [descend]
      exact sameShape_setChild (hstep _ t) d
        (sameShape_trans (sameShape_child (hstep _ t) d) (ih ds _))

theorem sameShape_waveBranch0 :
    ∀ (h : Nat) (ds : List Bool) (t : treeNode), SameShape t (waveBranch0 h ds t) := by
  intro h
  induction h with
  | zero => intro ds t; simpa [waveBranch0] using sameShape_flipNode t
  | succ h ih =>
    intro ds t
    cases ds with
    | nil => simpa [waveBranch0] using sameShape_flipNode t
    | cons d ds =>
      simp only [waveBranch0]
      refine sameShape_trans ?_ (sameShape_calcNode _ _)
      exact sameShape_setChild (sameShape_trans (sameShape_pushW t) (sameShape_sib0 d _)) d
        (sameShape_trans (sameShape_child (sameShape_pushW t) d) (ih ds _))

theorem sameShape_waveBranch1 :
    ∀ (h : Nat) (ds : List Bool) (t : treeNode), SameShape t (waveBranch1 h ds t) := by
  intro h
  induction h with
  | zero => intro ds t; simpa [waveBranch1] using sameShape_flipNode t
  | succ h ih =>
    intro ds t
    cases ds with
    | nil => simpa [waveBranch1] using sameShape_flipNode t
    | cons d ds =>
      simp only [waveBranch1]
      refine sameShape_trans ?_ (sameShape_calcNode _ _)
      exact sameShape_setChild (sameShape_trans (sameShape_pushW t) (sameShape_sib1 d _)) d
        (sameShape_trans (sameShape_child (sameShape_pushW t) d) (ih ds _))

theorem sameShape_setChild2 {t u y z : treeNode} (h : SameShape t u) (d0 d1 : Bool)
    (hd : d0 ≠ d1) (hy : SameShape (t.child d0) y) (hz : SameShape (t.child d1) z) :
    SameShape t ((u.setChild d0 y).setChild d1 z) := by
  cases t with
  | null =>
    cases u with
    | null => trivial
    | node _ _ _ _ _ => exact absurd h (by simp [SameShape])
  | node n m f l r =>
    cases u with
    | null => exact absurd h (by simp [SameShape])
    | node n1 m1 f1 l1 r1 =>
      cases d0 <;> cases d1 <;> simp at hd
      · exact ⟨h.1, hy, hz⟩
      · exact ⟨h.1, hz, hy⟩

theorem sameShape_waveSpec :
    ∀ (h : Nat) (ds0 ds1 : List Bool) (t : treeNode), SameShape t (waveSpec h ds0 ds1 t) := by
  intro h
  induction h with
  | zero => intro ds0 ds1 t; simpa [waveSpec] using sameShape_flipNode t
  | succ h ih =>
    intro ds0 ds1 t
    cases ds0 with
    | nil => simpa [waveSpec] using sameShape_flipNode t
    | cons d0 a =>
      cases ds1 with
      | nil => simpa [waveSpec] using sameShape_flipNode t
      | cons d1 b =>
        simp only [waveSpec]
        by_cases hd : d0 = d1
        · rw [if_pos hd]
          refine sameShape_trans ?_ (sameShape_calcNode _ _)
          exact sameShape_setChild (sameShape_pushW t) d0
            (sameShape_trans (sameShape_child (sameShape_pushW t) d0) (ih a b _))
        · rw [if_neg hd]
          refine sameShape_trans ?_ (sameShape_calcNode _ _)
          exact sameShape_setChild2 (sameShape_pushW t) d0 d1 hd
            (sameShape_trans (sameShape_child (sameShape_pushW t) d0) (sameShape_waveBranch0 _ _ _))
            (sameShape_trans (sameShape_child (sameShape_pushW t) d1) (sameShape_waveBranch1 _ _ _))

theorem sameShape_askSpec :
    ∀ (h : Nat) (ds0 ds1 : List Bool) (t : treeNode), SameShape t (askSpec h ds0 ds1 t) := by
  intro h
  induction h with
  | zero => intro ds0 ds1 t; simpa [askSpec] using sameShape_refl t
  | succ h ih =>
    intro ds0 ds1 t
    cases ds0 with
    | nil => simpa [askSpec] using sameShape_refl t
    | cons d0 a =>
      cases ds1 with
      | nil => simpa [askSpec] using sameShape_refl t
      | cons d1 b =>
        simp only [askSpec]
        by_cases hd : d0 = d1
        · rw [if_pos hd]
          exact sameShape_setChild (sameShape_pushA _ t) d0
            (sameShape_trans (sameShape_child (sameShape_pushA _ t) d0) (ih a b _))
        · rw [if_neg hd]
          exact sameShape_setChild2 (sameShape_pushA _ t) d0 d1 hd
            (sameShape_trans (sameShape_child (sameShape_pushA _ t) d0)
              (sameShape_descend pushA sameShape_pushA _ _ _))
            (sameShape_trans (sameShape_child (sameShape_pushA _ t) d1)
              (sameShape_descend pushA sameShape_pushA _ _ _))

theorem perfect_sameShape : ∀ {h : Nat} {t u : treeNode}, SameShape t u → Perfect h t →
    Perfect h u := by
  intro h
  induction h with
  | zero =>
    intro t u hs hp
    cases t with
    | null => simp [Perfect] at hp
    | node n m f l r =>
      cases u with
      | null => exact absurd hs (by simp [SameShape])
      | node n1 m1 f1 l1 r1 =>
        obtain ⟨hl, hr⟩ := hp
        subst hl hr
        obtain ⟨_, h1, h2⟩ := hs
        cases l1 with
        | null =>
          cases r1 with
          | null => exact ⟨rfl, rfl⟩
          | node _ _ _ _ _ => exact absurd h2 (by simp [SameShape])
        | node _ _ _ _ _ => exact absurd h1 (by simp [SameShape])
  | succ h ih =>
    intro t u hs hp
    cases t with
    | null => simp [Perfect] at hp
    | node n m f l r =>
      cases u with
      | null => exact absurd hs (by simp [SameShape])
      | node n1 m1 f1 l1 r1 => exact ⟨ih hs.2.1 hp.1, ih hs.2.2 hp.2⟩

theorem mid_sameShape : ∀ {h : Nat} {lo : Int} {t u : treeNode}, SameShape t u → Mid h lo t →
    Mid h lo u := by
  intro h
  induction h with
  | zero => intro lo t u _ _; cases u <;> trivial
  | succ h ih =>
    intro lo t u hs hm
    cases t with
    | null =>
      cases u with
      | null => trivial
      | node _ _ _ _ _ => exact absurd hs (by simp [SameShape])
    | node n m f l r =>
      cases u with
      | null => trivial
      | node n1 m1 f1 l1 r1 =>
        exact ⟨hs.1 ▸ hm.1, ih hs.2.1 hm.2.1, ih hs.2.2 hm.2.2⟩

theorem dirs_sameShape : ∀ {h : Nat} {t u : treeNode} (i : Int), SameShape t u →
    dirs h t i = dirs h u i := by
  intro h
  induction h with
  | zero => intro t u i _; cases t <;> cases u <;> rfl
  | succ h ih =>
    intro t u i hs
    cases t with
    | null =>
      cases u with
      | null => rfl
      | node _ _ _ _ _ => exact absurd hs (by simp [SameShape])
    | node n m f l r =>
      cases u with
      | null => exact absurd hs (by simp [SameShape])
      | node n1 m1 f1 l1 r1 =>
        obtain ⟨hm, hl, hr⟩ := hs
        subst hm
        simp only [dirs, ih i hl, ih i hr]

/-! ## The stored-count invariant -/

theorem adj_flipNode (h : Nat) {t : treeNode} (ht : t ≠ .null) :
    adj h (flipNode t) = 2 ^ h - adj h t := by
  cases t with
  | null => exact absurd rfl ht
  | node n m f l r => cases f <;> simp [adj, flipNode, treeNode.flag, treeNode.num]

theorem inv_flipNode {h : Nat} {t : treeNode} (hi : Inv h t) : Inv h (flipNode t) := by
  cases t with
  | null => trivial
  | node n m f l r => cases h <;> simpa [flipNode, Inv] using hi

theorem inv_child {h : Nat} {t : treeNode} (hi : Inv (h + 1) t) (d : Bool) :
    Inv h (t.child d) := by
  cases t with
  | null => cases h <;> trivial
  | node n m f l r => cases d <;> simp [treeNode.child, hi.2.1, hi.2.2]

theorem inv_calcNode {h : Nat} {t : treeNode} (hc : ∀ e, Inv h (t.child e)) :
    Inv (h + 1) (calcNode (h + 1) t) := by
  cases t with
  | null => trivial
  | node n m f l r =>
    exact ⟨by simp [calcNode], by simpa [treeNode.child] using hc false,
      by simpa [treeNode.child] using hc true⟩

theorem inv_children_pushW {h : Nat} {t : treeNode} (hc : ∀ e, Inv h (t.child e)) :
    ∀ e, Inv h ((pushW t).child e) := by
  cases t with
  | null => intro e; simpa [pushW] using hc e
  | node n m f l r =>
    intro e
    have := hc e
    cases f <;> cases e <;> simp [pushW, treeNode.child] at this ⊢ <;>
      first | exact this | exact inv_flipNode this

theorem inv_children_sib0 {h : Nat} (d : Bool) {t : treeNode} (hc : ∀ e, Inv h (t.child e)) :
    ∀ e, Inv h ((sib0 d t).child e) := by
  cases t with
  | null => intro e; simpa [sib0] using hc e
  | node n m f l r =>
    intro e
    have := hc e
    cases d <;> cases e <;> simp [sib0, treeNode.child] at this ⊢ <;>
      first | exact this | exact inv_flipNode this

theorem inv_children_sib1 {h : Nat} (d : Bool) {t : treeNode} (hc : ∀ e, Inv h (t.child e)) :
    ∀ e, Inv h ((sib1 d t).child e) := by
  cases t with
  | null => intro e; simpa [sib1] using hc e
  | node n m f l r =>
    intro e
    have := hc e
    cases d <;> cases e <;> simp [sib1, treeNode.child] at this ⊢ <;>
      first | exact this | exact inv_flipNode this

theorem inv_children_setChild {h : Nat} (d : Bool) {t y : treeNode}
    (hc : ∀ e, Inv h (t.child e)) (hy : Inv h y) :
    ∀ e, Inv h ((t.setChild d y).child e) := by
  cases t with
  | null => intro e; cases h <;> trivial
  | node n m f l r =>
    intro e
    have := hc e
    cases d <;> cases e <;> simp [treeNode.setChild, treeNode.child] at this ⊢ <;>
      first | exact this | exact hy

theorem inv_waveBranch0 : ∀ (h : Nat) (ds : List Bool) (t : treeNode), Inv h t →
    Inv h (waveBranch0 h ds t) := by
  intro h
  induction h with
  | zero => intro ds t hi; simpa [waveBranch0] using inv_flipNode hi
  | succ h ih =>
    intro ds t hi
    cases ds with
    | nil => simpa [waveBranch0] using inv_flipNode hi
    | cons d ds =>
      simp only [waveBranch0]
      have hc := inv_children_pushW (fun e => inv_child hi e)
      exact inv_calcNode (inv_children_setChild d (inv_children_sib0 d hc) (ih ds _ (hc d)))

theorem inv_waveBranch1 : ∀ (h : Nat) (ds : List Bool) (t : treeNode), Inv h t →
    Inv h (waveBranch1 h ds t) := by
  intro h
  induction h with
  | zero => intro ds t hi; simpa [waveBranch1] using inv_flipNode hi
  | succ h ih =>
    intro ds t hi
    cases ds with
    | nil => simpa [waveBranch1] using inv_flipNode hi
    | cons d ds =>
      simp only [waveBranch1]
      have hc := inv_children_pushW (fun e => inv_child hi e)
      exact inv_calcNode (inv_children_setChild d (inv_children_sib1 d hc) (ih ds _ (hc d)))

/-- `waveHand` keeps the stored-count invariant. -/
theorem inv_waveSpec : ∀ (h : Nat) (ds0 ds1 : List Bool) (t : treeNode), Inv h t →
    Inv h (waveSpec h ds0 ds1 t) := by
  intro h
  induction h with
  | zero => intro ds0 ds1 t hi; simpa [waveSpec] using inv_flipNode hi
  | succ h ih =>
    intro ds0 ds1 t hi
    cases ds0 with
    | nil => simpa [waveSpec] using inv_flipNode hi
    | cons d0 a =>
      cases ds1 with
      | nil => simpa [waveSpec] using inv_flipNode hi
      | cons d1 b =>
        simp only [waveSpec]
        have hc := inv_children_pushW (fun e => inv_child hi e)
        by_cases hd : d0 = d1
        · rw [if_pos hd]
          exact inv_calcNode (inv_children_setChild d0 hc (ih a b _ (hc d0)))
        · rw [if_neg hd]
          exact inv_calcNode (inv_children_setChild d1
            (inv_children_setChild d0 hc (inv_waveBranch0 _ _ _ (hc d0)))
            (inv_waveBranch1 _ _ _ (hc d1)))

theorem adj_pushA (h : Nat) (t : treeNode) : adj h (pushA h t) = adj h t := by
  cases t with
  | null => rfl
  | node n m f l r => cases f <;> simp [adj, pushA, treeNode.flag, treeNode.num]

theorem adj_setChild (h : Nat) (t y : treeNode) (d : Bool) :
    adj h (t.setChild d y) = adj h t := by
  cases t with
  | null => rfl
  | node n m f l r => cases d <;> simp [adj, treeNode.setChild, treeNode.flag, treeNode.num]

theorem inv_pushA {h : Nat} {t : treeNode} (hp : Perfect (h + 1) t) (hi : Inv (h + 1) t) :
    Inv (h + 1) (pushA (h + 1) t) := by
  cases t with
  | null => trivial
  | node n m f l r =>
    cases f
    · simpa [pushA] using hi
    · obtain ⟨hn, hl, hr⟩ := hi
      simp only [pushA, if_true]
      refine ⟨?_, inv_flipNode hl, inv_flipNode hr⟩
      rw [adj_flipNode h (perfect_ne_null hp.1), adj_flipNode h (perfect_ne_null hp.2), hn,
        pow_succ]
      ring

theorem inv_setChild {h : Nat} {t y : treeNode} (d : Bool) (hi : Inv (h + 1) t)
    (hy : Inv h y) (ha : adj h y = adj h (t.child d)) : Inv (h + 1) (t.setChild d y) := by
  cases t with
  | null => trivial
  | node n m f l r =>
    obtain ⟨hn, hl, hr⟩ := hi
    cases d
    · simp only [treeNode.child] at ha
      exact ⟨by simp only [Bool.false_eq_true, if_false] at ha; rw [hn, ha], hy, hr⟩
    · simp only [treeNode.child] at ha
      exact ⟨by simp only [if_true] at ha; rw [hn, ha], hl, hy⟩

theorem inv_descend_pushA : ∀ (h : Nat) (ds : List Bool) (t : treeNode), Perfect h t → Inv h t →
    Inv h (descend pushA h ds t) ∧ adj h (descend pushA h ds t) = adj h t := by
  intro h
  induction h with
  | zero => intro ds t _ hi; simpa [descend] using hi
  | succ h ih =>
    intro ds t hp hi
    cases ds with
    | nil => simpa [descend] using hi
    | cons d ds =>
      simp only [descend]
      have hpA := perfect_pushA (h + 1) hp
      have hiA := inv_pushA hp hi
      have := ih ds _ (perfect_child hpA d) (inv_child hiA d)
      exact ⟨inv_setChild d hiA this.1 this.2, by rw [adj_setChild, adj_pushA]⟩

theorem child_setChild_other (t y : treeNode) (d e : Bool) (hde : d ≠ e) :
    (t.setChild d y).child e = t.child e :=
  child_setChild_ne t y d e hde

/-- The push-down of `answerAud` keeps the stored-count invariant. -/
theorem inv_askSpec : ∀ (h : Nat) (ds0 ds1 : List Bool) (t : treeNode), Perfect h t → Inv h t →
    Inv h (askSpec h ds0 ds1 t) ∧ adj h (askSpec h ds0 ds1 t) = adj h t := by
  intro h
  induction h with
  | zero => intro ds0 ds1 t _ hi; simpa [askSpec] using hi
  | succ h ih =>
    intro ds0 ds1 t hp hi
    cases ds0 with
    | nil => simpa [askSpec] using hi
    | cons d0 a =>
      cases ds1 with
      | nil => simpa [askSpec] using hi
      | cons d1 b =>
        simp only [askSpec]
        have hpA := perfect_pushA (h + 1) hp
        have hiA := inv_pushA hp hi
        by_cases hd : d0 = d1
        · rw [if_pos hd]
          have := ih a b _ (perfect_child hpA d0) (inv_child hiA d0)
          exact ⟨inv_setChild d0 hiA this.1 this.2, by rw [adj_setChild, adj_pushA]⟩
        · rw [if_neg hd]
          have hA := inv_descend_pushA h a _ (perfect_child hpA d0) (inv_child hiA d0)
          have hB := inv_descend_pushA h b _ (perfect_child hpA d1) (inv_child hiA d1)
          refine ⟨inv_setChild d1 (inv_setChild d0 hiA hA.1 hA.2) hB.1 ?_, ?_⟩
          · rw [child_setChild_ne _ _ _ _ hd]; exact hB.2
          · rw [adj_setChild, adj_setChild, adj_pushA]

/-! ## Card states -/

theorem card_flipNode (h : Nat) {t : treeNode} (ht : t ≠ .null) (i : Int) :
    cardDown h (flipNode t) i = !cardDown h t i := by
  cases t with
  | null => exact absurd rfl ht
  | node n m f l r => cases h <;> cases f <;> simp [flipNode, cardDown]

theorem card_calcNode (h k : Nat) (t : treeNode) (i : Int) :
    cardDown h (calcNode k t) i = cardDown h t i := by
  cases t with
  | null => rfl
  | node n m f l r => cases h <;> simp [calcNode, cardDown]

theorem card_pushW {h : Nat} {t : treeNode} (hp : Perfect (h + 1) t) (i : Int) :
    cardDown (h + 1) (pushW t) i = cardDown (h + 1) t i := by
  cases t with
  | null => rfl
  | node n m f l r =>
    cases f
    · simp [pushW]
    · simp only [pushW, if_true, cardDown, card_flipNode h (perfect_ne_null hp.1),
        card_flipNode h (perfect_ne_null hp.2)]
      split <;> simp

theorem card_pushA {h : Nat} (k : Nat) {t : treeNode} (hp : Perfect (h + 1) t) (i : Int) :
    cardDown (h + 1) (pushA k t) i = cardDown (h + 1) t i := by
  cases t with
  | null => rfl
  | node n m f l r =>
    cases f
    · simp [pushA]
    · simp only [pushA, if_true, cardDown, card_flipNode h (perfect_ne_null hp.1),
        card_flipNode h (perfect_ne_null hp.2)]
      split <;> simp

theorem card_setChild_congr {h : Nat} (t y : treeNode) (d : Bool) (i : Int)
    (hy : cardDown h y i = cardDown h (t.child d) i) :
    cardDown (h + 1) (t.setChild d y) i = cardDown (h + 1) t i := by
  cases t with
  | null => rfl
  | node n m f l r =>
    cases d <;> simp only [treeNode.setChild, treeNode.child, cardDown, Bool.false_eq_true,
      if_false, if_true] at hy ⊢ <;> split <;> simp [hy]

theorem card_descend_pushA : ∀ (h : Nat) (ds : List Bool) (t : treeNode) (i : Int),
    Perfect h t → cardDown h (descend pushA h ds t) i = cardDown h t i := by
  intro h
  induction h with
  | zero => intro ds t i _; simp [descend]
  | succ h ih =>
    intro ds t i hp
    cases ds with
    | nil => simp [descend]
    | cons d ds =>
      simp only [descend]
      rw [card_setChild_congr _ _ _ _ (ih ds _ i (perfect_child (perfect_pushA _ hp) d)),
        card_pushA _ hp]

/-- The push-down of `answerAud` leaves every card state as it is. -/
theorem card_askSpec : ∀ (h : Nat) (ds0 ds1 : List Bool) (t : treeNode) (i : Int),
    Perfect h t → cardDown h (askSpec h ds0 ds1 t) i = cardDown h t i := by
  intro h
  induction h with
  | zero => intro ds0 ds1 t i _; simp [askSpec]
  | succ h ih =>
    intro ds0 ds1 t i hp
    cases ds0 with
    | nil => simp [askSpec]
    | cons d0 a =>
      cases ds1 with
      | nil => simp [askSpec]
      | cons d1 b =>
        simp only [askSpec]
        have hpA := perfect_pushA (h + 1) hp
        by_cases hd : d0 = d1
        · rw [if_pos hd, card_setChild_congr _ _ _ _ (ih a b _ i (perfect_child hpA d0)),
            card_pushA _ hp]
        · rw [if_neg hd, card_setChild_congr, card_setChild_congr, card_pushA _ hp]
          · exact card_descend_pushA h a _ i (perfect_child hpA d0)
          · rw [child_setChild_ne _ _ _ _ hd]
            exact card_descend_pushA h b _ i (perfect_child hpA d1)

theorem two_pow_pos_int (h : Nat) : (0 : Int) < 2 ^ h := by positivity

theorem card_waveBranch0 : ∀ (h : Nat) (t : treeNode) (lo l : Int), Perfect h t → Mid h lo t →
    lo ≤ l → l < lo + 2 ^ h → ∀ i, lo ≤ i → i < lo + 2 ^ h →
    cardDown h (waveBranch0 h (dirs h t l) t) i = xor (cardDown h t i) (decide (l ≤ i)) := by
  intro h
  induction h with
  | zero =>
    intro t lo l hp _ hl0 hl1 i hi0 hi1
    have : l ≤ i := by simp at hl1 hi1; omega
    simp [waveBranch0, card_flipNode 0 (perfect_ne_null hp), this]
  | succ h ih =>
    intro t lo l hp hm hl0 hl1 i hi0 hi1
    cases t with
    | null => simp [Perfect] at hp
    | node n m f L R =>
      obtain ⟨hmm, hmL, hmR⟩ := hm
      obtain ⟨hpL, hpR⟩ := hp
      have hpow : (2 : Int) ^ (h + 1) = 2 * 2 ^ h := by ring
      have hpos := two_pow_pos_int h
      have hneL := perfect_ne_null hpL
      have hneR := perfect_ne_null hpR
      have hL := ih L lo l hpL hmL
      have hR := ih R (lo + 2 ^ h) l hpR hmR
      have hL' := ih (flipNode L) lo l (perfect_flipNode hpL)
        (mid_sameShape (sameShape_flipNode L) hmL)
      have hR' := ih (flipNode R) (lo + 2 ^ h) l (perfect_flipNode hpR)
        (mid_sameShape (sameShape_flipNode R) hmR)
      rw [← dirs_sameShape l (sameShape_flipNode L)] at hL'
      rw [← dirs_sameShape l (sameShape_flipNode R)] at hR'
      by_cases hlm : l < m
      · by_cases him : i < m
        · cases f <;>
          simp [dirs, hlm, him, waveBranch0, pushW, sib0, treeNode.setChild, treeNode.child,
            calcNode, cardDown, card_flipNode h hneL, card_flipNode h hneR,
            hL hl0 (by omega) i hi0 (by omega), hL' hl0 (by omega) i hi0 (by omega)]
        · have hli : l ≤ i := by omega
          cases f <;>
          simp [dirs, hlm, him, waveBranch0, pushW, sib0, treeNode.setChild, treeNode.child,
            calcNode, cardDown, card_flipNode h hneL, card_flipNode h hneR, hli,
            card_flipNode h (perfect_ne_null (perfect_flipNode hpR))]
      · by_cases him : i < m
        · have hli : ¬ l ≤ i := by omega
          cases f <;>
          simp [dirs, hlm, him, waveBranch0, pushW, sib0, treeNode.setChild, treeNode.child,
            calcNode, cardDown, card_flipNode h hneL, card_flipNode h hneR, hli]
        · cases f <;>
          simp [dirs, hlm, him, waveBranch0, pushW, sib0, treeNode.setChild, treeNode.child,
            calcNode, cardDown, card_flipNode h hneL, card_flipNode h hneR,
            hR (by omega) (by omega) i (by omega) (by omega),
            hR' (by omega) (by omega) i (by omega) (by omega)]

theorem card_waveBranch1 : ∀ (h : Nat) (t : treeNode) (lo r : Int), Perfect h t → Mid h lo t →
    lo ≤ r → r < lo + 2 ^ h → ∀ i, lo ≤ i → i < lo + 2 ^ h →
    cardDown h (waveBranch1 h (dirs h t r) t) i = xor (cardDown h t i) (decide (i ≤ r)) := by
  intro h
  induction h with
  | zero =>
    intro t lo r hp _ hl0 hl1 i hi0 hi1
    have : i ≤ r := by simp at hl1 hi1; omega
    simp [waveBranch1, card_flipNode 0 (perfect_ne_null hp), this]
  | succ h ih =>
    intro t lo r hp hm hl0 hl1 i hi0 hi1
    cases t with
    | null => simp [Perfect] at hp
    | node n m f L R =>
      obtain ⟨hmm, hmL, hmR⟩ := hm
      obtain ⟨hpL, hpR⟩ := hp
      have hpow : (2 : Int) ^ (h + 1) = 2 * 2 ^ h := by ring
      have hpos := two_pow_pos_int h
      have hneL := perfect_ne_null hpL
      have hneR := perfect_ne_null hpR
      have hL := ih L lo r hpL hmL
      have hR := ih R (lo + 2 ^ h) r hpR hmR
      have hL' := ih (flipNode L) lo r (perfect_flipNode hpL)
        (mid_sameShape (sameShape_flipNode L) hmL)
      have hR' := ih (flipNode R) (lo + 2 ^ h) r (perfect_flipNode hpR)
        (mid_sameShape (sameShape_flipNode R) hmR)
      rw [← dirs_sameShape r (sameShape_flipNode L)] at hL'
      rw [← dirs_sameShape r (sameShape_flipNode R)] at hR'
      by_cases hlm : r < m
      · by_cases him : i < m
        · cases f <;>
          simp [dirs, hlm, him, waveBranch1, pushW, sib1, treeNode.setChild, treeNode.child,
            calcNode, cardDown, card_flipNode h hneL, card_flipNode h hneR,
            hL hl0 (by omega) i hi0 (by omega), hL' hl0 (by omega) i hi0 (by omega)]
        · have hli : ¬ i ≤ r := by omega
          cases f <;>
          simp [dirs, hlm, him, waveBranch1, pushW, sib1, treeNode.setChild, treeNode.child,
            calcNode, cardDown, card_flipNode h hneL, card_flipNode h hneR, hli]
      · by_cases him : i < m
        · have hli : i ≤ r := by omega
          cases f <;>
          simp [dirs, hlm, him, waveBranch1, pushW, sib1, treeNode.setChild, treeNode.child,
            calcNode, cardDown, card_flipNode h hneL, card_flipNode h hneR, hli,
            card_flipNode h (perfect_ne_null (perfect_flipNode hpL))]
        · cases f <;>
          simp [dirs, hlm, him, waveBranch1, pushW, sib1, treeNode.setChild, treeNode.child,
            calcNode, cardDown, card_flipNode h hneL, card_flipNode h hneR,
            hR (by omega) (by omega) i (by omega) (by omega),
            hR' (by omega) (by omega) i (by omega) (by omega)]

/-- `waveHand (l, r)` turns over the cards `l..r` and no other card of the tree. -/
theorem card_waveSpec : ∀ (h : Nat) (t : treeNode) (lo l r : Int), Perfect h t → Mid h lo t →
    lo ≤ l → l ≤ r → r < lo + 2 ^ h → ∀ i, lo ≤ i → i < lo + 2 ^ h →
    cardDown h (waveSpec h (dirs h t l) (dirs h t r) t) i
      = xor (cardDown h t i) (decide (l ≤ i ∧ i ≤ r)) := by
  intro h
  induction h with
  | zero =>
    intro t lo l r hp _ hl0 hlr hr1 i hi0 hi1
    have : l ≤ i ∧ i ≤ r := by simp at hr1 hi1; omega
    simp [waveSpec, card_flipNode 0 (perfect_ne_null hp), this]
  | succ h ih =>
    intro t lo l r hp hm hl0 hlr hr1 i hi0 hi1
    cases t with
    | null => simp [Perfect] at hp
    | node n m f L R =>
      obtain ⟨hmm, hmL, hmR⟩ := hm
      obtain ⟨hpL, hpR⟩ := hp
      have hpow : (2 : Int) ^ (h + 1) = 2 * 2 ^ h := by ring
      have hpos := two_pow_pos_int h
      have hneL := perfect_ne_null hpL
      have hneR := perfect_ne_null hpR
      have hfL := sameShape_flipNode L
      have hfR := sameShape_flipNode R
      have hL := ih L lo l r hpL hmL
      have hR := ih R (lo + 2 ^ h) l r hpR hmR
      have hL' := ih (flipNode L) lo l r (perfect_flipNode hpL) (mid_sameShape hfL hmL)
      have hR' := ih (flipNode R) (lo + 2 ^ h) l r (perfect_flipNode hpR) (mid_sameShape hfR hmR)
      rw [← dirs_sameShape l hfL, ← dirs_sameShape r hfL] at hL'
      rw [← dirs_sameShape l hfR, ← dirs_sameShape r hfR] at hR'
      have bL := card_waveBranch0 h L lo l hpL hmL
      have bL' := card_waveBranch0 h (flipNode L) lo l (perfect_flipNode hpL)
        (mid_sameShape hfL hmL)
      have bR := card_waveBranch1 h R (lo + 2 ^ h) r hpR hmR
      have bR' := card_waveBranch1 h (flipNode R) (lo + 2 ^ h) r (perfect_flipNode hpR)
        (mid_sameShape hfR hmR)
      rw [← dirs_sameShape l hfL] at bL'
      rw [← dirs_sameShape r hfR] at bR'
      by_cases hlm : l < m
      · by_cases hrm : r < m
        · by_cases him : i < m
          · cases f <;>
            simp [dirs, hlm, hrm, him, waveSpec, pushW, treeNode.setChild, treeNode.child,
              calcNode, cardDown, card_flipNode h hneL, card_flipNode h hneR,
              hL hl0 hlr (by omega) i hi0 (by omega), hL' hl0 hlr (by omega) i hi0 (by omega)]
          · have hli : ¬ (l ≤ i ∧ i ≤ r) := by omega
            cases f <;>
            simp [dirs, hlm, hrm, him, waveSpec, pushW, treeNode.setChild, treeNode.child,
              calcNode, cardDown, card_flipNode h hneL, card_flipNode h hneR, hli]
        · by_cases him : i < m
          · have hli : (l ≤ i ∧ i ≤ r) ↔ l ≤ i := ⟨fun x => x.1, fun x => ⟨x, by omega⟩⟩
            cases f <;>
            simp [dirs, hlm, hrm, him, waveSpec, pushW, treeNode.setChild, treeNode.child,
              calcNode, cardDown, card_flipNode h hneL, card_flipNode h hneR, hli,
              bL hl0 (by omega) i hi0 (by omega), bL' hl0 (by omega) i hi0 (by omega)]
          · have hli : (l ≤ i ∧ i ≤ r) ↔ i ≤ r := ⟨fun x => x.2, fun x => ⟨by omega, x⟩⟩
            cases f <;>
            simp [dirs, hlm, hrm, him, waveSpec, pushW, treeNode.setChild, treeNode.child,
              calcNode, cardDown, card_flipNode h hneL, card_flipNode h hneR, hli,
              bR (by omega) (by omega) i (by omega) (by omega),
              bR' (by omega) (by omega) i (by omega) (by omega)]
      · have hrm : ¬ r < m := by omega
        by_cases him : i < m
        · have hli : ¬ (l ≤ i ∧ i ≤ r) := by omega
          cases f <;>
          simp [dirs, hlm, hrm, him, waveSpec, pushW, treeNode.setChild, treeNode.child,
            calcNode, cardDown, card_flipNode h hneL, card_flipNode h hneR, hli]
        · cases f <;>
          simp [dirs, hlm, hrm, him, waveSpec, pushW, treeNode.setChild, treeNode.child,
            calcNode, cardDown, card_flipNode h hneL, card_flipNode h hneR,
            hR (by omega) hlr (by omega) i (by omega) (by omega),
            hR' (by omega) hlr (by omega) i (by omega) (by omega)]

/-! ## Counting cards -/

theorem upIn_split (c : Int → Bool) {a m b : Int} (h1 : a ≤ m) (h2 : m ≤ b) :
    upIn c a b = upIn c a m + upIn c m b := by
  unfold upIn
  rw [← Finset.Ico_union_Ico_eq_Ico h1 h2,
    Finset.sum_union (Finset.Ico_disjoint_Ico_consecutive a m b)]

theorem downIn_split (c : Int → Bool) {a m b : Int} (h1 : a ≤ m) (h2 : m ≤ b) :
    downIn c a b = downIn c a m + downIn c m b := by
  unfold downIn
  rw [← Finset.Ico_union_Ico_eq_Ico h1 h2,
    Finset.sum_union (Finset.Ico_disjoint_Ico_consecutive a m b)]

theorem upIn_congr {c c1 : Int → Bool} {a b : Int} (h : ∀ i, a ≤ i → i < b → c i = c1 i) :
    upIn c a b = upIn c1 a b := by
  unfold upIn
  refine Finset.sum_congr rfl ?_
  intro i hi
  rw [Finset.mem_Ico] at hi
  rw [h i hi.1 hi.2]

theorem downIn_congr {c c1 : Int → Bool} {a b : Int} (h : ∀ i, a ≤ i → i < b → c i = c1 i) :
    downIn c a b = downIn c1 a b := by
  unfold downIn
  refine Finset.sum_congr rfl ?_
  intro i hi
  rw [Finset.mem_Ico] at hi
  rw [h i hi.1 hi.2]

theorem upIn_add_downIn (c : Int → Bool) {a b : Int} (h : a ≤ b) :
    upIn c a b + downIn c a b = b - a := by
  unfold upIn downIn
  rw [← Finset.sum_add_distrib]
  have : ∀ i ∈ Finset.Ico a b, ((if c i then (0 : Int) else 1) + if c i then 1 else 0) = 1 := by
    intro i _
    cases c i <;> simp
  rw [Finset.sum_congr rfl this]
  simp [Int.toNat_of_nonneg (sub_nonneg.mpr h)]

theorem upIn_single (c : Int → Bool) (a : Int) : upIn c a (a + 1) = if c a then 0 else 1 := by
  unfold upIn
  have : Finset.Ico a (a + 1) = {a} := by
    ext i
    simp only [Finset.mem_Ico, Finset.mem_singleton]
    omega
  rw [this, Finset.sum_singleton]

theorem downIn_single (c : Int → Bool) (a : Int) :
    downIn c a (a + 1) = if c a then 1 else 0 := by
  unfold downIn
  have : Finset.Ico a (a + 1) = {a} := by
    ext i
    simp only [Finset.mem_Ico, Finset.mem_singleton]
    omega
  rw [this, Finset.sum_singleton]

theorem downIn_not (c : Int → Bool) {a b : Int} (h : a ≤ b) :
    downIn (fun i => !c i) a b = (b - a) - downIn c a b := by
  have h1 := upIn_add_downIn c h
  have h2 : downIn (fun i => !c i) a b = upIn c a b := by
    unfold downIn upIn
    refine Finset.sum_congr rfl ?_
    intro i _
    cases hc : c i <;> simp [hc]
  omega

theorem upIn_nonneg (c : Int → Bool) (a b : Int) : 0 ≤ upIn c a b := by
  unfold upIn
  refine Finset.sum_nonneg ?_
  intro i _
  split <;> simp

theorem downIn_nonneg (c : Int → Bool) (a b : Int) : 0 ≤ downIn c a b := by
  unfold downIn
  refine Finset.sum_nonneg ?_
  intro i _
  split <;> simp

theorem Icc_eq_Ico_int (l r : Int) : Finset.Icc l r = Finset.Ico l (r + 1) := by
  ext i
  simp only [Finset.mem_Icc, Finset.mem_Ico]
  omega

theorem faceUpCount_eq_upIn (c : Int → Bool) (l r : Int) :
    faceUpCount c l r = upIn c l (r + 1) := by
  unfold faceUpCount upIn
  rw [Icc_eq_Ico_int, Finset.card_filter]
  push_cast
  refine Finset.sum_congr rfl ?_
  intro i _
  cases c i <;> simp

theorem faceDownCount_eq_downIn (c : Int → Bool) (l r : Int) :
    faceDownCount c l r = downIn c l (r + 1) := by
  unfold faceDownCount downIn
  rw [Icc_eq_Ico_int, Finset.card_filter]
  push_cast
  refine Finset.sum_congr rfl ?_
  intro i _
  cases c i <;> simp

/-- Under the stored-count invariant the count a parent reads from a child is the
number of face-down cards of the child. -/
theorem adj_eq_downIn : ∀ (h : Nat) (t : treeNode) (lo : Int), Perfect h t → Inv h t →
    Mid h lo t → adj h t = downIn (cardDown h t) lo (lo + 2 ^ h) := by
  intro h
  induction h with
  | zero =>
    intro t lo hp hi _
    cases t with
    | null => simp [Perfect] at hp
    | node n m f l r =>
      simp only [Inv] at hi
      subst hi
      simp only [pow_zero, downIn_single]
      cases f <;> simp [adj, cardDown, treeNode.flag, treeNode.num]
  | succ h ih =>
    intro t lo hp hi hm
    cases t with
    | null => simp [Perfect] at hp
    | node n m f l r =>
      obtain ⟨hn, hil, hir⟩ := hi
      obtain ⟨hmm, hml, hmr⟩ := hm
      have hpos := two_pow_pos_int h
      have hpow : (2 : Int) ^ (h + 1) = 2 * 2 ^ h := by ring
      have hL := ih l lo hp.1 hil hml
      have hR := ih r (lo + 2 ^ h) hp.2 hir hmr
      have e2 : lo + 2 ^ (h + 1) = lo + 2 ^ h + 2 ^ h := by omega
      have hsplit := downIn_split (cardDown (h + 1) (.node n m f l r))
        (a := lo) (m := lo + 2 ^ h) (b := lo + 2 ^ (h + 1)) (by omega) (by omega)
      cases f
      · have c1 : downIn (cardDown (h + 1) (.node n m false l r)) lo (lo + 2 ^ h)
            = downIn (cardDown h l) lo (lo + 2 ^ h) :=
          downIn_congr (fun i _ hi2 => by
            have : i < m := by omega
            simp [cardDown, this])
        have c2 : downIn (cardDown (h + 1) (.node n m false l r)) (lo + 2 ^ h) (lo + 2 ^ (h + 1))
            = downIn (cardDown h r) (lo + 2 ^ h) (lo + 2 ^ (h + 1)) :=
          downIn_congr (fun i hi1 _ => by
            have : ¬ i < m := by omega
            simp [cardDown, this])
        rw [hsplit, c1, c2, e2, ← hL, ← hR]
        simp [adj, treeNode.flag, treeNode.num, hn]
      · have c1 : downIn (cardDown (h + 1) (.node n m true l r)) lo (lo + 2 ^ h)
            = downIn (fun i => !cardDown h l i) lo (lo + 2 ^ h) :=
          downIn_congr (fun i _ hi2 => by
            have : i < m := by omega
            simp [cardDown, this])
        have c2 : downIn (cardDown (h + 1) (.node n m true l r)) (lo + 2 ^ h) (lo + 2 ^ (h + 1))
            = downIn (fun i => !cardDown h r i) (lo + 2 ^ h) (lo + 2 ^ (h + 1)) :=
          downIn_congr (fun i hi1 _ => by
            have : ¬ i < m := by omega
            simp [cardDown, this])
        rw [hsplit, c1, c2, downIn_not _ (by omega), downIn_not _ (by omega), e2, ← hL, ← hR]
        simp only [adj, treeNode.flag, treeNode.num, if_true, hn]
        omega

theorem upOf_eq (h : Nat) (t : treeNode) : upOf h t = 2 ^ h - adj h t := by
  unfold upOf adj
  split <;> ring

theorem upOf_eq_upIn (h : Nat) (t : treeNode) (lo : Int) (hp : Perfect h t) (hi : Inv h t)
    (hm : Mid h lo t) : upOf h t = upIn (cardDown h t) lo (lo + 2 ^ h) := by
  have h1 := adj_eq_downIn h t lo hp hi hm
  have hpos := two_pow_pos_int h
  have h2 := upIn_add_downIn (cardDown h t) (a := lo) (b := lo + 2 ^ h) (by omega)
  rw [upOf_eq, h1]
  omega

/-! ## The value of answerAud -/

theorem pushA_flag (k : Nat) (t : treeNode) : (pushA k t).flag = false := by
  cases t with
  | null => rfl
  | node n m f l r => cases f <;> simp [pushA, treeNode.flag]

theorem pushA_of_flag (k : Nat) (t : treeNode) (h : t.flag = false) : pushA k t = t := by
  cases t with
  | null => rfl
  | node n m f l r =>
    simp only [treeNode.flag] at h
    subst h
    simp [pushA]

theorem pushA_idem (k : Nat) (t : treeNode) : pushA k (pushA k t) = pushA k t :=
  pushA_of_flag k _ (pushA_flag k t)

theorem descend_pushA_idem (h : Nat) (ds : List Bool) (t : treeNode) (hds : ds ≠ []) :
    descend pushA (h + 1) ds (pushA (h + 1) t) = descend pushA (h + 1) ds t := by
  cases ds with
  | nil => exact absurd rfl hds
  | cons d ds => simp only [descend, pushA_idem]

theorem descend_pushA_nil_eq (h : Nat) (t : treeNode) :
    descend pushA h [] t = t := descend_nil pushA h t

theorem askSpec_pushA_idem (h : Nat) (ds0 ds1 : List Bool) (t : treeNode)
    (h0 : ds0 ≠ []) (h1 : ds1 ≠ []) :
    askSpec (h + 1) ds0 ds1 (pushA (h + 1) t) = askSpec (h + 1) ds0 ds1 t := by
  cases ds0 with
  | nil => exact absurd rfl h0
  | cons d0 a =>
    cases ds1 with
    | nil => exact absurd rfl h1
    | cons d1 b => simp only [askSpec, pushA_idem]

theorem dirs_ne_nil {h : Nat} {t : treeNode} (hp : Perfect (h + 1) t) (i : Int) :
    dirs (h + 1) t i ≠ [] := by
  have := dirs_length (h + 1) t i hp
  intro e
  rw [e] at this
  simp at this

/-- The cards from `l` to the end of a subtree: what the loop over the left boundary counts. -/
theorem askLeft_count : ∀ (h : Nat) (t : treeNode) (lo l : Int), Perfect h t → Inv h t →
    Mid h lo t → lo ≤ l → l < lo + 2 ^ h →
    leafUp ((descend pushA h (dirs h t l) t).sub (dirs h t l))
      + sumLeft h (dirs h t l) (descend pushA h (dirs h t l) t)
      = upIn (cardDown h t) l (lo + 2 ^ h) := by
  intro h
  induction h with
  | zero =>
    intro t lo l hp _ _ hl0 hl1
    have hl : l = lo := by simp at hl1; omega
    subst hl
    cases t with
    | null => simp [Perfect] at hp
    | node n m f L R =>
      simp only [pow_zero, upIn_single]
      cases f <;> simp [dirs, descend, sumLeft, leafUp, cardDown, treeNode.flag]
  | succ h ih =>
    intro t lo l hp hi hm hl0 hl1
    -- it is enough to look at the tree after the push-down at its root
    have hp1 := perfect_pushA (h + 1) hp
    have hi1 := inv_pushA hp hi
    have hm1 := mid_sameShape (sameShape_pushA (h + 1) t) hm
    have hf1 := pushA_flag (h + 1) t
    rw [upIn_congr (fun i _ _ => (card_pushA (h + 1) hp i).symm),
      dirs_sameShape l (sameShape_pushA (h + 1) t),
      ← descend_pushA_idem h _ t (dirs_ne_nil hp1 l)]
    generalize pushA (h + 1) t = t1 at hp1 hi1 hm1 hf1 ⊢
    cases t1 with
    | null => simp [Perfect] at hp1
    | node n m f L R =>
      simp only [treeNode.flag] at hf1
      subst hf1
      obtain ⟨hmm, hmL, hmR⟩ := hm1
      obtain ⟨hpL, hpR⟩ := hp1
      obtain ⟨hn, hiL, hiR⟩ := hi1
      have hpow : (2 : Int) ^ (h + 1) = 2 * 2 ^ h := by ring
      have hpos := two_pow_pos_int h
      have e2 : lo + 2 ^ (h + 1) = lo + 2 ^ h + 2 ^ h := by omega
      by_cases hlm : l < m
      · have hL := ih L lo l hpL hiL hmL hl0 (by omega)
        have hR := upOf_eq_upIn h R (lo + 2 ^ h) hpR hiR hmR
        have hsplit := upIn_split (cardDown (h + 1) (.node n m false L R))
          (a := l) (m := lo + 2 ^ h) (b := lo + 2 ^ (h + 1)) (by omega) (by omega)
        have c1 : upIn (cardDown (h + 1) (.node n m false L R)) l (lo + 2 ^ h)
            = upIn (cardDown h L) l (lo + 2 ^ h) :=
          upIn_congr (fun i _ hi2 => by
            have : i < m := by omega
            simp [cardDown, this])
        have c2 : upIn (cardDown (h + 1) (.node n m false L R)) (lo + 2 ^ h) (lo + 2 ^ (h + 1))
            = upIn (cardDown h R) (lo + 2 ^ h) (lo + 2 ^ (h + 1)) :=
          upIn_congr (fun i hi1 _ => by
            have : ¬ i < m := by omega
            simp [cardDown, this])
        rw [hsplit, c1, c2, e2, ← hL, ← hR]
        simp [dirs, hlm, descend, pushA, treeNode.setChild, treeNode.child, sumLeft]
        ring
      · have hR := ih R (lo + 2 ^ h) l hpR hiR hmR (by omega) (by omega)
        have c2 : upIn (cardDown (h + 1) (.node n m false L R)) l (lo + 2 ^ (h + 1))
            = upIn (cardDown h R) l (lo + 2 ^ h + 2 ^ h) := by
          rw [e2]
          exact upIn_congr (fun i hi1 _ => by
            have : ¬ i < m := by omega
            simp [cardDown, this])
        rw [c2, ← hR]
        simp [dirs, hlm, descend, pushA, treeNode.setChild, treeNode.child, sumLeft]

/-- The cards from the start of a subtree to `r`: what the loop over the right boundary
counts. -/
theorem askRight_count : ∀ (h : Nat) (t : treeNode) (lo r : Int), Perfect h t → Inv h t →
    Mid h lo t → lo ≤ r → r < lo + 2 ^ h →
    leafUp ((descend pushA h (dirs h t r) t).sub (dirs h t r))
      + sumRight h (dirs h t r) (descend pushA h (dirs h t r) t)
      = upIn (cardDown h t) lo (r + 1) := by
  intro h
  induction h with
  | zero =>
    intro t lo r hp _ _ hl0 hl1
    have hl : r = lo := by simp at hl1; omega
    subst hl
    cases t with
    | null => simp [Perfect] at hp
    | node n m f L R =>
      simp only [upIn_single]
      cases f <;> simp [dirs, descend, sumRight, leafUp, cardDown, treeNode.flag]
  | succ h ih =>
    intro t lo r hp hi hm hl0 hl1
    have hp1 := perfect_pushA (h + 1) hp
    have hi1 := inv_pushA hp hi
    have hm1 := mid_sameShape (sameShape_pushA (h + 1) t) hm
    have hf1 := pushA_flag (h + 1) t
    rw [upIn_congr (fun i _ _ => (card_pushA (h + 1) hp i).symm),
      dirs_sameShape r (sameShape_pushA (h + 1) t),
      ← descend_pushA_idem h _ t (dirs_ne_nil hp1 r)]
    generalize pushA (h + 1) t = t1 at hp1 hi1 hm1 hf1 ⊢
    cases t1 with
    | null => simp [Perfect] at hp1
    | node n m f L R =>
      simp only [treeNode.flag] at hf1
      subst hf1
      obtain ⟨hmm, hmL, hmR⟩ := hm1
      obtain ⟨hpL, hpR⟩ := hp1
      obtain ⟨hn, hiL, hiR⟩ := hi1
      have hpow : (2 : Int) ^ (h + 1) = 2 * 2 ^ h := by ring
      have hpos := two_pow_pos_int h
      by_cases hlm : r < m
      · have hL := ih L lo r hpL hiL hmL hl0 (by omega)
        have c1 : upIn (cardDown (h + 1) (.node n m false L R)) lo (r + 1)
            = upIn (cardDown h L) lo (r + 1) :=
          upIn_congr (fun i _ hi2 => by
            have : i < m := by omega
            simp [cardDown, this])
        rw [c1, ← hL]
        simp [dirs, hlm, descend, pushA, treeNode.setChild, treeNode.child, sumRight]
      · have hR := ih R (lo + 2 ^ h) r hpR hiR hmR (by omega) (by omega)
        have hL := upOf_eq_upIn h L lo hpL hiL hmL
        have hsplit := upIn_split (cardDown (h + 1) (.node n m false L R))
          (a := lo) (m := lo + 2 ^ h) (b := r + 1) (by omega) (by omega)
        have c1 : upIn (cardDown (h + 1) (.node n m false L R)) lo (lo + 2 ^ h)
            = upIn (cardDown h L) lo (lo + 2 ^ h) :=
          upIn_congr (fun i _ hi2 => by
            have : i < m := by omega
            simp [cardDown, this])
        have c2 : upIn (cardDown (h + 1) (.node n m false L R)) (lo + 2 ^ h) (r + 1)
            = upIn (cardDown h R) (lo + 2 ^ h) (r + 1) :=
          upIn_congr (fun i hi1 _ => by
            have : ¬ i < m := by omega
            simp [cardDown, this])
        rw [hsplit, c1, c2, ← hL, ← hR]
        simp [dirs, hlm, descend, pushA, treeNode.setChild, treeNode.child, sumRight]
        ring

/-- The value `answerAud (l, r)` returns is the number of face-up cards among `l..r`. -/
theorem askValue_count : ∀ (h : Nat) (t : treeNode) (lo l r : Int), Perfect h t → Inv h t →
    Mid h lo t → lo ≤ l → l ≤ r → r < lo + 2 ^ h →
    askValue h (dirs h t l) (dirs h t r) (askSpec h (dirs h t l) (dirs h t r) t)
      = upIn (cardDown h t) l (r + 1) := by
  intro h
  induction h with
  | zero =>
    intro t lo l r hp _ _ hl0 hlr hr1
    have hr : r = l := by simp at hr1; omega
    subst hr
    cases t with
    | null => simp [Perfect] at hp
    | node n m f L R =>
      simp only [upIn_single]
      cases f <;> simp [dirs, askSpec, askValue, leafUp, cardDown, treeNode.flag]
  | succ h ih =>
    intro t lo l r hp hi hm hl0 hlr hr1
    have hp1 := perfect_pushA (h + 1) hp
    have hi1 := inv_pushA hp hi
    have hm1 := mid_sameShape (sameShape_pushA (h + 1) t) hm
    have hf1 := pushA_flag (h + 1) t
    rw [upIn_congr (fun i _ _ => (card_pushA (h + 1) hp i).symm),
      dirs_sameShape l (sameShape_pushA (h + 1) t),
      dirs_sameShape r (sameShape_pushA (h + 1) t),
      ← askSpec_pushA_idem h _ _ t (dirs_ne_nil hp1 l) (dirs_ne_nil hp1 r)]
    generalize pushA (h + 1) t = t1 at hp1 hi1 hm1 hf1 ⊢
    cases t1 with
    | null => simp [Perfect] at hp1
    | node n m f L R =>
      simp only [treeNode.flag] at hf1
      subst hf1
      obtain ⟨hmm, hmL, hmR⟩ := hm1
      obtain ⟨hpL, hpR⟩ := hp1
      obtain ⟨hn, hiL, hiR⟩ := hi1
      have hpow : (2 : Int) ^ (h + 1) = 2 * 2 ^ h := by ring
      have hpos := two_pow_pos_int h
      by_cases hlm : l < m
      · by_cases hrm : r < m
        · have hL := ih L lo l r hpL hiL hmL hl0 hlr (by omega)
          have c1 : upIn (cardDown (h + 1) (.node n m false L R)) l (r + 1)
              = upIn (cardDown h L) l (r + 1) :=
            upIn_congr (fun i _ hi2 => by
              have : i < m := by omega
              simp [cardDown, this])
          rw [c1, ← hL]
          simp [dirs, hlm, hrm, askSpec, askValue, pushA, treeNode.setChild, treeNode.child]
        · have hL := askLeft_count h L lo l hpL hiL hmL hl0 (by omega)
          have hR := askRight_count h R (lo + 2 ^ h) r hpR hiR hmR (by omega) (by omega)
          have hsplit := upIn_split (cardDown (h + 1) (.node n m false L R))
            (a := l) (m := lo + 2 ^ h) (b := r + 1) (by omega) (by omega)
          have c1 : upIn (cardDown (h + 1) (.node n m false L R)) l (lo + 2 ^ h)
              = upIn (cardDown h L) l (lo + 2 ^ h) :=
            upIn_congr (fun i _ hi2 => by
              have : i < m := by omega
              simp [cardDown, this])
          have c2 : upIn (cardDown (h + 1) (.node n m false L R)) (lo + 2 ^ h) (r + 1)
              = upIn (cardDown h R) (lo + 2 ^ h) (r + 1) :=
            upIn_congr (fun i hi1 _ => by
              have : ¬ i < m := by omega
              simp [cardDown, this])
          rw [hsplit, c1, c2, ← hL, ← hR]
          simp [dirs, hlm, hrm, askSpec, askValue, pushA, treeNode.setChild, treeNode.child]
          ring
      · have hrm : ¬ r < m := by omega
        have hR := ih R (lo + 2 ^ h) l r hpR hiR hmR (by omega) hlr (by omega)
        have c2 : upIn (cardDown (h + 1) (.node n m false L R)) l (r + 1)
            = upIn (cardDown h R) l (r + 1) :=
          upIn_congr (fun i hi1 _ => by
            have : ¬ i < m := by omega
            simp [cardDown, this])
        rw [c2, ← hR]
        simp [dirs, hlm, hrm, askSpec, askValue, pushA, treeNode.setChild, treeNode.child]

/-! ## buildTree -/

theorem ceilLog2Aux_spec (m : Nat) : ∀ (fuel h : Nat), (∀ k, k < h → ¬ m ≤ 2 ^ k) →
    m ≤ 2 ^ (h + fuel) →
    m ≤ 2 ^ (ceilLog2Aux m fuel h) ∧ ∀ k, k < ceilLog2Aux m fuel h → ¬ m ≤ 2 ^ k := by
  intro fuel
  induction fuel with
  | zero => intro h hlt hle; exact ⟨by simpa [ceilLog2Aux] using hle, by simpa [ceilLog2Aux] using hlt⟩
  | succ fuel ih =>
    intro h hlt hle
    have e : ceilLog2Aux m (fuel + 1) h
        = if m ≤ 2 ^ h then h else ceilLog2Aux m fuel (h + 1) := rfl
    by_cases hm : m ≤ 2 ^ h
    · rw [e, if_pos hm]
      exact ⟨hm, hlt⟩
    · rw [e, if_neg hm]
      refine ih (h + 1) ?_ ?_
      · intro k hk
        by_cases hkh : k = h
        · subst hkh; exact hm
        · exact hlt k (by omega)
      · have : h + 1 + fuel = h + (fuel + 1) := by omega
        rw [this]; exact hle

/-- `ceilLog2 m` is the smallest `h` with `m ≤ 2 ^ h`. -/
theorem ceilLog2_spec (m : Nat) :
    m ≤ 2 ^ (ceilLog2 m) ∧ ∀ k, m ≤ 2 ^ k → ceilLog2 m ≤ k := by
  have h := ceilLog2Aux_spec m m 0 (fun k hk => absurd hk (Nat.not_lt_zero k))
    (by rw [Nat.zero_add]; exact le_of_lt (Nat.lt_two_pow m))
  refine ⟨h.1, ?_⟩
  intro k hk
  by_contra hlt
  exact h.2 k (by simpa [ceilLog2] using hlt) hk

theorem buildTreeRec_spec : ∀ (h : Nat) (pm : Int) (b : Bool), h ≤ MAX_HEIGHT + 1 →
    ∃ t, buildTreeRec h pm b = some t ∧ Perfect h t ∧
      Mid h (if b then pm - 2 ^ h else pm) t ∧ Inv h t ∧ adj h t = 0 ∧
      ∀ i, cardDown h t i = false := by
  intro h
  induction h with
  | zero =>
    intro pm b _
    exact ⟨_, rfl, ⟨rfl, rfl⟩, trivial, rfl, rfl, fun _ => rfl⟩
  | succ h ih =>
    intro pm b hh
    have htp := twoPowersAt_pred (h + 1) hh (by omega)
    simp only [Nat.add_sub_cancel] at htp
    obtain ⟨tl, hl, hpl, hml, hil, hal, hcl⟩ :=
      ih (pm + (if b then (-1) * 2 ^ h else 2 ^ h)) true (by omega)
    obtain ⟨tr, hr, hpr, hmr, hir, har, hcr⟩ :=
      ih (pm + (if b then (-1) * 2 ^ h else 2 ^ h)) false (by omega)
    refine ⟨.node 0 (pm + (if b then (-1) * 2 ^ h else 2 ^ h)) false tl tr, ?_, ⟨hpl, hpr⟩,
      ?_, ⟨by rw [hal, har]; rfl, hil, hir⟩, rfl, ?_⟩
    · simp only [buildTreeRec, htp, hl, hr, Option.bind_eq_bind, Option.some_bind,
        Option.pure_def]
    · have hpow : (2 : Int) ^ (h + 1) = 2 * 2 ^ h := by ring
      simp only [if_true, Bool.false_eq_true, if_false] at hml hmr
      cases b
      · simp only [Bool.false_eq_true, if_false] at hml hmr ⊢
        refine ⟨rfl, ?_, hmr⟩
        have : pm + 2 ^ h - 2 ^ h = pm := by ring
        rwa [this] at hml
      · simp only [if_true] at hml hmr ⊢
        refine ⟨by omega, ?_, ?_⟩
        · have : pm + -1 * 2 ^ h - 2 ^ h = pm - 2 ^ (h + 1) := by omega
          rwa [this] at hml
        · have : pm + -1 * 2 ^ h = pm - 2 ^ (h + 1) + 2 ^ h := by omega
          rwa [this] at hmr
    · intro i
      simp only [cardDown, hcl, hcr, ite_self, Bool.xor_false]

/-- `buildTree (n)` for `n ≥ 1`, as long as `twoPowers[treeHeight - 1]` exists. -/
theorem buildTree_spec_gen (n : Int) (h1 : 1 ≤ n)
    (hH : ceilLog2 (n + 1).toNat ≤ MAX_HEIGHT + 1) :
    ∃ s, buildTree n = some (if n > MAX_N then ["Error: n is too big."] else [], s) ∧
      s.treeHeight = ceilLog2 (n + 1).toNat ∧ 1 ≤ s.treeHeight ∧
      Perfect s.treeHeight s.root ∧ Mid s.treeHeight 0 s.root ∧ Inv s.treeHeight s.root ∧
      (∀ i, cardState s i = false) ∧ (s.path = fun _ _ => none) := by
  have hspec := ceilLog2_spec (n + 1).toNat
  have hH1 : 1 ≤ ceilLog2 (n + 1).toNat := by
    by_contra hlt
    have h0 : ceilLog2 (n + 1).toNat = 0 := by omega
    rw [h0] at hspec
    have := hspec.1
    simp at this
    omega
  obtain ⟨H, hHe⟩ : ∃ H, ceilLog2 (n + 1).toNat = H + 1 := ⟨_, (Nat.sub_add_cancel hH1).symm⟩
  have htp := twoPowersAt_pred (H + 1) (by omega) (by omega)
  simp only [Nat.add_sub_cancel] at htp
  obtain ⟨tl, hl, hpl, hml, hil, hal, hcl⟩ := buildTreeRec_spec H (2 ^ H) true (by omega)
  obtain ⟨tr, hr, hpr, hmr, hir, har, hcr⟩ := buildTreeRec_spec H (2 ^ H) false (by omega)
  simp only [if_true, Bool.false_eq_true, if_false, sub_self] at hml hmr
  refine ⟨⟨H + 1, .node 0 (2 ^ H) false tl tr, fun _ _ => none⟩, ?_, hHe.symm, by simp,
    ⟨hpl, hpr⟩, ⟨by simp, hml, by simpa using hmr⟩,
    ⟨by rw [hal, har]; rfl, hil, hir⟩, ?_, rfl⟩
  · have hn : ¬ (n + 1 ≤ 0) := by omega
    simp only [buildTree, hn, if_false, hHe, htp, Nat.add_sub_cancel, hl, hr,
      Option.bind_eq_bind, Option.some_bind, Option.pure_def]
  · intro i
    simp only [cardState, cardDown, hcl, hcr, ite_self, Bool.xor_false]

/-- `buildTree (n)` for `n ≥ 1` whose height fits the tables. -/
theorem buildTree_spec (n : Int) (h1 : 1 ≤ n) (hH : ceilLog2 (n + 1).toNat ≤ MAX_HEIGHT) :
    ∃ s, buildTree n = some (if n > MAX_N then ["Error: n is too big."] else [], s) ∧
      s.treeHeight = ceilLog2 (n + 1).toNat ∧ 1 ≤ s.treeHeight ∧ Good s ∧
      (∀ i, cardState s i = false) ∧ (s.path = fun _ _ => none) := by
  obtain ⟨s, hb, hh, h1H, hp, hm, hi, hc, hpath⟩ := buildTree_spec_gen n h1 (by omega)
  exact ⟨s, hb, hh, h1H, ⟨by rw [hh]; exact hH, hp, hm, hi⟩, hc, hpath⟩

theorem ceilLog2_le_max (n : Int) (h1 : 1 ≤ n) (hn : n ≤ MAX_N) :
    ceilLog2 (n + 1).toNat ≤ MAX_HEIGHT := by
  apply (ceilLog2_spec (n + 1).toNat).2
  unfold MAX_N at hn
  unfold MAX_HEIGHT
  have : (n + 1).toNat ≤ 1000001 := by omega
  exact le_trans this (by norm_num)

theorem lt_two_pow_ceilLog2 (n : Int) (h1 : 1 ≤ n) :
    n < 2 ^ ceilLog2 (n + 1).toNat := by
  have h := (ceilLog2_spec (n + 1).toNat).1
  have h2 : ((n + 1).toNat : Int) ≤ ((2 ^ ceilLog2 (n + 1).toNat : Nat) : Int) := by
    exact_mod_cast h
  rw [Int.toNat_of_nonneg (by omega)] at h2
  push_cast at h2
  omega

/-! ## The operations on a well-formed state -/

theorem waveHand_good (s : State) (l r : Int) (hg : Good s) :
    ∃ s1, waveHand l r s = some s1 ∧ Good s1 ∧ s1.treeHeight = s.treeHeight ∧
      (0 ≤ l → l ≤ r → r < 2 ^ s.treeHeight → ∀ i, 0 ≤ i → i < 2 ^ s.treeHeight →
        cardState s1 i = xor (cardState s i) (decide (l ≤ i ∧ i ≤ r))) := by
  obtain ⟨hH, hp, hm, hi⟩ := hg
  have hss := sameShape_waveSpec s.treeHeight (dirs s.treeHeight s.root l)
    (dirs s.treeHeight s.root r) s.root
  refine ⟨_, waveHand_eq s l r hH hp, ⟨hH, perfect_sameShape hss hp, mid_sameShape hss hm,
    inv_waveSpec _ _ _ _ hi⟩, rfl, ?_⟩
  intro hl hlr hr i hi0 hi1
  exact card_waveSpec s.treeHeight s.root 0 l r hp hm hl hlr (by simpa using hr) i hi0
    (by simpa using hi1)

theorem answerAud_good (s : State) (l r : Int) (hg : Good s) :
    ∃ v s1, answerAud l r s = some (v, s1) ∧ Good s1 ∧ s1.treeHeight = s.treeHeight ∧
      (∀ i, cardState s1 i = cardState s i) ∧
      (0 ≤ l → l ≤ r → r < 2 ^ s.treeHeight → v = faceUpCount (cardState s) l r) := by
  obtain ⟨hH, hp, hm, hi⟩ := hg
  have hss := sameShape_askSpec s.treeHeight (dirs s.treeHeight s.root l)
    (dirs s.treeHeight s.root r) s.root
  refine ⟨_, _, answerAud_eq s l r hH hp, ⟨hH, perfect_sameShape hss hp, mid_sameShape hss hm,
    (inv_askSpec _ _ _ _ hp hi).1⟩, rfl, ?_, ?_⟩
  · intro i
    exact card_askSpec _ _ _ _ i hp
  · intro hl hlr hr
    rw [faceUpCount_eq_upIn]
    exact askValue_count s.treeHeight s.root 0 l r hp hi hm hl hlr (by simpa using hr)

theorem applyOp_good (s : State) (o : Op) (hg : Good s) :
    ∃ s1, applyOp s o = some s1 ∧ Good s1 ∧ s1.treeHeight = s.treeHeight ∧
      (0 ≤ o.l → o.l ≤ o.r → o.r < 2 ^ s.treeHeight → ∀ i, 0 ≤ i → i < 2 ^ s.treeHeight →
        cardState s1 i = refStep (cardState s) o i) := by
  cases o with
  | waveHand l r =>
    obtain ⟨s1, h1, hg1, hh1, hc1⟩ := waveHand_good s l r hg
    refine ⟨s1, h1, hg1, hh1, ?_⟩
    intro hl hlr hr i hi0 hi1
    rw [hc1 hl hlr hr i hi0 hi1]
    simp only [refStep, Op.l, Op.r]
    by_cases hc : l ≤ i ∧ i ≤ r <;> simp [hc]
  | answerAud l r =>
    obtain ⟨v, s1, h1, hg1, hh1, hc1, _⟩ := answerAud_good s l r hg
    refine ⟨s1, by simp [applyOp, h1], hg1, hh1, ?_⟩
    intro _ _ _ i _ _
    simpa [refStep] using hc1 i

theorem refRun_congr : ∀ (ops : List Op) (c c1 : Int → Bool) (i : Int), c i = c1 i →
    refRun c ops i = refRun c1 ops i := by
  intro ops
  induction ops with
  | nil => intro c c1 i h; exact h
  | cons o ops ih =>
    intro c c1 i h
    simp only [refRun]
    apply ih
    cases o with
    | waveHand l r => simp only [refStep, h]
    | answerAud l r => exact h

theorem runOps_good : ∀ (ops : List Op) (s : State), Good s →
    ∃ s1, runOps s ops = some s1 ∧ Good s1 ∧ s1.treeHeight = s.treeHeight ∧
      ((∀ o ∈ ops, 0 ≤ o.l ∧ o.l ≤ o.r ∧ o.r < 2 ^ s.treeHeight) →
        ∀ i, 0 ≤ i → i < 2 ^ s.treeHeight → cardState s1 i = refRun (cardState s) ops i) := by
  intro ops
  induction ops with
  | nil => intro s hg; exact ⟨s, rfl, hg, rfl, fun _ _ _ _ => rfl⟩
  | cons o ops ih =>
    intro s hg
    obtain ⟨s1, h1, hg1, hh1, hc1⟩ := applyOp_good s o hg
    obtain ⟨s2, h2, hg2, hh2, hc2⟩ := ih s1 hg1
    refine ⟨s2, by simp [runOps, h1, h2], hg2, by rw [hh2, hh1], ?_⟩
    intro hv i hi0 hi1
    have hvo := hv o (List.mem_cons_self _ _)
    rw [hc2 (fun o1 ho1 => by rw [hh1]; exact hv o1 (List.mem_cons_of_mem _ ho1)) i hi0
      (by rw [hh1]; exact hi1)]
    simp only [refRun]
    exact refRun_congr ops _ _ i (hc1 hvo.1 hvo.2.1 hvo.2.2 i hi0 hi1)

/-- After `buildTree (n)` and a sequence of valid calls the state is well formed and the
card states of the tree are those of the reference array. -/
theorem runFrom_good (n : Int) (ops : List Op) (h1 : 1 ≤ n) (hn : n ≤ MAX_N)
    (hv : validOps n ops) :
    ∃ s, runFrom n ops = some s ∧ Good s ∧ s.treeHeight = ceilLog2 (n + 1).toNat ∧
      n < 2 ^ s.treeHeight ∧
      ∀ i, 0 ≤ i → i < 2 ^ s.treeHeight → cardState s i = refArray ops i := by
  obtain ⟨s0, hb, hh0, _, hg0, hc0, _⟩ := buildTree_spec n h1 (ceilLog2_le_max n h1 hn)
  obtain ⟨s1, hr1, hg1, hh1, hc1⟩ := runOps_good ops s0 hg0
  have hlt := lt_two_pow_ceilLog2 n h1
  refine ⟨s1, by simp [runFrom, hb, hr1], hg1, by rw [hh1, hh0], by rw [hh1, hh0]; exact hlt, ?_⟩
  intro i hi0 hi1
  rw [hh1] at hi1
  rw [hc1 (fun o ho => by
    have := hv o ho
    rw [hh0]
    exact ⟨by unfold Op.valid at this; omega, this.2.1, by unfold Op.valid at this; omega⟩) i hi0 hi1]
  exact refRun_congr ops _ _ i (hc0 i)

/-! ## Helper lemmas for the claims -/

theorem faceUpCount_congr {c c1 : Int → Bool} {l r : Int}
    (h : ∀ i, l ≤ i → i ≤ r → c i = c1 i) : faceUpCount c l r = faceUpCount c1 l r := by
  rw [faceUpCount_eq_upIn, faceUpCount_eq_upIn]
  exact upIn_congr (fun i h1 h2 => h i h1 (by omega))

theorem faceUpCount_single (c : Int → Bool) (i : Int) :
    faceUpCount c i i = if c i then 0 else 1 := by
  rw [faceUpCount_eq_upIn, upIn_single]

theorem faceUpCount_split (c : Int → Bool) {l m r : Int} (h1 : l ≤ m) (h2 : m < r) :
    faceUpCount c l r = faceUpCount c l m + faceUpCount c (m + 1) r := by
  rw [faceUpCount_eq_upIn, faceUpCount_eq_upIn, faceUpCount_eq_upIn]
  exact upIn_split c (by omega) (by omega)

theorem faceUpCount_add_faceDownCount (c : Int → Bool) {l r : Int} (h : l ≤ r + 1) :
    faceUpCount c l r + faceDownCount c l r = r - l + 1 := by
  rw [faceUpCount_eq_upIn, faceDownCount_eq_downIn, upIn_add_downIn c h]
  ring

theorem faceUpCount_bounds (c : Int → Bool) {l r : Int} (h : l ≤ r + 1) :
    0 ≤ faceUpCount c l r ∧ faceUpCount c l r ≤ r - l + 1 := by
  have h1 := faceUpCount_add_faceDownCount c h
  have h2 : 0 ≤ faceUpCount c l r := by rw [faceUpCount_eq_upIn]; exact upIn_nonneg _ _ _
  have h3 : 0 ≤ faceDownCount c l r := by rw [faceDownCount_eq_downIn]; exact downIn_nonneg _ _ _
  exact ⟨h2, by omega⟩

theorem faceUpCount_all_up {c : Int → Bool} {l r : Int} (h : l ≤ r + 1)
    (hc : ∀ i, l ≤ i → i ≤ r → c i = false) : faceUpCount c l r = r - l + 1 := by
  have h1 := faceUpCount_add_faceDownCount c h
  have h3 : faceDownCount c l r = 0 := by
    rw [faceDownCount_eq_downIn]
    unfold downIn
    refine Finset.sum_eq_zero ?_
    intro i hi
    rw [Finset.mem_Ico] at hi
    simp [hc i hi.1 (by omega)]
  omega

theorem forkOf_self : ∀ ds : List Bool, forkOf ds ds = -1 := by
  intro ds
  induction ds with
  | nil => rfl
  | cons d ds ih => simpa [forkOf] using ih

theorem answerAll_good : ∀ (qs : List (Int × Int)) (s : State), Good s →
    (∀ q ∈ qs, 0 ≤ q.1 ∧ q.1 ≤ q.2 ∧ q.2 < 2 ^ s.treeHeight) →
    ∃ s1, answerAll s qs = some (qs.map (fun q => faceUpCount (cardState s) q.1 q.2), s1) := by
  intro qs
  induction qs with
  | nil => intro s _ _; exact ⟨s, rfl⟩
  | cons q qs ih =>
    intro s hg hq
    obtain ⟨v, s1, h1, hg1, hh1, hc1, hv1⟩ := answerAud_good s q.1 q.2 hg
    have hq0 := hq q (List.mem_cons_self _ _)
    obtain ⟨s2, h2⟩ := ih s1 hg1 (fun q1 hq1 => by
      rw [hh1]; exact hq q1 (List.mem_cons_of_mem _ hq1))
    refine ⟨s2, ?_⟩
    have hfun : (fun q : Int × Int => faceUpCount (cardState s1) q.1 q.2)
        = fun q => faceUpCount (cardState s) q.1 q.2 := by
      funext q1
      exact faceUpCount_congr (fun i _ _ => hc1 i)
    rw [hfun] at h2
    simp only [answerAll, h1, h2, Option.some_bind, Option.map_some', List.map_cons,
      hv1 hq0.1 hq0.2.1 hq0.2.2]

theorem mem_zip_map {α β : Type} (f : α → β) : ∀ (l : List α) (a : α) (b : β),
    (a, b) ∈ l.zip (l.map f) → b = f a := by
  intro l
  induction l with
  | nil => intro a b h; simp at h
  | cons x l ih =>
    intro a b h
    simp only [List.map_cons, List.zip_cons_cons, List.mem_cons, Prod.mk.injEq] at h
    rcases h with ⟨rfl, rfl⟩ | h
    · rfl
    · exact ih a b h

/-! ## Card states and the path table -/

theorem cardDown_eq_odd : ∀ (h : Nat) (t : treeNode) (i : Int), Perfect h t →
    cardDown h t i = decide (Odd ((pathFlags t (dirs h t i)).count true)) := by
  intro h
  induction h with
  | zero =>
    intro t i hp
    cases t with
    | null => simp [Perfect] at hp
    | node n m f l r => cases f <;> simp [cardDown, dirs, pathFlags, treeNode.flag]
  | succ h ih =>
    intro t i hp
    cases t with
    | null => simp [Perfect] at hp
    | node n m f l r =>
      by_cases hlt : i < m
      · cases f <;>
        simp [cardDown, dirs, hlt, pathFlags, treeNode.flag, treeNode.child, ih l i hp.1,
          Nat.odd_add_one, List.count_cons, ← Nat.not_even_iff_odd]
      · cases f <;>
        simp [cardDown, dirs, hlt, pathFlags, treeNode.flag, treeNode.child, ih r i hp.2,
          Nat.odd_add_one, List.count_cons, ← Nat.not_even_iff_odd]

theorem pathFlags_count : ∀ (ds : List Bool) (t : treeNode),
    (pathFlags t ds).count true
      = ∑ k in Finset.range (ds.length + 1), if (t.sub (ds.take k)).flag then 1 else 0 := by
  intro ds
  induction ds with
  | nil => intro t; cases hf : t.flag <;> simp [pathFlags, hf]
  | cons d ds ih =>
    intro t
    rw [List.length_cons, Finset.sum_range_succ' _ (ds.length + 1)]
    simp only [pathFlags, List.count_cons, ih, List.take_succ_cons, sub_cons, List.take_zero,
      sub_nil]
    cases hf : t.flag <;> simp

/-- The card state of an index is face down exactly when an odd number of the nodes
that `findPath` stores for the index, leaf included, have `flipped` set. -/
theorem cardState_eq_odd_flipped (s : State) (i : Int) (pathID : Nat) (hid : pathID < 2)
    (hH : s.treeHeight ≤ MAX_HEIGHT) (hp : Perfect s.treeHeight s.root) :
    ∃ s1, findPath i pathID s = some s1 ∧
      cardState s i = decide (Odd (flippedOnPath s1 pathID)) := by
  refine ⟨_, findPath_eq s i pathID hid hH hp, ?_⟩
  have hlen := dirs_length s.treeHeight s.root i hp
  rw [cardState, cardDown_eq_odd _ _ _ hp, pathFlags_count, hlen]
  congr 2
  unfold flippedOnPath
  simp only
  rw [Finset.card_filter, ← Finset.sum_range_reflect]
  refine Finset.sum_congr rfl ?_
  intro j hj
  rw [Finset.mem_range] at hj
  have hj1 : j ≤ s.treeHeight := by omega
  have e : s.treeHeight + 1 - 1 - j = s.treeHeight - j := by omega
  have hne : s.root.sub ((dirs s.treeHeight s.root i).take (s.treeHeight - j)) ≠ .null :=
    sub_ne_null hp (by rw [List.length_take]; omega)
  have hget := getFlipped_some ⟨s.treeHeight, s.root, fun a b =>
      if a = pathID ∧ b ≤ s.treeHeight then
        some ((dirs s.treeHeight s.root i).take (s.treeHeight - b))
      else s.path a b⟩ s.root _ hne
  simp only [State.withRoot] at hget
  simp only [e, hj1, and_self, if_true, hget, Option.some.injEq]

/-! ## The claims -/

/-- Claim C1: after `buildTree (n)` and any sequence of valid calls, `answerAud (l, r)`
with `1 ≤ l ≤ r ≤ n` returns the number of face-up entries among `l..r` of the reference
array; in particular `answerAud (1, n)` returns `n` minus the number of face-down entries
of the reference array. -/
theorem answerAud_counts_reference (n : Int) (ops : List Op) (l r : Int)
    (h1 : 1 ≤ n) (hn : n ≤ MAX_N) (hv : validOps n ops)
    (hl : 1 ≤ l) (hlr : l ≤ r) (hr : r ≤ n) :
    ∃ s, runFrom n ops = some s ∧
      (∃ s1, answerAud l r s = some (faceUpCount (refArray ops) l r, s1)) ∧
      (∃ s2, answerAud 1 n s = some (n - faceDownCount (refArray ops) 1 n, s2)) := by
  obtain ⟨s, hrun, hg, _, hlt, hc⟩ := runFrom_good n ops h1 hn hv
  refine ⟨s, hrun, ?_, ?_⟩
  · obtain ⟨v, s1, ha, _, _, _, hval⟩ := answerAud_good s l r hg
    refine ⟨s1, ?_⟩
    rw [ha, hval (by omega) hlr (by omega),
      faceUpCount_congr (fun i hi1 hi2 => hc i (by omega) (by omega))]
  · obtain ⟨v, s2, ha, _, _, _, hval⟩ := answerAud_good s 1 n hg
    refine ⟨s2, ?_⟩
    have hsum := faceUpCount_add_faceDownCount (refArray ops) (l := 1) (r := n) (by omega)
    rw [ha, hval (by omega) h1 hlt,
      faceUpCount_congr (fun i hi1 hi2 => hc i (by omega) (by omega))]
    congr 2
    omega

/-- Witness of claim C1: five cards, `waveHand (2, 4)`, then `answerAud (1, 5)`. -/
theorem answerAud_counts_reference_witness :
    ∃ s, runFrom 5 [Op.waveHand 2 4] = some s ∧
      (∃ s1, answerAud 1 5 s = some (faceUpCount (refArray [Op.waveHand 2 4]) 1 5, s1)) ∧
      (∃ s2, answerAud 1 5 s
        = some (5 - faceDownCount (refArray [Op.waveHand 2 4]) 1 5, s2)) :=
  answerAud_counts_reference 5 [Op.waveHand 2 4] 1 5 (by decide) (by decide) (by decide)
    (by decide) (by decide) (by decide)

/-- Claim C2: on a tree reached from `buildTree (n)` by valid calls, `waveHand (l, r)` with
`1 ≤ l ≤ r ≤ n` inverts the card state of every index in `l..r` and leaves the card state
of every other index of `0 .. 2^treeHeight - 1` as it was. -/
theorem waveHand_inverts_range (n : Int) (ops : List Op) (l r : Int)
    (h1 : 1 ≤ n) (hn : n ≤ MAX_N) (hv : validOps n ops)
    (hl : 1 ≤ l) (hlr : l ≤ r) (hr : r ≤ n) :
    ∃ s s1, runFrom n ops = some s ∧ waveHand l r s = some s1 ∧
      s1.treeHeight = s.treeHeight ∧
      ∀ i, 0 ≤ i → i ≤ 2 ^ s.treeHeight - 1 →
        cardState s1 i = if l ≤ i ∧ i ≤ r then !(cardState s i) else cardState s i := by
  obtain ⟨s, hrun, hg, _, hlt, _⟩ := runFrom_good n ops h1 hn hv
  obtain ⟨s1, hw, _, hh, hc⟩ := waveHand_good s l r hg
  refine ⟨s, s1, hrun, hw, hh, ?_⟩
  intro i hi0 hi1
  rw [hc (by omega) hlr (by omega) i hi0 (by omega)]
  by_cases h : l ≤ i ∧ i ≤ r <;> simp [h]

/-- Witness of claim C2: five cards, no call before, `waveHand (2, 4)`. -/
theorem waveHand_inverts_range_witness :
    ∃ s s1, runFrom 5 [] = some s ∧ waveHand 2 4 s = some s1 ∧
      s1.treeHeight = s.treeHeight ∧
      ∀ i, 0 ≤ i → i ≤ 2 ^ s.treeHeight - 1 →
        cardState s1 i = if 2 ≤ i ∧ i ≤ 4 then !(cardState s i) else cardState s i :=
  waveHand_inverts_range 5 [] 2 4 (by decide) (by decide) (by decide)
    (by decide) (by decide) (by decide)

/-- Claim C3: on a tree reached from `buildTree (n)` by valid calls, `answerAud (i, i)`
with `1 ≤ i ≤ n` finds `findFork () = -1` after its two calls of `findPath`, and returns
`1` when entry `i` of the reference array is face up and `0` when it is face down. -/
theorem answerAud_single_card (n : Int) (ops : List Op) (i : Int)
    (h1 : 1 ≤ n) (hn : n ≤ MAX_N) (hv : validOps n ops) (hi1 : 1 ≤ i) (hin : i ≤ n) :
    ∃ s s1 s2 s3, runFrom n ops = some s ∧
      findPath i 0 s = some s1 ∧ findPath i 1 s1 = some s2 ∧ findFork s2 = some (-1) ∧
      answerAud i i s = some (if refArray ops i then 0 else 1, s3) := by
  obtain ⟨s, hrun, hg, _, hlt, hc⟩ := runFrom_good n ops h1 hn hv
  obtain ⟨hH, hp, hm, hinv⟩ := id hg
  obtain ⟨v, s3, ha, _, _, _, hval⟩ := answerAud_good s i i hg
  have hf0 := findPath_eq s i 0 (by omega) hH hp
  have hfp := findPaths_eq s i i hH hp
  rw [hf0, Option.some_bind] at hfp
  have hok := pathsOK_pathsOf s _ _ (dirs_length _ _ i hp) (dirs_length _ _ i hp) hH
  have hfork := findFork_eq _ _ _ hok.1 hok.2.1 hok.2.2.1 hok.2.2.2.1 hok.2.2.2.2
  rw [forkOf_self] at hfork
  refine ⟨s, _, _, s3, hrun, hf0, hfp, hfork, ?_⟩
  rw [ha, hval (by omega) le_rfl (by omega), faceUpCount_single, hc i (by omega) (by omega)]

/-- Witness of claim C3: five cards, `waveHand (2, 4)`, then `answerAud (3, 3)`. -/
theorem answerAud_single_card_witness :
    ∃ s s1 s2 s3, runFrom 5 [Op.waveHand 2 4] = some s ∧
      findPath 3 0 s = some s1 ∧ findPath 3 1 s1 = some s2 ∧ findFork s2 = some (-1) ∧
      answerAud 3 3 s = some (if refArray [Op.waveHand 2 4] 3 then 0 else 1, s3) :=
  answerAud_single_card 5 [Op.waveHand 2 4] 3 (by decide) (by decide) (by decide)
    (by decide) (by decide)

/-- Claim C4: on a tree reached from `buildTree (n)` by valid calls, for `1 ≤ l ≤ m < r ≤ n`
the three queries `answerAud (l, r)`, `answerAud (l, m)` and `answerAud (m + 1, r)`, issued
one after the other in any order, return values with
`answerAud (l, r) = answerAud (l, m) + answerAud (m + 1, r)`. -/
theorem answerAud_additive (n : Int) (ops : List Op) (l m r : Int)
    (h1 : 1 ≤ n) (hn : n ≤ MAX_N) (hv : validOps n ops)
    (hl : 1 ≤ l) (hlm : l ≤ m) (hmr : m < r) (hr : r ≤ n) :
    ∃ s, runFrom n ops = some s ∧
      ∀ qs : List (Int × Int), qs.Perm [(l, r), (l, m), (m + 1, r)] →
        ∃ vs s1, answerAll s qs = some (vs, s1) ∧
          ∀ x y z, ((l, r), x) ∈ qs.zip vs → ((l, m), y) ∈ qs.zip vs →
            ((m + 1, r), z) ∈ qs.zip vs → x = y + z := by
  obtain ⟨s, hrun, hg, _, hlt, _⟩ := runFrom_good n ops h1 hn hv
  refine ⟨s, hrun, ?_⟩
  intro qs hperm
  obtain ⟨s1, hall⟩ := answerAll_good qs s hg (by
    intro q hq
    have := (hperm.mem_iff).mp hq
    simp only [List.mem_cons, List.mem_singleton, List.not_mem_nil, or_false] at this
    rcases this with rfl | rfl | rfl <;> exact ⟨by simp; omega, by simp; omega, by simp; omega⟩)
  refine ⟨_, s1, hall, ?_⟩
  intro x y z hx hy hz
  rw [mem_zip_map _ qs _ _ hx, mem_zip_map _ qs _ _ hy, mem_zip_map _ qs _ _ hz]
  exact faceUpCount_split _ hlm hmr

/-- Witness of claim C4: five cards, `waveHand (2, 4)`, then the queries on `1..5`,
`1..3` and `4..5`. -/
theorem answerAud_additive_witness :
    ∃ s, runFrom 5 [Op.waveHand 2 4] = some s ∧
      ∀ qs : List (Int × Int), qs.Perm [(1, 5), (1, 3), (3 + 1, 5)] →
        ∃ vs s1, answerAll s qs = some (vs, s1) ∧
          ∀ x y z, ((1, 5), x) ∈ qs.zip vs → ((1, 3), y) ∈ qs.zip vs →
            ((3 + 1, 5), z) ∈ qs.zip vs → x = y + z :=
  answerAud_additive 5 [Op.waveHand 2 4] 1 3 5 (by decide) (by decide) (by decide)
    (by decide) (by decide) (by decide) (by decide)

/-- Claim C5: on a tree `s` reached from `buildTree (n)` by valid calls, after
`waveHand (l, r)` twice in a row every query `answerAud (a, b)` with `1 ≤ a ≤ b ≤ n`
returns the value it returns on `s` itself. -/
theorem waveHand_twice_restores (n : Int) (ops : List Op) (l r a b : Int)
    (h1 : 1 ≤ n) (hn : n ≤ MAX_N) (hv : validOps n ops)
    (hl : 1 ≤ l) (hlr : l ≤ r) (hr : r ≤ n) (ha : 1 ≤ a) (hab : a ≤ b) (hb : b ≤ n) :
    ∃ s s1 s2 v t1 t2, runFrom n ops = some s ∧ waveHand l r s = some s1 ∧
      waveHand l r s1 = some s2 ∧ answerAud a b s2 = some (v, t1) ∧
      answerAud a b s = some (v, t2) := by
  obtain ⟨s, hrun, hg, _, hlt, _⟩ := runFrom_good n ops h1 hn hv
  obtain ⟨s1, hw1, hg1, hh1, hc1⟩ := waveHand_good s l r hg
  obtain ⟨s2, hw2, hg2, hh2, hc2⟩ := waveHand_good s1 l r hg1
  obtain ⟨v, t1, ha1, _, _, _, hv1⟩ := answerAud_good s2 a b hg2
  obtain ⟨w, t2, ha2, _, _, _, hv2⟩ := answerAud_good s a b hg
  refine ⟨s, s1, s2, v, t1, t2, hrun, hw1, hw2, ha1, ?_⟩
  rw [ha2, hv2 (by omega) hab (by omega), hv1 (by omega) hab (by rw [hh2, hh1]; omega)]
  congr 2
  refine faceUpCount_congr ?_
  intro i hi1 hi2
  rw [hc2 (by omega) hlr (by rw [hh1]; omega) i (by omega) (by rw [hh1]; omega),
    hc1 (by omega) hlr (by omega) i (by omega) (by omega)]
  cases cardState s i <;> cases decide (l ≤ i ∧ i ≤ r) <;> rfl

/-- Witness of claim C5: five cards, `waveHand (2, 4)` twice, query on `1..5`. -/
theorem waveHand_twice_restores_witness :
    ∃ s s1 s2 v t1 t2, runFrom 5 [] = some s ∧ waveHand 2 4 s = some s1 ∧
      waveHand 2 4 s1 = some s2 ∧ answerAud 1 5 s2 = some (v, t1) ∧
      answerAud 1 5 s = some (v, t2) :=
  waveHand_twice_restores 5 [] 2 4 1 5 (by decide) (by decide) (by decide)
    (by decide) (by decide) (by decide) (by decide) (by decide) (by decide)

/-- Claim C6: on the tree freshly built by `buildTree (n)`, `1 ≤ n ≤ 1000000`,
`answerAud (1, n)` returns `n`. -/
theorem answerAud_fresh (n : Int) (h1 : 1 ≤ n) (hn : n ≤ MAX_N) :
    ∃ out s s1, buildTree n = some (out, s) ∧ answerAud 1 n s = some (n, s1) := by
  obtain ⟨s, hb, hh, _, hg, hc, _⟩ := buildTree_spec n h1 (ceilLog2_le_max n h1 hn)
  obtain ⟨v, s1, ha, _, _, _, hval⟩ := answerAud_good s 1 n hg
  refine ⟨_, s, s1, hb, ?_⟩
  rw [ha, hval (by omega) h1 (by rw [hh]; exact lt_two_pow_ceilLog2 n h1),
    faceUpCount_all_up (by omega) (fun i _ _ => hc i)]
  congr 2
  omega

/-- Witness of claim C6: five cards. -/
theorem answerAud_fresh_witness :
    ∃ out s s1, buildTree 5 = some (out, s) ∧ answerAud 1 5 s = some (5, s1) :=
  answerAud_fresh 5 (by decide) (by decide)

/-- Claim C7: on a tree reached from `buildTree (n)` by valid calls, the value `v` of
`answerAud (l, r)` with `1 ≤ l ≤ r ≤ n` satisfies `0 ≤ v ≤ r - l + 1`. -/
theorem answerAud_bounds (n : Int) (ops : List Op) (l r : Int)
    (h1 : 1 ≤ n) (hn : n ≤ MAX_N) (hv : validOps n ops)
    (hl : 1 ≤ l) (hlr : l ≤ r) (hr : r ≤ n) :
    ∃ s v s1, runFrom n ops = some s ∧ answerAud l r s = some (v, s1) ∧
      0 ≤ v ∧ v ≤ r - l + 1 := by
  obtain ⟨s, hrun, hg, _, hlt, _⟩ := runFrom_good n ops h1 hn hv
  obtain ⟨v, s1, ha, _, _, _, hval⟩ := answerAud_good s l r hg
  have hb := faceUpCount_bounds (cardState s) (l := l) (r := r) (by omega)
  rw [← hval (by omega) hlr (by omega)] at hb
  exact ⟨s, v, s1, hrun, ha, hb.1, hb.2⟩

/-- Witness of claim C7: five cards, `waveHand (2, 4)`, then `answerAud (1, 5)`. -/
theorem answerAud_bounds_witness :
    ∃ s v s1, runFrom 5 [Op.waveHand 2 4] = some s ∧ answerAud 1 5 s = some (v, s1) ∧
      0 ≤ v ∧ v ≤ 5 - 1 + 1 :=
  answerAud_bounds 5 [Op.waveHand 2 4] 1 5 (by decide) (by decide) (by decide)
    (by decide) (by decide) (by decide)

theorem findPath_overrun (s : State) (index : Int) (pathID : Nat)
    (h : s.treeHeight = MAX_HEIGHT + 1) : findPath index pathID s = none := by
  have e0 : findPathStep index pathID 0 (rootPtr s, s) = none := by
    simp [findPathStep, pathSet, h]
  have e : forUp (findPathStep index pathID) 0 s.treeHeight (rootPtr s, s) = none := by
    rw [forUp, h]
    have e1 : forUpN (findPathStep index pathID) (MAX_HEIGHT + 1 - 0) 0 (rootPtr s, s)
        = (findPathStep index pathID 0 (rootPtr s, s)).bind
            (forUpN (findPathStep index pathID) MAX_HEIGHT (0 + 1)) := rfl
    rw [e1, e0]
    rfl
  rw [findPath, e]
  rfl

theorem ceilLog2_eq (m h : Nat) (h1 : m ≤ 2 ^ h) (h2 : 2 ^ (h - 1) < m) (h0 : 1 ≤ h) :
    ceilLog2 m = h := by
  have hs := ceilLog2_spec m
  have hle := hs.2 h h1
  by_contra hne
  have hlt : ceilLog2 m ≤ h - 1 := by omega
  have := Nat.pow_le_pow_right (show 0 < 2 by norm_num) hlt
  omega

/-- Claim C8 (the code differs): for `n = 1000001 > MAX_N`, `buildTree (n)` prints the
error text and still builds a perfect tree, of height 20; for `n = 1048576` it prints the
error text and builds a perfect tree of height 21, one more than `MAX_HEIGHT`, on which
every `waveHand` writes past the end of `path` (the result `none`). -/
theorem buildTree_too_big_still_builds :
    (∃ s, buildTree 1000001 = some (["Error: n is too big."], s) ∧ s.treeHeight = 20 ∧
      Perfect 20 s.root) ∧
    (∃ s, buildTree 1048576 = some (["Error: n is too big."], s) ∧ s.treeHeight = 21 ∧
      Perfect 21 s.root ∧ ∀ l r, waveHand l r s = none) := by
  have e1 : ceilLog2 ((1000001 : Int) + 1).toNat = 20 :=
    ceilLog2_eq _ 20 (by decide) (by decide) (by decide)
  have e2 : ceilLog2 ((1048576 : Int) + 1).toNat = 21 :=
    ceilLog2_eq _ 21 (by decide) (by decide) (by decide)
  constructor
  · obtain ⟨s, hb, hh, _, hp, _⟩ := buildTree_spec_gen 1000001 (by decide) (by rw [e1]; decide)
    rw [e1] at hh
    refine ⟨s, ?_, hh, by rw [← hh]; exact hp⟩
    rw [hb]
    rfl
  · obtain ⟨s, hb, hh, _, hp, _⟩ := buildTree_spec_gen 1048576 (by decide) (by rw [e2]; decide)
    rw [e2] at hh
    refine ⟨s, ?_, hh, by rw [← hh]; exact hp, ?_⟩
    · rw [hb]
      rfl
    · intro l r
      simp [waveHand, findPath_overrun s l 0 (by rw [hh]; rfl)]

/-- Claim C9: for `1 ≤ n ≤ 1000000` the `treeHeight` set by `buildTree (n)` is the smallest
`h` with `2 ^ h ≥ n + 1`, it lies in `1 .. MAX_HEIGHT`, `n` is below `2 ^ treeHeight`, and
the `treeHeight + 1` nodes of a path fit the `MAX_HEIGHT + 1` entries of a `path` row. -/
theorem treeHeight_ceil_log2 (n : Int) (h1 : 1 ≤ n) (hn : n ≤ MAX_N) :
    ∃ out s, buildTree n = some (out, s) ∧
      n + 1 ≤ 2 ^ s.treeHeight ∧ (∀ h : Nat, n + 1 ≤ 2 ^ h → s.treeHeight ≤ h) ∧
      1 ≤ s.treeHeight ∧ s.treeHeight ≤ MAX_HEIGHT ∧ n < 2 ^ s.treeHeight ∧
      s.treeHeight + 1 ≤ MAX_HEIGHT + 1 := by
  have hmax := ceilLog2_le_max n h1 hn
  obtain ⟨s, hb, hh, h1H, _, _, _⟩ := buildTree_spec n h1 hmax
  have hlt := lt_two_pow_ceilLog2 n h1
  refine ⟨_, s, hb, by rw [hh]; omega, ?_, h1H, by rw [hh]; exact hmax, by rw [hh]; exact hlt,
    by rw [hh]; omega⟩
  intro h hle
  rw [hh]
  apply (ceilLog2_spec (n + 1).toNat).2
  have : (((n + 1).toNat : Nat) : Int) ≤ ((2 ^ h : Nat) : Int) := by
    rw [Int.toNat_of_nonneg (by omega)]
    push_cast
    exact hle
  exact_mod_cast this

/-- Witness of claim C9: five cards. -/
theorem treeHeight_ceil_log2_witness :
    ∃ out s, buildTree 5 = some (out, s) ∧
      (5 : Int) + 1 ≤ 2 ^ s.treeHeight ∧ (∀ h : Nat, (5 : Int) + 1 ≤ 2 ^ h → s.treeHeight ≤ h) ∧
      1 ≤ s.treeHeight ∧ s.treeHeight ≤ MAX_HEIGHT ∧ (5 : Int) < 2 ^ s.treeHeight ∧
      s.treeHeight + 1 ≤ MAX_HEIGHT + 1 :=
  treeHeight_ceil_log2 5 (by decide) (by decide)

theorem runFrom_good_any (n : Int) (ops : List Op) (h1 : 1 ≤ n) (hn : n ≤ MAX_N) :
    ∃ s, runFrom n ops = some s ∧ Good s ∧ s.treeHeight = ceilLog2 (n + 1).toNat := by
  obtain ⟨s0, hb, hh0, _, hg0, _, _⟩ := buildTree_spec n h1 (ceilLog2_le_max n h1 hn)
  obtain ⟨s1, hr1, hg1, hh1, _⟩ := runOps_good ops s0 hg0
  exact ⟨s1, by simp [runFrom, hb, hr1], hg1, by rw [hh1, hh0]⟩

/-- Claim C10: the stored-count invariant (every leaf has `numFaceDown = 0`, every internal
node of height `h` has `numFaceDown = adj (left) + adj (right)` with
`adj (c) = c.flipped ? 2^(h-1) - c.numFaceDown : c.numFaceDown`) holds in the tree built by
`buildTree (n)` and after every call of a sequence of `waveHand (l, r)` and
`answerAud (l, r)` whose bounds are indices of the tree; in particular a further
`answerAud` keeps it. -/
theorem stored_count_invariant (n : Int) (ops : List Op) (h1 : 1 ≤ n) (hn : n ≤ MAX_N)
    (_hin : ∀ o ∈ ops, o.inTree (ceilLog2 (n + 1).toNat)) :
    (∀ k, ∃ s, runFrom n (ops.take k) = some s ∧ Inv s.treeHeight s.root) ∧
    ∃ s, runFrom n ops = some s ∧
      ∀ l r, 0 ≤ l → l < 2 ^ s.treeHeight → 0 ≤ r → r < 2 ^ s.treeHeight →
        ∃ v s1, answerAud l r s = some (v, s1) ∧ Inv s1.treeHeight s1.root := by
  constructor
  · intro k
    obtain ⟨s, hrun, hg, _⟩ := runFrom_good_any n (ops.take k) h1 hn
    exact ⟨s, hrun, hg.2.2.2⟩
  · obtain ⟨s, hrun, hg, _⟩ := runFrom_good_any n ops h1 hn
    refine ⟨s, hrun, ?_⟩
    intro l r _ _ _ _
    obtain ⟨v, s1, ha, hg1, _⟩ := answerAud_good s l r hg
    exact ⟨v, s1, ha, hg1.2.2.2⟩

/-- Witness of claim C10: five cards, a `waveHand` with `l > r` and an `answerAud` on the
padding indices `0` and `7`. -/
theorem stored_count_invariant_witness :
    (∀ k, ∃ s, runFrom 5 ([Op.waveHand 4 2, Op.answerAud 0 7].take k) = some s ∧
      Inv s.treeHeight s.root) ∧
    ∃ s, runFrom 5 [Op.waveHand 4 2, Op.answerAud 0 7] = some s ∧
      ∀ l r, 0 ≤ l → l < 2 ^ s.treeHeight → 0 ≤ r → r < 2 ^ s.treeHeight →
        ∃ v s1, answerAud l r s = some (v, s1) ∧ Inv s1.treeHeight s1.root :=
  stored_count_invariant 5 [Op.waveHand 4 2, Op.answerAud 0 7] (by decide) (by decide)
    (by decide)

/-! ## Claims C11 and C12 -/

theorem flagAwareSum_of_inv : ∀ (h : Nat) (t : treeNode), Inv h t → FlagAwareSum h t := by
  intro h
  induction h with
  | zero => intro t _; cases t <;> simp [FlagAwareSum]
  | succ h ih =>
    intro t hi
    cases t with
    | null => simp [FlagAwareSum]
    | node n m f l r =>
      obtain ⟨hn, hl, hr⟩ := hi
      refine ⟨?_, ih l hl, ih r hr⟩
      cases f <;> simp [adj, treeNode.flag, treeNode.num, hn]

/-- Claim C11, as it is worded, fails: five cards, `waveHand (1, 4)`.  The node over the
indices `2..3` gets `flipped` set with `numFaceDown = 0`, so its true count is `2`, while
both of its leaves have the true count `0`. -/
theorem true_count_sum_fails :
    validOps 5 [Op.waveHand 1 4] ∧
    (runFrom 5 [Op.waveHand 1 4]).map (fun s => trueCountSum s.treeHeight s.root)
      = some false ∧
    (runFrom 5 [Op.waveHand 1 4]).map (fun s =>
        (s.treeHeight, (s.root.sub [false, true]).flag, adj 1 (s.root.sub [false, true]),
          adj 0 (s.root.sub [false, true, false]) + adj 0 (s.root.sub [false, true, true])))
      = some (3, true, 2, 0) := by
  decide

/-- Claim C11, amended: after `buildTree (n)` and any sequence of valid calls, every
internal node of height `h` whose `flipped` is not set has a true face-down count equal to
the sum of the true counts of its two children, and a node whose `flipped` is set has the
true count `2^h` minus that sum. -/
theorem true_count_sum_flag_aware (n : Int) (ops : List Op) (h1 : 1 ≤ n) (hn : n ≤ MAX_N)
    (_hv : validOps n ops) :
    ∃ s, runFrom n ops = some s ∧ FlagAwareSum s.treeHeight s.root := by
  obtain ⟨s, hrun, hg, _⟩ := runFrom_good_any n ops h1 hn
  exact ⟨s, hrun, flagAwareSum_of_inv _ _ hg.2.2.2⟩

/-- Witness of claim C11: five cards, `waveHand (1, 4)`. -/
theorem true_count_sum_flag_aware_witness :
    ∃ s, runFrom 5 [Op.waveHand 1 4] = some s ∧ FlagAwareSum s.treeHeight s.root :=
  true_count_sum_flag_aware 5 [Op.waveHand 1 4] (by decide) (by decide) (by decide)

theorem flippedOnPath_leaf (s : State) (pathID : Nat) (b : Bool)
    (h0 : getFlipped s (s.path pathID 0) = some b)
    (hc : ∀ j, 1 ≤ j → j ≤ s.treeHeight → getFlipped s (s.path pathID j) = some false) :
    decide (Odd (flippedOnPath s pathID)) = b := by
  unfold flippedOnPath
  have hf : (Finset.range (s.treeHeight + 1)).filter
      (fun j => getFlipped s (s.path pathID j) = some true)
      = if b then {0} else ∅ := by
    ext j
    simp only [Finset.mem_filter, Finset.mem_range]
    by_cases hj : j = 0
    · subst hj
      cases b <;> simp [h0]
    · have := hc j (by omega)
      cases b <;> simp [hj] <;> intro hlt <;> simp [this (by omega)]
  rw [hf]
  cases b <;> simp

/-- Claim C12, as it is worded, fails: five cards, `waveHand (1, 4)`.  Card `2` is face
down in the reference array, the leaf of index `2` has `flipped = false`: the flip of
the cards `2..3` is recorded in the node above the two leaves. -/
theorem leaf_flag_not_state :
    validOps 5 [Op.waveHand 1 4] ∧
    refArray [Op.waveHand 1 4] 2 = true ∧
    (runFrom 5 [Op.waveHand 1 4]).bind (fun s =>
        (findPath 2 0 s).bind (fun s1 =>
          (getFlipped s1 (s1.path 0 0)).bind (fun f0 =>
            (getFlipped s1 (s1.path 0 1)).map (fun f1 => (f0, f1)))))
      = some (false, true) := by
  decide

/-- Claim C12, amended: after `buildTree (n)` and any sequence of valid calls, for every
index `i` of `1..n`, card `i` is face down in the reference array exactly when an odd
number of the nodes that `findPath` stores for `i`, leaf included, have `flipped` set; the
flag of the leaf by itself records the state of the card when no node of height `≥ 1` on
that path has `flipped` set. -/
theorem leaf_flag_parity (n : Int) (ops : List Op) (i : Int) (h1 : 1 ≤ n) (hn : n ≤ MAX_N)
    (hv : validOps n ops) (hi1 : 1 ≤ i) (hin : i ≤ n) :
    ∃ s s1, runFrom n ops = some s ∧ findPath i 0 s = some s1 ∧
      decide (Odd (flippedOnPath s1 0)) = refArray ops i ∧
      ((∀ j, 1 ≤ j → j ≤ s1.treeHeight → getFlipped s1 (s1.path 0 j) = some false) →
        getFlipped s1 (s1.path 0 0) = some (refArray ops i)) := by
  obtain ⟨s, hrun, hg, _, hlt, hc⟩ := runFrom_good n ops h1 hn hv
  obtain ⟨hH, hp, _, _⟩ := id hg
  obtain ⟨s1, hf, hodd⟩ := cardState_eq_odd_flipped s i 0 (by omega) hH hp
  have hci := hc i (by omega) (by omega)
  refine ⟨s, s1, hrun, hf, by rw [← hodd, hci], ?_⟩
  intro hclear
  have e := findPath_eq s i 0 (by omega) hH hp
  rw [hf] at e
  have hs1 := Option.some.inj e
  have hne : s.root.sub (dirs s.treeHeight s.root i) ≠ .null :=
    sub_ne_null hp (le_of_eq (dirs_length _ _ i hp))
  have h0 : getFlipped s1 (s1.path 0 0)
      = some (s.root.sub (dirs s.treeHeight s.root i)).flag := by
    have := getFlipped_some s1 s.root (dirs s.treeHeight s.root i) hne
    rw [hs1] at this ⊢
    have ht : List.take s.treeHeight (dirs s.treeHeight s.root i) = dirs s.treeHeight s.root i :=
      List.take_of_length_le (le_of_eq (dirs_length _ _ i hp))
    simpa [State.withRoot, ht] using this
  rw [h0, ← hci, hodd, flippedOnPath_leaf s1 0 _ h0 hclear]

/-- Witness of claim C12: five cards, `waveHand (1, 4)`, index `2`. -/
theorem leaf_flag_parity_witness :
    ∃ s s1, runFrom 5 [Op.waveHand 1 4] = some s ∧ findPath 2 0 s = some s1 ∧
      decide (Odd (flippedOnPath s1 0)) = refArray [Op.waveHand 1 4] 2 ∧
      ((∀ j, 1 ≤ j → j ≤ s1.treeHeight → getFlipped s1 (s1.path 0 j) = some false) →
        getFlipped s1 (s1.path 0 0) = some (refArray [Op.waveHand 1 4] 2)) :=
  leaf_flag_parity 5 [Op.waveHand 1 4] 2 (by decide) (by decide) (by decide) (by decide)
    (by decide)

/-! ## Claim C13 -/

theorem siblingsLeft_eq (s : State) :
    ∀ (seg pre : List Bool),
      (∀ u d v, seg = u ++ d :: v →
        s.path 0 v.length = some (pre ++ u ++ [d]) ∧ s.path 0 (v.length + 1) = some (pre ++ u)) →
      Perfect seg.length (s.root.sub pre) →
      siblingsLeft upOf s seg.length = sumLeft seg.length seg (s.root.sub pre) := by
  intro seg
  induction seg with
  | nil => intro pre _ _; simp [siblingsLeft, sumLeft]
  | cons d seg ih =>
    intro pre hpath hp
    have hp1 : Perfect (seg.length + 1) (s.root.sub pre) := by simpa using hp
    obtain ⟨n, m, f, nl, ml, fl, ll, lr, nr, mr, fr, rl, rr, hX⟩ := perfect_succ_cases hp1
    have h0 := hpath [] d seg rfl
    simp only [List.append_nil] at h0
    rw [List.length_cons, siblingsLeft, ih (pre ++ [d]) ?_ ?_]
    · simp only [sumLeft, sub_append, sub_single, h0.1, h0.2, childOf, childPtr, nodeAt]
      cases d <;> simp [hX, treeNode.child, sub_append]
    · intro u e v huv
      have := hpath (d :: u) e v (by simp [huv])
      simpa using this
    · rw [sub_append, sub_single]
      exact perfect_child hp1 d

theorem siblingsRight_eq (s : State) :
    ∀ (seg pre : List Bool),
      (∀ u d v, seg = u ++ d :: v →
        s.path 1 v.length = some (pre ++ u ++ [d]) ∧ s.path 1 (v.length + 1) = some (pre ++ u)) →
      Perfect seg.length (s.root.sub pre) →
      siblingsRight upOf s seg.length = sumRight seg.length seg (s.root.sub pre) := by
  intro seg
  induction seg with
  | nil => intro pre _ _; simp [siblingsRight, sumRight]
  | cons d seg ih =>
    intro pre hpath hp
    have hp1 : Perfect (seg.length + 1) (s.root.sub pre) := by simpa using hp
    obtain ⟨n, m, f, nl, ml, fl, ll, lr, nr, mr, fr, rl, rr, hX⟩ := perfect_succ_cases hp1
    have h0 := hpath [] d seg rfl
    simp only [List.append_nil] at h0
    rw [List.length_cons, siblingsRight, ih (pre ++ [d]) ?_ ?_]
    · simp only [sumRight, sub_append, sub_single, h0.1, h0.2, childOf, childPtr, nodeAt]
      cases d <;> simp [hX, treeNode.child, sub_append]
    · intro u e v huv
      have := hpath (d :: u) e v (by simp [huv])
      simpa using this
    · rw [sub_append, sub_single]
      exact perfect_child hp1 d

/-- Claim C13, as it is worded, fails: five cards, all face up, `answerAud (1, 4)`.  The
fork is at height `2` and the value returned is `4`; the sum of the claim, which takes
`numFaceDown` of the unflipped subtree over `2..3`, is `2`. -/
theorem general_case_claimed_amount_fails :
    (buildTree 5).bind (fun b =>
        (answerAud 1 4 b.2).map (fun vs =>
          (vs.1, findFork vs.2, generalCase claimedAmount vs.2 2, generalCase upOf vs.2 2)))
      = some (4, some 2, 2, 4) := by
  decide

/-- Claim C13, amended: in the general case of `answerAud (l, r)` (fork `≥ 1`) on a
perfect tree, the result is the contributions of the two boundary leaves plus, for each
height `i` below the fork and each sibling subtree of size `2^i` selected by the
left/right rule, the amount `numFaceDown` when `flipped` of that sibling is set and
`2^i - numFaceDown` otherwise (`upOf`), all read after the push-down. -/
theorem answerAud_general_case (s : State) (l r : Int) (hH : s.treeHeight ≤ MAX_HEIGHT)
    (hp : Perfect s.treeHeight s.root) :
    ∃ s2 fork v s1, (findPath l 0 s).bind (findPath r 1) = some s2 ∧
      findFork s2 = some fork ∧ answerAud l r s = some (v, s1) ∧
      (1 ≤ fork → v = generalCase upOf s1 fork.toNat) := by
  have hfp := findPaths_eq s l r hH hp
  have hl0 := dirs_length _ _ l hp
  have hl1 := dirs_length _ _ r hp
  have hok := pathsOK_pathsOf s _ _ hl0 hl1 hH
  have hfork := findFork_eq _ _ _ hok.1 hok.2.1 hok.2.2.1 hok.2.2.2.1 hok.2.2.2.2
  refine ⟨_, _, _, _, hfp, hfork, answerAud_eq s l r hH hp, ?_⟩
  intro h1
  generalize hds0 : dirs s.treeHeight s.root l = ds0 at *
  generalize hds1 : dirs s.treeHeight s.root r = ds1 at *
  have hT : Perfect s.treeHeight (askSpec s.treeHeight ds0 ds1 s.root) :=
    perfect_sameShape (sameShape_askSpec _ _ _ _) hp
  have hok1 : PathsOK ⟨s.treeHeight, askSpec s.treeHeight ds0 ds1 s.root, pathsOf s ds0 ds1⟩
      ds0 ds1 := hok
  rcases fork_cases ds0 ds1 (by omega) with ⟨_, hf⟩ | ⟨c, d0, d1, a, b, ha, hb, hd, hab, hf⟩
  · omega
  · subst ha hb
    have hHc : s.treeHeight = c.length + (a.length + 1) := by
      rw [← hl0]; simp
    have hL := siblingsLeft_eq _ a (c ++ [d0]) (by
      intro u d v e
      have e1 : c ++ d0 :: a = (c ++ [d0] ++ u) ++ d :: v := by simp [e]
      have hpth := path0_split hok1 _ d v e1
      exact ⟨hpth.2, hpth.1⟩) (perfect_sub_fork d0 hT hHc)
    have hR := siblingsRight_eq _ b (c ++ [d1]) (by
      intro u d v e
      have e1 : c ++ d1 :: b = (c ++ [d1] ++ u) ++ d :: v := by simp [e]
      have hpth := path1_split hok1 _ d v e1
      exact ⟨hpth.2, hpth.1⟩) (hab ▸ perfect_sub_fork d1 hT hHc)
    rw [hf, Int.toNat_ofNat, askValue_fork c d0 d1 a b a.length s.treeHeight _ hd hHc]
    unfold generalCase
    rw [hL, hab, hR, path0_leaf hok1, path1_leaf hok1]
    rfl

/-- Witness of claim C13: the sample tree of height 2, `answerAud (0, 3)`. -/
theorem answerAud_general_case_witness :
    sampleState.treeHeight ≤ MAX_HEIGHT ∧ Perfect sampleState.treeHeight sampleState.root ∧
    ∃ s2 fork v s1, (findPath 0 0 sampleState).bind (findPath 3 1) = some s2 ∧
      findFork s2 = some fork ∧ answerAud 0 3 sampleState = some (v, s1) ∧
      (1 ≤ fork → v = generalCase upOf s1 fork.toNat) :=
  ⟨by decide, by simp [sampleState, Perfect],
    answerAud_general_case sampleState 0 3 (by decide) (by simp [sampleState, Perfect])⟩

/-! ## Claims C14 and C15: findFork -/

theorem paths_eq_iff {s : State} {ds0 ds1 : List Bool} (h : PathsOK s ds0 ds1) (k : Nat)
    (hk : k ≤ s.treeHeight) : s.path 0 k = s.path 1 k ↔ forkOf ds0 ds1 < (k : Int) := by
  obtain ⟨hl0, hl1, _, hp0, hp1⟩ := h
  rw [hp0 k hk, hp1 k hk, Option.some_inj, ← hl0]
  exact take_eq_iff_forkOf ds0 ds1 (by omega) k (by omega)

theorem forkOf_eq_neg_one_iff (ds0 ds1 : List Bool) (hlen : ds0.length = ds1.length) :
    forkOf ds0 ds1 = -1 ↔ ds0 = ds1 := by
  constructor
  · intro hf
    rcases fork_cases ds0 ds1 hlen with ⟨he, _⟩ | ⟨c, d0, d1, a, b, _, _, _, _, hfa⟩
    · exact he
    · omega
  · intro he
    rw [he, forkOf_self]

theorem dirs_inj : ∀ (h : Nat) (t : treeNode) (lo i j : Int), Perfect h t → Mid h lo t →
    lo ≤ i → i < lo + 2 ^ h → lo ≤ j → j < lo + 2 ^ h → dirs h t i = dirs h t j → i = j := by
  intro h
  induction h with
  | zero =>
    intro t lo i j _ _ hi0 hi1 hj0 hj1 _
    simp at hi1 hj1
    omega
  | succ h ih =>
    intro t lo i j hp hm hi0 hi1 hj0 hj1 he
    cases t with
    | null => simp [Perfect] at hp
    | node n m f l r =>
      obtain ⟨hm0, hml, hmr⟩ := hm
      have h2 : (2 : Int) ^ (h + 1) = 2 ^ h + 2 ^ h := by ring
      subst hm0
      by_cases hi : i < lo + 2 ^ h <;> by_cases hj : j < lo + 2 ^ h <;>
        simp only [dirs, hi, hj, if_true, if_false, List.cons.injEq, true_and, false_and,
          Bool.false_eq_true, Bool.true_eq_false] at he
      · exact ih l lo i j hp.1 hml hi0 hi hj0 hj he
      · exact ih r (lo + 2 ^ h) i j hp.2 hmr (by omega) (by omega) (by omega) (by omega) he

theorem ceilLog2_le_of_lt (n : Int) (h1 : 1 ≤ n) (hn : n < 2 ^ MAX_HEIGHT) :
    ceilLog2 (n + 1).toNat ≤ MAX_HEIGHT := by
  apply (ceilLog2_spec (n + 1).toNat).2
  have : (((n + 1).toNat : Nat) : Int) ≤ ((2 ^ MAX_HEIGHT : Nat) : Int) := by
    rw [Int.toNat_of_nonneg (by omega)]
    push_cast
    omega
  exact_mod_cast this

/-- The two calls of `findPath` and the call of `findFork` on a well-formed tree. -/
theorem findFork_good (s : State) (l r : Int) (hg : Good s) :
    ∃ s1 s2, findPath l 0 s = some s1 ∧ findPath r 1 s1 = some s2 ∧
      s2.treeHeight = s.treeHeight ∧
      PathsOK s2 (dirs s.treeHeight s.root l) (dirs s.treeHeight s.root r) ∧
      findFork s2 = some (forkOf (dirs s.treeHeight s.root l) (dirs s.treeHeight s.root r)) := by
  obtain ⟨hH, hp, hm, hinv⟩ := id hg
  have hf0 := findPath_eq s l 0 (by omega) hH hp
  have hfp := findPaths_eq s l r hH hp
  rw [hf0, Option.some_bind] at hfp
  have hok := pathsOK_pathsOf s _ _ (dirs_length _ _ l hp) (dirs_length _ _ r hp) hH
  have hfork := findFork_eq _ _ _ hok.1 hok.2.1 hok.2.2.1 hok.2.2.2.1 hok.2.2.2.2
  exact ⟨_, _, hf0, hfp, rfl, hok, hfork⟩

/-- Claim C14, as it is worded, fails: five cards, `l = 1`, `r = 4`.  The leaves of the
two paths differ, so the lowest height at which the paths differ is `0`; `findFork`
returns `2`, the height just below the root. -/
theorem findFork_not_lowest :
    (buildTree 5).bind (fun b =>
        (findPath 1 0 b.2).bind (fun s1 =>
          (findPath 4 1 s1).map (fun s2 =>
            (findFork s2, decide (s2.path 0 0 = s2.path 1 0),
              decide (s2.path 0 2 = s2.path 1 2), decide (s2.path 0 3 = s2.path 1 3)))))
      = some (some 2, false, false, true) := by
  decide

/-- Claim C14, amended: on the tree built by `buildTree (n)`, for `l` and `r` in `1..n`,
after `findPath (l, 0)` and `findPath (r, 1)` the value of `findFork` is the highest
height at which the nodes of the two paths differ, and `-1` if the paths are identical. -/
theorem findFork_highest (n l r : Int) (h1 : 1 ≤ n) (hn : n < 2 ^ MAX_HEIGHT)
    (_hl1 : 1 ≤ l) (_hln : l ≤ n) (_hr1 : 1 ≤ r) (_hrn : r ≤ n) :
    ∃ out s s1 s2 f, buildTree n = some (out, s) ∧ findPath l 0 s = some s1 ∧
      findPath r 1 s1 = some s2 ∧ findFork s2 = some f ∧
      ((∀ i, i ≤ s.treeHeight → s2.path 0 i = s2.path 1 i) → f = -1) ∧
      ((∃ i, i ≤ s.treeHeight ∧ s2.path 0 i ≠ s2.path 1 i) →
        ∃ k : Nat, f = (k : Int) ∧ k ≤ s.treeHeight ∧ s2.path 0 k ≠ s2.path 1 k ∧
          ∀ i, i ≤ s.treeHeight → s2.path 0 i ≠ s2.path 1 i → i ≤ k) := by
  obtain ⟨s, hb, _, _, hg, _, _⟩ := buildTree_spec n h1 (ceilLog2_le_of_lt n h1 hn)
  obtain ⟨s1, s2, hf0, hf1, hh, hok, hfork⟩ := findFork_good s l r hg
  have hiff : ∀ k, k ≤ s.treeHeight → (s2.path 0 k = s2.path 1 k ↔ forkOf _ _ < (k : Int)) :=
    fun k hk => paths_eq_iff hok k (by rw [hh]; exact hk)
  have hlt := forkOf_lt (dirs s.treeHeight s.root l) (dirs s.treeHeight s.root r)
  have hge := forkOf_ge (dirs s.treeHeight s.root l) (dirs s.treeHeight s.root r)
  rw [dirs_length _ _ l hg.2.1] at hlt
  refine ⟨_, s, s1, s2, _, hb, hf0, hf1, hfork, ?_, ?_⟩
  · intro hall
    have := (hiff 0 (Nat.zero_le _)).mp (hall 0 (Nat.zero_le _))
    simp only [Nat.cast_zero] at this
    omega
  · rintro ⟨i, hi, hne⟩
    have hfi : ¬ forkOf (dirs s.treeHeight s.root l) (dirs s.treeHeight s.root r) < (i : Int) :=
      fun hc => hne ((hiff i hi).mpr hc)
    refine ⟨(forkOf (dirs s.treeHeight s.root l) (dirs s.treeHeight s.root r)).toNat,
      by omega, by omega, ?_, ?_⟩
    · intro hc
      have := (hiff _ (by omega)).mp hc
      omega
    · intro j hj hnej
      have : ¬ forkOf (dirs s.treeHeight s.root l) (dirs s.treeHeight s.root r) < (j : Int) :=
        fun hc => hnej ((hiff j hj).mpr hc)
      omega

/-- Witness of claim C14: five cards, `l = 1`, `r = 4`. -/
theorem findFork_highest_witness :
    ∃ out s s1 s2 f, buildTree 5 = some (out, s) ∧ findPath 1 0 s = some s1 ∧
      findPath 4 1 s1 = some s2 ∧ findFork s2 = some f ∧
      ((∀ i, i ≤ s.treeHeight → s2.path 0 i = s2.path 1 i) → f = -1) ∧
      ((∃ i, i ≤ s.treeHeight ∧ s2.path 0 i ≠ s2.path 1 i) →
        ∃ k : Nat, f = (k : Int) ∧ k ≤ s.treeHeight ∧ s2.path 0 k ≠ s2.path 1 k ∧
          ∀ i, i ≤ s.treeHeight → s2.path 0 i ≠ s2.path 1 i → i ≤ k) :=
  findFork_highest 5 1 4 (by decide) (by decide) (by decide) (by decide) (by decide)
    (by decide)

/-- Claim C15: on the tree built by `buildTree (n)`, for `l` and `r` in
`0 .. 2^treeHeight - 1`, after `findPath (l, 0)` and `findPath (r, 1)` the value `f` of
`findFork` satisfies `-1 ≤ f ≤ treeHeight - 1`, the two paths hold the same node at every
height `i` with `f < i ≤ treeHeight` and different nodes at every height `0 ≤ i ≤ f`, and
`f = -1` exactly when `l = r`. -/
theorem findFork_separates (n : Int) (h1 : 1 ≤ n) (hn : n < 2 ^ MAX_HEIGHT) :
    ∃ out s, buildTree n = some (out, s) ∧
      ∀ l r : Int, 0 ≤ l → l ≤ 2 ^ s.treeHeight - 1 → 0 ≤ r → r ≤ 2 ^ s.treeHeight - 1 →
        ∃ s1 s2 f, findPath l 0 s = some s1 ∧ findPath r 1 s1 = some s2 ∧
          findFork s2 = some f ∧ -1 ≤ f ∧ f ≤ (s.treeHeight : Int) - 1 ∧
          (∀ i : Nat, f < (i : Int) → i ≤ s.treeHeight → s2.path 0 i = s2.path 1 i) ∧
          (∀ i : Nat, (i : Int) ≤ f → s2.path 0 i ≠ s2.path 1 i) ∧
          (f = -1 ↔ l = r) := by
  obtain ⟨s, hb, _, _, hg, _, _⟩ := buildTree_spec n h1 (ceilLog2_le_of_lt n h1 hn)
  refine ⟨_, s, hb, ?_⟩
  intro l r hl0 hl1 hr0 hr1
  obtain ⟨s1, s2, hf0, hf1, hh, hok, hfork⟩ := findFork_good s l r hg
  have hiff : ∀ k, k ≤ s.treeHeight → (s2.path 0 k = s2.path 1 k ↔ forkOf _ _ < (k : Int)) :=
    fun k hk => paths_eq_iff hok k (by rw [hh]; exact hk)
  have hlt := forkOf_lt (dirs s.treeHeight s.root l) (dirs s.treeHeight s.root r)
  have hge := forkOf_ge (dirs s.treeHeight s.root l) (dirs s.treeHeight s.root r)
  have hlen0 := dirs_length _ _ l hg.2.1
  have hlen1 := dirs_length _ _ r hg.2.1
  rw [hlen0] at hlt
  refine ⟨s1, s2, _, hf0, hf1, hfork, hge, by omega, ?_, ?_, ?_⟩
  · intro i hi hiH
    exact (hiff i hiH).mpr hi
  · intro i hi hc
    have := (hiff i (by omega)).mp hc
    omega
  · rw [forkOf_eq_neg_one_iff _ _ (by omega)]
    constructor
    · intro he
      exact dirs_inj _ _ 0 l r hg.2.1 hg.2.2.1 hl0 (by omega) hr0 (by omega) he
    · intro he
      rw [he]

/-- Witness of claim C15: five cards. -/
theorem findFork_separates_witness :
    ∃ out s, buildTree 5 = some (out, s) ∧
      ∀ l r : Int, 0 ≤ l → l ≤ 2 ^ s.treeHeight - 1 → 0 ≤ r → r ≤ 2 ^ s.treeHeight - 1 →
        ∃ s1 s2 f, findPath l 0 s = some s1 ∧ findPath r 1 s1 = some s2 ∧
          findFork s2 = some f ∧ -1 ≤ f ∧ f ≤ (s.treeHeight : Int) - 1 ∧
          (∀ i : Nat, f < (i : Int) → i ≤ s.treeHeight → s2.path 0 i = s2.path 1 i) ∧
          (∀ i : Nat, (i : Int) ≤ f → s2.path 0 i ≠ s2.path 1 i) ∧
          (f = -1 ↔ l = r) :=
  findFork_separates 5 (by decide) (by decide)

/-! ## The push-down phases of waveHand and answerAud -/

theorem askSpec_eq_pushSpec : ∀ (h : Nat) (ds0 ds1 : List Bool) (t : treeNode),
    askSpec h ds0 ds1 t = pushSpec pushA h ds0 ds1 t := by
  intro h
  induction h with
  | zero => intro ds0 ds1 t; simp [askSpec, pushSpec]
  | succ h ih =>
    intro ds0 ds1 t
    cases ds0 with
    | nil => simp [askSpec, pushSpec]
    | cons d0 a =>
      cases ds1 with
      | nil => simp [askSpec, pushSpec]
      | cons d1 b => simp [askSpec, pushSpec, ih]

theorem pushSpec_fuse_same (step : Nat → treeNode → treeNode) :
    ∀ (h : Nat) (a : List Bool) (t : treeNode), descend step h a t = pushSpec step h a a t := by
  intro h
  induction h with
  | zero => intro a t; cases a <;> simp [descend, pushSpec]
  | succ h ih =>
    intro a t
    cases a with
    | nil => simp [descend, pushSpec]
    | cons d a => simp [descend, pushSpec, ih]

/-- Two push-down loops compute `pushSpec` when the paths separate. -/
theorem pushSpec_fuse_fork (step : Nat → treeNode → treeNode)
    (hstep : ∀ i t, Perfect (i + 1) t → Perfect (i + 1) (step (i + 1) t)) :
    ∀ (c : List Bool) (d0 d1 : Bool) (a b : List Bool) (f h : Nat) (t : treeNode),
      d0 ≠ d1 → h = c.length + (f + 1) → Perfect h t →
      applyAt (c ++ [d1]) (descend step f b) (descend step h (c ++ d0 :: a) t)
        = pushSpec step h (c ++ d0 :: a) (c ++ d1 :: b) t := by
  intro c
  induction c with
  | nil =>
    intro d0 d1 a b f h t hd hh hp
    simp only [List.length_nil, Nat.zero_add] at hh
    subst hh
    have hne : step (f + 1) t ≠ .null := perfect_ne_null (hstep f t hp)
    simp only [List.nil_append, descend, applyAt_cons, applyAt_nil,
      child_setChild_ne _ _ _ _ hd, pushSpec, hd, if_false]
  | cons e c ih =>
    intro d0 d1 a b f h t hd hh hp
    obtain ⟨h1, rfl⟩ : ∃ h1, h = h1 + 1 := ⟨c.length + (f + 1), by simp at hh; omega⟩
    have hh1 : h1 = c.length + (f + 1) := by simp at hh; omega
    have hne : step (h1 + 1) t ≠ .null := perfect_ne_null (hstep h1 t hp)
    simp only [List.cons_append, descend, applyAt_cons_setChild _ _ _ _ _ hne, pushSpec,
      if_true, List.append_eq]
    rw [ih d0 d1 a b f h1 _ hd hh1 (perfect_child (hstep h1 t hp) e)]

theorem wavePush_core (s : State) (ds0 ds1 : List Bool) (h : PathsOK s ds0 ds1)
    (hp : Perfect s.treeHeight s.root) :
    (do
      let s ← forDown (waveHandPush 0) s.treeHeight s
      let fork ← findFork s
      forDown (waveHandPush 1) fork.toNat s)
      = some (s.withRoot (pushSpec (fun _ => pushW) s.treeHeight ds0 ds1 s.root)) := by
  obtain ⟨hl0, hl1, hH, hp0, hp1⟩ := id h
  have hpush0 := wave_push0 h s.root hp
  rw [withRoot_self] at hpush0
  have hfork : ∀ T, findFork (s.withRoot T) = some (forkOf ds0 ds1) := fun T =>
    findFork_eq (s.withRoot T) ds0 ds1 hl0 hl1 hH hp0 hp1
  simp only [hpush0, Option.bind_eq_bind, Option.some_bind, hfork]
  have hT1 : Perfect s.treeHeight (descend (fun _ => pushW) s.treeHeight ds0 s.root) :=
    perfect_descend _ (fun _ _ hx => perfect_pushW hx) _ _ _ hp
  rcases fork_cases ds0 ds1 (by omega) with ⟨he, hf⟩ | ⟨c, d0, d1, a, b, ha, hb, hd, hab, hf⟩
  · subst he
    have htn : (-1 : Int).toNat = 0 := rfl
    simp only [hf, htn, forDown]
    rw [← pushSpec_fuse_same]
  · subst ha hb
    have hHc : s.treeHeight = c.length + (a.length + 1) := by
      rw [← hl0]; simp
    have hpush1 := wave_push1 h _ (perfect_sub_fork d1 hT1 (hab ▸ hHc))
    rw [← hab] at hpush1
    simp only [hf, Int.toNat_ofNat, hpush1]
    rw [pushSpec_fuse_fork _ (fun _ _ hx => perfect_pushW hx) c d0 d1 a b a.length s.treeHeight
      s.root hd hHc hp]

theorem askPush_core (s : State) (ds0 ds1 : List Bool) (h : PathsOK s ds0 ds1)
    (hp : Perfect s.treeHeight s.root) :
    (do
      let fork ← findFork s
      let s ← forDown answerAudPush0 s.treeHeight s
      forDown answerAudPush1 fork.toNat s)
      = some (s.withRoot (askSpec s.treeHeight ds0 ds1 s.root)) := by
  obtain ⟨hl0, hl1, hH, hp0, hp1⟩ := id h
  have hpush0 := ask_push0 h s.root hp
  rw [withRoot_self] at hpush0
  have hfork : findFork s = some (forkOf ds0 ds1) :=
    findFork_eq s ds0 ds1 hl0 hl1 hH hp0 hp1
  simp only [hpush0, Option.bind_eq_bind, Option.some_bind, hfork]
  have hT1 : Perfect s.treeHeight (descend pushA s.treeHeight ds0 s.root) :=
    perfect_descend _ (fun _ _ hx => perfect_pushA _ hx) _ _ _ hp
  rcases fork_cases ds0 ds1 (by omega) with ⟨he, hf⟩ | ⟨c, d0, d1, a, b, ha, hb, hd, hab, hf⟩
  · subst he
    have htn : (-1 : Int).toNat = 0 := rfl
    simp only [hf, htn, forDown]
    rw [← askSpec_fuse_same]
  · subst ha hb
    have hHc : s.treeHeight = c.length + (a.length + 1) := by
      rw [← hl0]; simp
    have hpush1 := ask_push1 h _ (perfect_sub_fork d1 hT1 (hab ▸ hHc))
    rw [← hab] at hpush1
    simp only [hf, Int.toNat_ofNat, hpush1]
    rw [← askSpec_fuse_fork c d0 d1 a b a.length s.treeHeight s.root hd hHc hp]
    rfl

theorem waveHandPushDown_eq (s : State) (l r : Int) (hH : s.treeHeight ≤ MAX_HEIGHT)
    (hp : Perfect s.treeHeight s.root) :
    waveHandPushDown l r s
      = some ⟨s.treeHeight,
          pushSpec (fun _ => pushW) s.treeHeight (dirs s.treeHeight s.root l)
            (dirs s.treeHeight s.root r) s.root,
          pathsOf s (dirs s.treeHeight s.root l) (dirs s.treeHeight s.root r)⟩ := by
  have hfp := findPaths_eq s l r hH hp
  have hok := pathsOK_pathsOf s _ _ (dirs_length _ _ l hp) (dirs_length _ _ r hp) hH
  have hcore := wavePush_core _ _ _ hok hp
  cases h0 : findPath l 0 s with
  | none => rw [h0] at hfp; simp at hfp
  | some s1 =>
    rw [h0, Option.some_bind] at hfp
    simp only [waveHandPushDown, h0, hfp, Option.bind_eq_bind, Option.some_bind]
    exact hcore

theorem answerAudPushDown_eq (s : State) (l r : Int) (hH : s.treeHeight ≤ MAX_HEIGHT)
    (hp : Perfect s.treeHeight s.root) :
    answerAudPushDown l r s
      = some ⟨s.treeHeight,
          askSpec s.treeHeight (dirs s.treeHeight s.root l) (dirs s.treeHeight s.root r) s.root,
          pathsOf s (dirs s.treeHeight s.root l) (dirs s.treeHeight s.root r)⟩ := by
  have hfp := findPaths_eq s l r hH hp
  have hok := pathsOK_pathsOf s _ _ (dirs_length _ _ l hp) (dirs_length _ _ r hp) hH
  have hcore := askPush_core _ _ _ hok hp
  cases h0 : findPath l 0 s with
  | none => rw [h0] at hfp; simp at hfp
  | some s1 =>
    rw [h0, Option.some_bind] at hfp
    simp only [answerAudPushDown, h0, hfp, Option.bind_eq_bind, Option.some_bind]
    exact hcore

/-! ## Flags on the two paths after the push-down -/

theorem clear_null : ∀ (h : Nat) (ds : List Bool), Clear h ds .null := by
  intro h
  induction h with
  | zero => intro ds; simp [Clear]
  | succ h ih =>
    intro ds
    cases ds with
    | nil => simp [Clear]
    | cons d ds => exact ⟨rfl, ih ds⟩

theorem flag_setChild (t c : treeNode) (d : Bool) : (t.setChild d c).flag = t.flag := by
  cases t with
  | null => rfl
  | node n m f l r => cases d <;> rfl

theorem clear_setChild {h : Nat} {ds : List Bool} {t c : treeNode} (d : Bool)
    (hf : t.flag = false) (hc : Clear h ds c) : Clear (h + 1) (d :: ds) (t.setChild d c) := by
  cases t with
  | null => exact clear_null _ _
  | node n m f l r =>
    refine ⟨by rw [flag_setChild]; exact hf, ?_⟩
    rw [child_setChild _ _ _ (by simp)]
    exact hc

theorem clear_setChild_ne {h : Nat} {ds : List Bool} {t c : treeNode} {d e : Bool}
    (hde : e ≠ d) (hc : Clear (h + 1) (d :: ds) t) :
    Clear (h + 1) (d :: ds) (t.setChild e c) := by
  obtain ⟨hf, hch⟩ := hc
  refine ⟨by rw [flag_setChild]; exact hf, ?_⟩
  rw [child_setChild_ne _ _ _ _ hde]
  exact hch

theorem clear_calcNode {h : Nat} {ds : List Bool} {t : treeNode} (k : Nat)
    (hc : Clear h ds t) : Clear h ds (calcNode k t) := by
  cases h with
  | zero => simp [Clear]
  | succ h =>
    cases ds with
    | nil => simp [Clear]
    | cons d ds =>
      cases t with
      | null => exact clear_null _ _
      | node n m f l r => exact hc

theorem pushW_flag (t : treeNode) : (pushW t).flag = false := by
  cases t with
  | null => rfl
  | node n m f l r => cases f <;> simp [pushW, treeNode.flag]

theorem flag_sib0 (d : Bool) (t : treeNode) : (sib0 d t).flag = t.flag := by
  cases t with
  | null => rfl
  | node n m f l r => cases d <;> rfl

theorem flag_sib1 (d : Bool) (t : treeNode) : (sib1 d t).flag = t.flag := by
  cases t with
  | null => rfl
  | node n m f l r => cases d <;> rfl

theorem clear_descend (step : Nat → treeNode → treeNode)
    (hstep : ∀ k t, (step k t).flag = false) :
    ∀ (h : Nat) (ds : List Bool) (t : treeNode), Clear h ds (descend step h ds t) := by
  intro h
  induction h with
  | zero => intro ds t; simp [Clear]
  | succ h ih =>
    intro ds t
    cases ds with
    | nil => simp [Clear]
    | cons d ds => exact clear_setChild d (hstep _ _) (ih ds _)

theorem clear0_pushSpec (step : Nat → treeNode → treeNode)
    (hstep : ∀ k t, (step k t).flag = false) :
    ∀ (h : Nat) (ds0 ds1 : List Bool) (t : treeNode), ds0.length = ds1.length →
      Clear h ds0 (pushSpec step h ds0 ds1 t) := by
  intro h
  induction h with
  | zero => intro ds0 ds1 t _; simp [Clear]
  | succ h ih =>
    intro ds0 ds1 t hlen
    cases ds0 with
    | nil => simp [Clear]
    | cons d0 a =>
      cases ds1 with
      | nil => simp at hlen
      | cons d1 b =>
        by_cases hd : d0 = d1
        · simp only [pushSpec, hd, if_true]
          exact clear_setChild d1 (hstep _ _) (ih a b _ (by simpa using hlen))
        · simp only [pushSpec, hd, if_false]
          exact clear_setChild_ne (fun e => hd e.symm)
            (clear_setChild d0 (hstep _ _) (clear_descend step hstep h a _))

theorem clear1_pushSpec (step : Nat → treeNode → treeNode)
    (hstep : ∀ k t, (step k t).flag = false) :
    ∀ (h : Nat) (ds0 ds1 : List Bool) (t : treeNode), ds0.length = ds1.length →
      Clear h ds1 (pushSpec step h ds0 ds1 t) := by
  intro h
  induction h with
  | zero => intro ds0 ds1 t _; simp [Clear]
  | succ h ih =>
    intro ds0 ds1 t hlen
    cases ds1 with
    | nil => simp [Clear]
    | cons d1 b =>
      cases ds0 with
      | nil => simp at hlen
      | cons d0 a =>
        by_cases hd : d0 = d1
        · simp only [pushSpec, hd, if_true]
          exact clear_setChild d1 (hstep _ _) (ih a b _ (by simpa using hlen))
        · simp only [pushSpec, hd, if_false]
          exact clear_setChild d1 (by rw [flag_setChild]; exact hstep _ _)
            (clear_descend step hstep h b _)

theorem clear_waveBranch0 : ∀ (h : Nat) (ds : List Bool) (t : treeNode),
    Clear h ds (waveBranch0 h ds t) := by
  intro h
  induction h with
  | zero => intro ds t; simp [Clear]
  | succ h ih =>
    intro ds t
    cases ds with
    | nil => simp [Clear]
    | cons d ds =>
      simp only [waveBranch0]
      exact clear_calcNode _ (clear_setChild d (by rw [flag_sib0]; exact pushW_flag t) (ih ds _))

theorem clear_waveBranch1 : ∀ (h : Nat) (ds : List Bool) (t : treeNode),
    Clear h ds (waveBranch1 h ds t) := by
  intro h
  induction h with
  | zero => intro ds t; simp [Clear]
  | succ h ih =>
    intro ds t
    cases ds with
    | nil => simp [Clear]
    | cons d ds =>
      simp only [waveBranch1]
      exact clear_calcNode _ (clear_setChild d (by rw [flag_sib1]; exact pushW_flag t) (ih ds _))

theorem clear0_waveSpec : ∀ (h : Nat) (ds0 ds1 : List Bool) (t : treeNode),
    ds0.length = ds1.length → Clear h ds0 (waveSpec h ds0 ds1 t) := by
  intro h
  induction h with
  | zero => intro ds0 ds1 t _; simp [Clear]
  | succ h ih =>
    intro ds0 ds1 t hlen
    cases ds0 with
    | nil => simp [Clear]
    | cons d0 a =>
      cases ds1 with
      | nil => simp at hlen
      | cons d1 b =>
        by_cases hd : d0 = d1
        · simp only [waveSpec, hd, if_true]
          exact clear_calcNode _
            (clear_setChild d1 (pushW_flag t) (ih a b _ (by simpa using hlen)))
        · simp only [waveSpec, hd, if_false]
          exact clear_calcNode _ (clear_setChild_ne (fun e => hd e.symm)
            (clear_setChild d0 (pushW_flag t) (clear_waveBranch0 h a _)))

theorem clear1_waveSpec : ∀ (h : Nat) (ds0 ds1 : List Bool) (t : treeNode),
    ds0.length = ds1.length → Clear h ds1 (waveSpec h ds0 ds1 t) := by
  intro h
  induction h with
  | zero => intro ds0 ds1 t _; simp [Clear]
  | succ h ih =>
    intro ds0 ds1 t hlen
    cases ds1 with
    | nil => simp [Clear]
    | cons d1 b =>
      cases ds0 with
      | nil => simp at hlen
      | cons d0 a =>
        by_cases hd : d0 = d1
        · simp only [waveSpec, hd, if_true]
          exact clear_calcNode _
            (clear_setChild d1 (pushW_flag t) (ih a b _ (by simpa using hlen)))
        · simp only [waveSpec, hd, if_false]
          exact clear_calcNode _ (clear_setChild d1 (by rw [flag_setChild]; exact pushW_flag t)
            (clear_waveBranch1 h b _))

theorem clear_sub : ∀ (j h : Nat) (ds : List Bool) (t : treeNode), Clear h ds t → j < h →
    j < ds.length → (t.sub (ds.take j)).flag = false := by
  intro j
  induction j with
  | zero =>
    intro h ds t hc hh hl
    cases h with
    | zero => omega
    | succ h =>
      cases ds with
      | nil => simp at hl
      | cons d ds => simpa using hc.1
  | succ j ih =>
    intro h ds t hc hh hl
    cases h with
    | zero => omega
    | succ h =>
      cases ds with
      | nil => simp at hl
      | cons d ds =>
        rw [List.take_succ_cons, sub_cons]
        exact ih h ds _ hc.2 (by omega) (by simpa using hl)

theorem pathsClear_of_clear (s : State) (ds0 ds1 : List Bool) (hok : PathsOK s ds0 ds1)
    (hp : Perfect s.treeHeight s.root) (c0 : Clear s.treeHeight ds0 s.root)
    (c1 : Clear s.treeHeight ds1 s.root) : PathsClear s := by
  obtain ⟨hl0, hl1, _, hp0, hp1⟩ := hok
  intro k hk i h1 hi
  have key : ∀ ds : List Bool, ds.length = s.treeHeight → Clear s.treeHeight ds s.root →
      getFlipped s (some (ds.take (s.treeHeight - i))) = some false := by
    intro ds hl hc
    have hne : s.root.sub (ds.take (s.treeHeight - i)) ≠ .null :=
      sub_ne_null hp (by rw [List.length_take]; omega)
    have := getFlipped_some s s.root _ hne
    rw [withRoot_self] at this
    rw [this, clear_sub _ _ _ _ hc (by omega) (by omega)]
  obtain rfl | rfl : k = 0 ∨ k = 1 := by omega
  · rw [hp0 i hi]
    exact key ds0 hl0 c0
  · rw [hp1 i hi]
    exact key ds1 hl1 c1

/-- On a perfect tree, for any bounds, both rows of `path` are clear of pending flags above
the leaves after the push-down phase of `waveHand` and of `answerAud`, and when the
operation returns. -/
theorem pushDown_clear (s : State) (l r : Int) (hH : s.treeHeight ≤ MAX_HEIGHT)
    (hp : Perfect s.treeHeight s.root) :
    (∃ s1 s2, waveHandPushDown l r s = some s1 ∧ PathsClear s1 ∧
      waveHand l r s = some s2 ∧ PathsClear s2) ∧
    (∃ t1 v t2, answerAudPushDown l r s = some t1 ∧ PathsClear t1 ∧
      answerAud l r s = some (v, t2) ∧ PathsClear t2) := by
  have hl0 := dirs_length _ _ l hp
  have hl1 := dirs_length _ _ r hp
  have hlen : (dirs s.treeHeight s.root l).length = (dirs s.treeHeight s.root r).length := by
    omega
  have hok := pathsOK_pathsOf s _ _ hl0 hl1 hH
  have hpW : Perfect s.treeHeight (pushSpec (fun _ => pushW) s.treeHeight
      (dirs s.treeHeight s.root l) (dirs s.treeHeight s.root r) s.root) := by
    rcases fork_cases _ _ hlen with ⟨he, _⟩ | ⟨c, d0, d1, a, b, ha, hb, hd, hab, _⟩
    · rw [he, ← pushSpec_fuse_same]
      exact perfect_descend _ (fun _ _ hx => perfect_pushW hx) _ _ _ hp
    · have hHc : s.treeHeight = c.length + (a.length + 1) := by
        rw [← hl0, ha]; simp
      rw [ha, hb, ← pushSpec_fuse_fork _ (fun _ _ hx => perfect_pushW hx) c d0 d1 a b a.length
        s.treeHeight s.root hd hHc hp]
      exact perfect_applyAt_fork d1 _
        (perfect_descend _ (fun _ _ hx => perfect_pushW hx) _ _ _ hp) hHc
        (fun X hx => perfect_descend _ (fun _ _ hx => perfect_pushW hx) _ _ _ hx)
  have hpA : Perfect s.treeHeight (askSpec s.treeHeight (dirs s.treeHeight s.root l)
      (dirs s.treeHeight s.root r) s.root) := perfect_sameShape (sameShape_askSpec _ _ _ _) hp
  have hpV : Perfect s.treeHeight (waveSpec s.treeHeight (dirs s.treeHeight s.root l)
      (dirs s.treeHeight s.root r) s.root) := perfect_sameShape (sameShape_waveSpec _ _ _ _) hp
  refine ⟨⟨_, _, waveHandPushDown_eq s l r hH hp, ?_, waveHand_eq s l r hH hp, ?_⟩,
    ⟨_, _, _, answerAudPushDown_eq s l r hH hp, ?_, answerAud_eq s l r hH hp, ?_⟩⟩
  · exact pathsClear_of_clear _ _ _ hok hpW
      (clear0_pushSpec _ (fun _ t => pushW_flag t) _ _ _ _ hlen)
      (clear1_pushSpec _ (fun _ t => pushW_flag t) _ _ _ _ hlen)
  · exact pathsClear_of_clear _ _ _ hok hpV (clear0_waveSpec _ _ _ _ hlen)
      (clear1_waveSpec _ _ _ _ hlen)
  · refine pathsClear_of_clear _ _ _ hok hpA ?_ ?_
    · show Clear _ _ (askSpec _ _ _ _)
      rw [askSpec_eq_pushSpec]
      exact clear0_pushSpec _ pushA_flag _ _ _ _ hlen
    · show Clear _ _ (askSpec _ _ _ _)
      rw [askSpec_eq_pushSpec]
      exact clear1_pushSpec _ pushA_flag _ _ _ _ hlen
  · refine pathsClear_of_clear _ _ _ hok hpA ?_ ?_
    · show Clear _ _ (askSpec _ _ _ _)
      rw [askSpec_eq_pushSpec]
      exact clear0_pushSpec _ pushA_flag _ _ _ _ hlen
    · show Clear _ _ (askSpec _ _ _ _)
      rw [askSpec_eq_pushSpec]
      exact clear1_pushSpec _ pushA_flag _ _ _ _ hlen

/-! ## Claim C16 -/

/-- Claim C16: on a tree reached from `buildTree (n)`, for `1 ≤ l ≤ r ≤ n`, after the
push-down phase of `waveHand (l, r)` and of `answerAud (l, r)` every node of height `≥ 1`
held in the two rows of `path` (the path to `l` and the path to `r`) has
`flipped = false`, and this still holds when the operation returns. -/
theorem pushDown_clears_paths (n : Int) (ops : List Op) (l r : Int) (h1 : 1 ≤ n)
    (hn : n ≤ MAX_N) (_hl : 1 ≤ l) (_hlr : l ≤ r) (_hr : r ≤ n) :
    ∃ s, runFrom n ops = some s ∧
      (∃ s1 s2, waveHandPushDown l r s = some s1 ∧ PathsClear s1 ∧
        waveHand l r s = some s2 ∧ PathsClear s2) ∧
      (∃ t1 v t2, answerAudPushDown l r s = some t1 ∧ PathsClear t1 ∧
        answerAud l r s = some (v, t2) ∧ PathsClear t2) := by
  obtain ⟨s, hrun, hg, _⟩ := runFrom_good_any n ops h1 hn
  exact ⟨s, hrun, pushDown_clear s l r hg.1 hg.2.1⟩

/-- Witness of claim C16: five cards, `waveHand (1, 4)` before, bounds `2` and `5`. -/
theorem pushDown_clears_paths_witness :
    ∃ s, runFrom 5 [Op.waveHand 1 4] = some s ∧
      (∃ s1 s2, waveHandPushDown 2 5 s = some s1 ∧ PathsClear s1 ∧
        waveHand 2 5 s = some s2 ∧ PathsClear s2) ∧
      (∃ t1 v t2, answerAudPushDown 2 5 s = some t1 ∧ PathsClear t1 ∧
        answerAud 2 5 s = some (v, t2) ∧ PathsClear t2) :=
  pushDown_clears_paths 5 [Op.waveHand 1 4] 2 5 (by decide) (by decide) (by decide)
    (by decide) (by decide)

/-! ## Claim C17: the paths of findPath in the tree of buildTree -/

theorem length_leavesInOrder : ∀ h : Nat, (leavesInOrder h).length = 2 ^ h := by
  intro h
  induction h with
  | zero => rfl
  | succ h ih => simp [leavesInOrder, ih, pow_succ]; omega

theorem leavesInOrder_get : ∀ (h : Nat) (t : treeNode) (lo i : Int), Perfect h t → Mid h lo t →
    lo ≤ i → i < lo + 2 ^ h → (leavesInOrder h)[(i - lo).toNat]? = some (dirs h t i) := by
  intro h
  induction h with
  | zero =>
    intro t lo i _ _ h0 h1
    have : i - lo = 0 := by simp at h1; omega
    cases t <;> simp [leavesInOrder, dirs, this]
  | succ h ih =>
    intro t lo i hp hm h0 h1
    cases t with
    | null => simp [Perfect] at hp
    | node n m f l r =>
      obtain ⟨hm0, hml, hmr⟩ := hm
      subst hm0
      have h2 : (2 : Int) ^ (h + 1) = 2 ^ h + 2 ^ h := by ring
      have hpow : ((2 ^ h : Nat) : Int) = 2 ^ h := by push_cast; rfl
      by_cases hi : i < lo + 2 ^ h
      · have hlt : (i - lo).toNat < ((leavesInOrder h).map (fun q => false :: q)).length := by
          rw [List.length_map, length_leavesInOrder]
          omega
        rw [leavesInOrder, List.getElem?_append_left hlt, List.getElem?_map,
          ih l lo i hp.1 hml h0 hi]
        simp [dirs, hi]
      · have hge : ((leavesInOrder h).map (fun q => false :: q)).length ≤ (i - lo).toNat := by
          rw [List.length_map, length_leavesInOrder]
          omega
        have e : (i - lo).toNat - ((leavesInOrder h).map (fun q => false :: q)).length
            = (i - (lo + 2 ^ h)).toNat := by
          rw [List.length_map, length_leavesInOrder]
          omega
        rw [leavesInOrder, List.getElem?_append_right hge, e, List.getElem?_map,
          ih r (lo + 2 ^ h) i hp.2 hmr (by omega) (by omega)]
        simp [dirs, hi]

theorem take_succ_exists : ∀ (ds : List Bool) (j : Nat), j < ds.length →
    ∃ d, ds.take (j + 1) = ds.take j ++ [d] := by
  intro ds
  induction ds with
  | nil => intro j hj; simp at hj
  | cons e ds ih =>
    intro j hj
    cases j with
    | zero => exact ⟨e, by simp⟩
    | succ j =>
      obtain ⟨d, hd⟩ := ih j (by simpa using hj)
      exact ⟨d, by simp [hd]⟩

theorem child_step (s : State) (ds : List Bool) (j : Nat) (hp : Perfect s.treeHeight s.root)
    (hl : ds.length = s.treeHeight) (hj : j < s.treeHeight) :
    getLeft s (some (ds.take j)) = some (some (ds.take (j + 1))) ∨
    getRight s (some (ds.take j)) = some (some (ds.take (j + 1))) := by
  obtain ⟨d, hd⟩ := take_succ_exists ds j (by omega)
  have hlen : (ds.take j).length = j := by rw [List.length_take]; omega
  have hps := perfect_sub (ds.take j) _ _ hp (by omega)
  rw [hlen] at hps
  obtain ⟨k, hk⟩ : ∃ k, s.treeHeight - j = k + 1 := ⟨s.treeHeight - j - 1, by omega⟩
  rw [hk] at hps
  obtain ⟨n, m, f, nl, ml, fl, ll, lr, nr, mr, fr, rl, rr, hX⟩ := perfect_succ_cases hps
  have hne : s.root.sub (ds.take j) ≠ .null := by simp [hX]
  have hL := getLeft_some s s.root _ hne
  have hR := getRight_some s s.root _ hne
  rw [withRoot_self] at hL hR
  rw [hL, hR, hd, hX]
  cases d
  · left; simp [childPtr, treeNode.child]
  · right; simp [childPtr, treeNode.child]

theorem leaf_no_child (s : State) (ds : List Bool) (hp : Perfect s.treeHeight s.root)
    (hl : ds.length = s.treeHeight) :
    getLeft s (some ds) = some none ∧ getRight s (some ds) = some none := by
  have hps := perfect_sub ds _ _ hp (by omega)
  rw [hl, Nat.sub_self] at hps
  have hne : s.root.sub ds ≠ .null := perfect_ne_null hps
  have hL := getLeft_some s s.root _ hne
  have hR := getRight_some s s.root _ hne
  rw [withRoot_self] at hL hR
  rw [hL, hR]
  cases hX : s.root.sub ds with
  | null => exact absurd hX hne
  | node n m f l r =>
    rw [hX] at hps
    obtain ⟨rfl, rfl⟩ := hps
    simp [childPtr, treeNode.child]

theorem mid_le_of_right : ∀ (q : List Bool) (h : Nat) (t : treeNode) (i : Int),
    (dirs h t i).take (q.length + 1) = q ++ [true] → (t.sub q).mid ≤ i := by
  intro q
  induction q with
  | nil =>
    intro h t i he
    cases h with
    | zero => simp [dirs] at he
    | succ h =>
      cases t with
      | null => simp [dirs] at he
      | node n m f l r =>
        by_cases hi : i < m
        · simp [dirs, hi] at he
        · simpa [treeNode.mid] using hi
  | cons d q ih =>
    intro h t i he
    cases h with
    | zero => simp [dirs] at he
    | succ h =>
      cases t with
      | null => simp [dirs] at he
      | node n m f l r =>
        by_cases hi : i < m
        · simp only [dirs, hi, if_true, List.length_cons, List.take_succ_cons,
            List.cons_append, List.cons.injEq] at he
          obtain ⟨hd, he⟩ := he
          subst hd
          simpa using ih h l i he
        · simp only [dirs, hi, if_false, List.length_cons, List.take_succ_cons,
            List.cons_append, List.cons.injEq] at he
          obtain ⟨hd, he⟩ := he
          subst hd
          simpa using ih h r i he

theorem mid_reaches_right : ∀ (q : List Bool) (h : Nat) (t : treeNode) (lo : Int),
    Perfect h t → Mid h lo t → q.length < h →
    lo ≤ (t.sub q).mid ∧ (t.sub q).mid < lo + 2 ^ h ∧
      (dirs h t (t.sub q).mid).take (q.length + 1) = q ++ [true] := by
  intro q
  induction q with
  | nil =>
    intro h t lo hp hm hq
    cases h with
    | zero => simp at hq
    | succ h =>
      cases t with
      | null => simp [Perfect] at hp
      | node n m f l r =>
        obtain ⟨hm0, _, _⟩ := hm
        subst hm0
        have h2 : (2 : Int) ^ (h + 1) = 2 ^ h + 2 ^ h := by ring
        have hpos : (0 : Int) < 2 ^ h := by positivity
        refine ⟨by simp only [sub_nil, treeNode.mid]; omega,
          by simp only [sub_nil, treeNode.mid]; omega, ?_⟩
        simp [dirs, treeNode.mid]
  | cons d q ih =>
    intro h t lo hp hm hq
    cases h with
    | zero => simp at hq
    | succ h =>
      cases t with
      | null => simp [Perfect] at hp
      | node n m f l r =>
        obtain ⟨hm0, hml, hmr⟩ := hm
        subst hm0
        have h2 : (2 : Int) ^ (h + 1) = 2 ^ h + 2 ^ h := by ring
        have hpos : (0 : Int) < 2 ^ h := by positivity
        have hq1 : q.length < h := by simpa using hq
        cases d with
        | false =>
          obtain ⟨a1, a2, a3⟩ := ih h l lo hp.1 hml hq1
          have e : (treeNode.node n (lo + 2 ^ h) f l r).sub (false :: q) = l.sub q := by simp
          rw [e]
          refine ⟨a1, by omega, ?_⟩
          simp [dirs, a2, a3]
        | true =>
          obtain ⟨a1, a2, a3⟩ := ih h r (lo + 2 ^ h) hp.2 hmr hq1
          have e : (treeNode.node n (lo + 2 ^ h) f l r).sub (true :: q) = r.sub q := by simp
          rw [e]
          refine ⟨by omega, by omega, ?_⟩
          have hnl : ¬ (r.sub q).mid < lo + 2 ^ h := by omega
          simp [dirs, hnl, a3]

theorem findPath_spec (s : State) (i : Int) (pathID : Nat) (hid : pathID < 2)
    (hH : s.treeHeight ≤ MAX_HEIGHT) (hp : Perfect s.treeHeight s.root) :
    ∃ s1, findPath i pathID s = some s1 ∧ s1.treeHeight = s.treeHeight ∧ s1.root = s.root ∧
      ∀ b, b ≤ s.treeHeight →
        s1.path pathID b = some ((dirs s.treeHeight s.root i).take (s.treeHeight - b)) :=
  ⟨_, findPath_eq s i pathID hid hH hp, rfl, rfl, fun b hb => by simp [hb]⟩

/-- The paths of `findPath` in a well-formed tree. -/
theorem findPath_good (s : State) (hg : Good s) :
    (∀ (i : Int) (pathID : Nat), pathID < 2 → 0 ≤ i → i ≤ 2 ^ s.treeHeight - 1 →
      ∃ s1, findPath i pathID s = some s1 ∧
        s1.path pathID s.treeHeight = rootPtr s ∧
        (∀ k, 1 ≤ k → k ≤ s.treeHeight →
          getLeft s1 (s1.path pathID k) = some (s1.path pathID (k - 1)) ∨
          getRight s1 (s1.path pathID k) = some (s1.path pathID (k - 1))) ∧
        s1.path pathID 0 = (leavesInOrder s.treeHeight)[i.toNat]? ∧
        getLeft s1 (s1.path pathID 0) = some none ∧
        getRight s1 (s1.path pathID 0) = some none) ∧
    (∀ i j : Int, 0 ≤ i → i ≤ 2 ^ s.treeHeight - 1 → 0 ≤ j → j ≤ 2 ^ s.treeHeight - 1 → i ≠ j →
      ∃ s1 s2, findPath i 0 s = some s1 ∧ findPath j 0 s = some s2 ∧
        s1.path 0 0 ≠ s2.path 0 0) ∧
    (∀ q : List Bool, q.length < s.treeHeight →
      (∃ s1, findPath (s.root.sub q).mid 0 s = some s1 ∧
        s1.path 0 (s.treeHeight - q.length - 1) = some (q ++ [true])) ∧
      ∀ i s1, findPath i 0 s = some s1 →
        s1.path 0 (s.treeHeight - q.length - 1) = some (q ++ [true]) → (s.root.sub q).mid ≤ i) := by
  obtain ⟨hH, hp, hm, _⟩ := id hg
  have htake : ∀ i : Int, (dirs s.treeHeight s.root i).take s.treeHeight
      = dirs s.treeHeight s.root i :=
    fun i => List.take_of_length_le (le_of_eq (dirs_length _ _ i hp))
  refine ⟨?_, ?_, ?_⟩
  · intro i pathID hid hi0 hi1
    obtain ⟨s1, hf, hh, hr, hpath⟩ := findPath_spec s i pathID hid hH hp
    have hp1 : Perfect s1.treeHeight s1.root := by rw [hh, hr]; exact hp
    have hlen := dirs_length _ _ i hp
    refine ⟨s1, hf, ?_, ?_, ?_, ?_⟩
    · rw [hpath _ le_rfl, Nat.sub_self, List.take_zero]
      unfold rootPtr
      cases hX : s.root with
      | null => rw [hX] at hp; exact absurd hp (by cases s.treeHeight <;> simp [Perfect])
      | node n m f l r => rfl
    · intro k hk1 hk
      rw [hpath k hk, hpath (k - 1) (by omega)]
      have e : s.treeHeight - (k - 1) = (s.treeHeight - k) + 1 := by omega
      rw [e]
      exact child_step s1 _ _ hp1 (by rw [hh]; exact hlen) (by rw [hh]; omega)
    · rw [hpath 0 (Nat.zero_le _), Nat.sub_zero, htake]
      have := leavesInOrder_get _ _ 0 i hp hm hi0 (by omega)
      simpa using this.symm
    · rw [hpath 0 (Nat.zero_le _), Nat.sub_zero, htake]
      exact leaf_no_child s1 _ hp1 (by rw [hh]; exact hlen)
  · intro i j hi0 hi1 hj0 hj1 hij
    obtain ⟨s1, hf1, _, _, hpath1⟩ := findPath_spec s i 0 (by omega) hH hp
    obtain ⟨s2, hf2, _, _, hpath2⟩ := findPath_spec s j 0 (by omega) hH hp
    refine ⟨s1, s2, hf1, hf2, ?_⟩
    rw [hpath1 0 (Nat.zero_le _), hpath2 0 (Nat.zero_le _), Nat.sub_zero, htake, htake]
    intro he
    exact hij (dirs_inj _ _ 0 i j hp hm hi0 (by omega) hj0 (by omega) (Option.some.inj he))
  · intro q hq
    obtain ⟨a1, a2, a3⟩ := mid_reaches_right q _ _ 0 hp hm hq
    have e : s.treeHeight - (s.treeHeight - q.length - 1) = q.length + 1 := by omega
    constructor
    · obtain ⟨s1, hf1, _, _, hpath1⟩ := findPath_spec s (s.root.sub q).mid 0 (by omega) hH hp
      exact ⟨s1, hf1, by rw [hpath1 _ (by omega), e, a3]⟩
    · intro i s1 hf hpq
      obtain ⟨s1', hf1, _, _, hpath1⟩ := findPath_spec s i 0 (by omega) hH hp
      rw [hf] at hf1
      obtain rfl := Option.some.inj hf1
      rw [hpath1 _ (by omega), e] at hpq
      exact mid_le_of_right q _ _ i (Option.some.inj hpq)

/-- Claim C17: on the tree built by `buildTree (n)`, `1 ≤ n ≤ 1000000`, `findPath (i, pathID)`
for an index `i` of `0 .. 2^treeHeight - 1` stores the root at `path[treeHeight]`, a child
of `path[k]` at `path[k - 1]` for every `k`, and at `path[0]` the leaf at position `i`
(counting from `0`) of the leaves from left to right; the indices of `1..n` reach pairwise
distinct leaves; and the `middle` of every internal node is the smallest index whose path
goes through the right child of the node. -/
theorem findPath_reaches_leaf (n : Int) (h1 : 1 ≤ n) (hn : n ≤ MAX_N) :
    ∃ out s, buildTree n = some (out, s) ∧
      (∀ (i : Int) (pathID : Nat), pathID < 2 → 0 ≤ i → i ≤ 2 ^ s.treeHeight - 1 →
        ∃ s1, findPath i pathID s = some s1 ∧
          s1.path pathID s.treeHeight = rootPtr s ∧
          (∀ k, 1 ≤ k → k ≤ s.treeHeight →
            getLeft s1 (s1.path pathID k) = some (s1.path pathID (k - 1)) ∨
            getRight s1 (s1.path pathID k) = some (s1.path pathID (k - 1))) ∧
          s1.path pathID 0 = (leavesInOrder s.treeHeight)[i.toNat]? ∧
          getLeft s1 (s1.path pathID 0) = some none ∧
          getRight s1 (s1.path pathID 0) = some none) ∧
      (∀ i j : Int, 1 ≤ i → i ≤ n → 1 ≤ j → j ≤ n → i ≠ j →
        ∃ s1 s2, findPath i 0 s = some s1 ∧ findPath j 0 s = some s2 ∧
          s1.path 0 0 ≠ s2.path 0 0) ∧
      (∀ q : List Bool, q.length < s.treeHeight →
        (∃ s1, findPath (s.root.sub q).mid 0 s = some s1 ∧
          s1.path 0 (s.treeHeight - q.length - 1) = some (q ++ [true])) ∧
        ∀ i s1, findPath i 0 s = some s1 →
          s1.path 0 (s.treeHeight - q.length - 1) = some (q ++ [true]) →
          (s.root.sub q).mid ≤ i) := by
  obtain ⟨s, hb, hh, _, hg, _, _⟩ := buildTree_spec n h1 (ceilLog2_le_max n h1 hn)
  have hlt : n < 2 ^ s.treeHeight := by rw [hh]; exact lt_two_pow_ceilLog2 n h1
  obtain ⟨p1, p2, p3⟩ := findPath_good s hg
  refine ⟨_, s, hb, p1, ?_, p3⟩
  intro i j hi1 hin hj1 hjn hij
  exact p2 i j (by omega) (by omega) (by omega) (by omega) hij

/-- Witness of claim C17: five cards. -/
theorem findPath_reaches_leaf_witness :
    ∃ out s, buildTree 5 = some (out, s) ∧
      (∀ (i : Int) (pathID : Nat), pathID < 2 → 0 ≤ i → i ≤ 2 ^ s.treeHeight - 1 →
        ∃ s1, findPath i pathID s = some s1 ∧
          s1.path pathID s.treeHeight = rootPtr s ∧
          (∀ k, 1 ≤ k → k ≤ s.treeHeight →
            getLeft s1 (s1.path pathID k) = some (s1.path pathID (k - 1)) ∨
            getRight s1 (s1.path pathID k) = some (s1.path pathID (k - 1))) ∧
          s1.path pathID 0 = (leavesInOrder s.treeHeight)[i.toNat]? ∧
          getLeft s1 (s1.path pathID 0) = some none ∧
          getRight s1 (s1.path pathID 0) = some none) ∧
      (∀ i j : Int, 1 ≤ i → i ≤ 5 → 1 ≤ j → j ≤ 5 → i ≠ j →
        ∃ s1 s2, findPath i 0 s = some s1 ∧ findPath j 0 s = some s2 ∧
          s1.path 0 0 ≠ s2.path 0 0) ∧
      (∀ q : List Bool, q.length < s.treeHeight →
        (∃ s1, findPath (s.root.sub q).mid 0 s = some s1 ∧
          s1.path 0 (s.treeHeight - q.length - 1) = some (q ++ [true])) ∧
        ∀ i s1, findPath i 0 s = some s1 →
          s1.path 0 (s.treeHeight - q.length - 1) = some (q ++ [true]) →
          (s.root.sub q).mid ≤ i) :=
  findPath_reaches_leaf 5 (by decide) (by decide)

/-! ## Claim C18: the size of the tree of buildTree -/

theorem numLeaves_perfect : ∀ (h : Nat) (t : treeNode), Perfect h t → numLeaves t = 2 ^ h := by
  intro h
  induction h with
  | zero =>
    intro t hp
    cases t with
    | null => simp [Perfect] at hp
    | node n m f l r =>
      obtain ⟨rfl, rfl⟩ := hp
      rfl
  | succ h ih =>
    intro t hp
    obtain ⟨n, m, f, nl, ml, fl, ll, lr, nr, mr, fr, rl, rr, rfl⟩ := perfect_succ_cases hp
    have e : numLeaves (.node n m f (.node nl ml fl ll lr) (.node nr mr fr rl rr))
        = numLeaves (.node nl ml fl ll lr) + numLeaves (.node nr mr fr rl rr) := by
      simp [numLeaves]
    rw [e, ih _ hp.1, ih _ hp.2, pow_succ]
    omega

theorem twoChildren_perfect : ∀ (h : Nat) (t : treeNode), Perfect h t → TwoChildren t := by
  intro h
  induction h with
  | zero =>
    intro t hp
    cases t with
    | null => simp [Perfect] at hp
    | node n m f l r =>
      obtain ⟨rfl, rfl⟩ := hp
      simp [TwoChildren]
  | succ h ih =>
    intro t hp
    cases t with
    | null => simp [Perfect] at hp
    | node n m f l r =>
      exact ⟨Or.inr ⟨perfect_ne_null hp.1, perfect_ne_null hp.2⟩, ih l hp.1, ih r hp.2⟩

/-- Claim C18, as it is worded, fails: for `n = 4` the tree has `8` leaves, and the
smallest power of two that is `≥ 4` is `4`. -/
theorem leaves_not_least_power_ge_n :
    (buildTree 4).map (fun b => (b.2.treeHeight, numLeaves b.2.root)) = some (3, 8) ∧
    (4 : Int) ≤ 2 ^ 2 ∧ 2 ^ 2 < 8 := by
  decide

/-- Claim C18, amended: for `1 ≤ n ≤ 1000000`, `buildTree (n)` builds a perfect binary
tree in which each internal node has exactly two children and whose number of leaves is
the smallest power of two that is `≥ n + 1` (the index `0` is not used). -/
theorem buildTree_leaves (n : Int) (h1 : 1 ≤ n) (hn : n ≤ MAX_N) :
    ∃ out s, buildTree n = some (out, s) ∧ Perfect s.treeHeight s.root ∧
      TwoChildren s.root ∧ numLeaves s.root = 2 ^ s.treeHeight ∧
      n + 1 ≤ ((numLeaves s.root : Nat) : Int) ∧
      ∀ k : Nat, n + 1 ≤ 2 ^ k → numLeaves s.root ≤ 2 ^ k := by
  obtain ⟨s, hb, hh, _, hg, _, _⟩ := buildTree_spec n h1 (ceilLog2_le_max n h1 hn)
  have hlt := lt_two_pow_ceilLog2 n h1
  have hnl := numLeaves_perfect _ _ hg.2.1
  refine ⟨_, s, hb, hg.2.1, twoChildren_perfect _ _ hg.2.1, hnl, ?_, ?_⟩
  · rw [hnl, hh]
    push_cast
    omega
  · intro k hk
    rw [hnl, hh]
    apply Nat.pow_le_pow_right (by norm_num)
    apply (ceilLog2_spec (n + 1).toNat).2
    have : (((n + 1).toNat : Nat) : Int) ≤ ((2 ^ k : Nat) : Int) := by
      rw [Int.toNat_of_nonneg (by omega)]
      push_cast
      exact hk
    exact_mod_cast this

/-- Witness of claim C18: four cards. -/
theorem buildTree_leaves_witness :
    ∃ out s, buildTree 4 = some (out, s) ∧ Perfect s.treeHeight s.root ∧
      TwoChildren s.root ∧ numLeaves s.root = 2 ^ s.treeHeight ∧
      (4 : Int) + 1 ≤ ((numLeaves s.root : Nat) : Int) ∧
      ∀ k : Nat, (4 : Int) + 1 ≤ 2 ^ k → numLeaves s.root ≤ 2 ^ k :=
  buildTree_leaves 4 (by decide) (by decide)

/-! ## Claim C19: answerAud keeps the card states -/

theorem descend_of_clear (step : Nat → treeNode → treeNode)
    (hid : ∀ k t, t.flag = false → step k t = t) :
    ∀ (h : Nat) (ds : List Bool) (t : treeNode), Clear h ds t → descend step h ds t = t := by
  intro h
  induction h with
  | zero => intro ds t _; simp [descend]
  | succ h ih =>
    intro ds t hc
    cases ds with
    | nil => simp [descend]
    | cons d ds =>
      simp only [descend, hid _ _ hc.1, ih ds _ hc.2, setChild_child]

theorem pushSpec_of_clear (step : Nat → treeNode → treeNode)
    (hid : ∀ k t, t.flag = false → step k t = t) :
    ∀ (h : Nat) (ds0 ds1 : List Bool) (t : treeNode), Clear h ds0 t → Clear h ds1 t →
      pushSpec step h ds0 ds1 t = t := by
  intro h
  induction h with
  | zero => intro ds0 ds1 t _ _; simp [pushSpec]
  | succ h ih =>
    intro ds0 ds1 t c0 c1
    cases ds0 with
    | nil => simp [pushSpec]
    | cons d0 a =>
      cases ds1 with
      | nil => simp [pushSpec]
      | cons d1 b =>
        by_cases hd : d0 = d1
        · subst hd
          simp only [pushSpec, if_true, hid _ _ c0.1, ih a b _ c0.2 c1.2, setChild_child]
        · simp only [pushSpec, hd, if_false, hid _ _ c0.1, descend_of_clear step hid h a _ c0.2,
            descend_of_clear step hid h b _ c1.2, setChild_child]

theorem askSpec_idem (h : Nat) (ds0 ds1 : List Bool) (t : treeNode)
    (hlen : ds0.length = ds1.length) :
    askSpec h ds0 ds1 (askSpec h ds0 ds1 t) = askSpec h ds0 ds1 t := by
  rw [askSpec_eq_pushSpec h ds0 ds1 (askSpec h ds0 ds1 t), askSpec_eq_pushSpec h ds0 ds1 t]
  exact pushSpec_of_clear pushA pushA_of_flag h ds0 ds1 _
    (clear0_pushSpec _ pushA_flag _ _ _ _ hlen) (clear1_pushSpec _ pushA_flag _ _ _ _ hlen)

/-- Claim C19: on a perfect tree of height `treeHeight`, whatever its flags and counts,
and for any `l` and `r`, `answerAud (l, r)` returns and leaves the card state of every index
as it was; the same query issued again right after it returns the same value.  (A tree
reached from `buildTree (n)` is such a tree.) -/
theorem answerAud_keeps_card_states (s : State) (l r : Int) (hH : s.treeHeight ≤ MAX_HEIGHT)
    (hp : Perfect s.treeHeight s.root) :
    ∃ v s1, answerAud l r s = some (v, s1) ∧ s1.treeHeight = s.treeHeight ∧
      (∀ i, cardState s1 i = cardState s i) ∧
      ∃ s2, answerAud l r s1 = some (v, s2) := by
  have hss := sameShape_askSpec s.treeHeight (dirs s.treeHeight s.root l)
    (dirs s.treeHeight s.root r) s.root
  have hp1 := perfect_sameShape hss hp
  refine ⟨_, _, answerAud_eq s l r hH hp, rfl, ?_, ?_⟩
  · intro i
    exact card_askSpec _ _ _ _ i hp
  · have h2 := answerAud_eq ⟨s.treeHeight, askSpec s.treeHeight (dirs s.treeHeight s.root l)
      (dirs s.treeHeight s.root r) s.root, pathsOf s (dirs s.treeHeight s.root l)
      (dirs s.treeHeight s.root r)⟩ l r hH hp1
    simp only [← dirs_sameShape l hss, ← dirs_sameShape r hss] at h2
    rw [askSpec_idem _ _ _ _ (by rw [dirs_length _ _ l hp, dirs_length _ _ r hp])] at h2
    exact ⟨_, h2⟩

/-- Witness of claim C19: the sample tree of height 2, whose root has a pending flag;
`answerAud (1, 2)` clears the flag of the root and replaces its `numFaceDown`. -/
theorem answerAud_keeps_card_states_witness :
    sampleState.root.flag = true ∧
    (answerAud 1 2 sampleState).map (fun vs => (vs.2.root.flag, vs.2.root.num))
      = some (false, 3) ∧
    ∃ v s1, answerAud 1 2 sampleState = some (v, s1) ∧
      s1.treeHeight = sampleState.treeHeight ∧
      (∀ i, cardState s1 i = cardState sampleState i) ∧
      ∃ s2, answerAud 1 2 s1 = some (v, s2) :=
  ⟨by decide, by decide,
    answerAud_keeps_card_states sampleState 1 2 (by decide) (by simp [sampleState, Perfect])⟩

/-! ## Claim C20: no operation fails -/

/-- Claim C20: for `1 ≤ n ≤ 1000000`, `buildTree (n)` followed by any sequence of
`waveHand (l, r)` and `answerAud (l, r)`, with any integers `l` and `r`, runs to its end:
no step dereferences `NULL` or reads or writes `path` or `twoPowers` outside
`0 .. MAX_HEIGHT` (a step that did would make the result `none`).  The tree stays perfect
of height `treeHeight ≤ MAX_HEIGHT`, and a further `waveHand` or `answerAud` with any
bounds returns as well. -/
theorem operations_never_fail (n : Int) (ops : List Op) (h1 : 1 ≤ n) (hn : n ≤ MAX_N) :
    ∃ s, runFrom n ops = some s ∧ s.treeHeight ≤ MAX_HEIGHT ∧
      Perfect s.treeHeight s.root ∧
      ∀ l r : Int, (∃ s1, waveHand l r s = some s1) ∧ (∃ v s1, answerAud l r s = some (v, s1)) := by
  obtain ⟨s, hrun, hg, _⟩ := runFrom_good_any n ops h1 hn
  refine ⟨s, hrun, hg.1, hg.2.1, ?_⟩
  intro l r
  exact ⟨⟨_, waveHand_eq s l r hg.1 hg.2.1⟩, ⟨_, _, answerAud_eq s l r hg.1 hg.2.1⟩⟩

/-- Witness of claim C20: five cards, a `waveHand` with `l > r` and an `answerAud` with
both bounds outside `1..5`. -/
theorem operations_never_fail_witness :
    ∃ s, runFrom 5 [Op.waveHand 4 2, Op.answerAud (-3) 9] = some s ∧
      s.treeHeight ≤ MAX_HEIGHT ∧ Perfect s.treeHeight s.root ∧
      ∀ l r : Int, (∃ s1, waveHand l r s = some s1) ∧ (∃ v s1, answerAud l r s = some (v, s1)) :=
  operations_never_fail 5 [Op.waveHand 4 2, Op.answerAud (-3) 9] (by decide) (by decide)

end Pokerface
